import Mathlib

/-! mobydig: address qualities, the verifier's address cache, the digger and the result map

A shallow embedding of `types/quality.go`, `types/addr.go`,
`verifier/addrcache.go`, the loops of `verifier/verifier.go`, `dig/mobynet.go`,
the loop of `dig/dig.go`, `dig/addrmap.go`, the verdicts of `ping/ping.go`, the
resolve task of `dnsworker/dnsworker.go`, the argument check of
`cmd/mobydig/cmdroot.go` and the grouping of `cmd/mobydig/display.go`, and of
two compositions: `DigFQDNs` with the callbacks it hands to the resolver pool,
and `Verify` with the probes of the pinger.

Modelling conventions:

* `type Quality int` with its four `iota` constants is an inductive type; the
  integer a constant stands for is `Quality.val`, and `<=`, `>` compare it.
* A Go `error` is `Option String` (`none` is `nil`).
* The interface `QualifiedAddress` is the sum of its two implementations.
* A Go `map[string]V` is an association list with at most one pair per key.
* A `context.Context` is the number of channel sends that still win the race
  against `ctx.Done()`; `none` is a context that is never cancelled.
* A channel is the list of the values sent on it, oldest first.
* Goroutines that run side by side are one state and a schedule: the list of
  who acts next. What is proved of a run is proved for every schedule.
-/

namespace Mobydig

/-! ## types/quality.go -/

/-- Quality of a network address: `type Quality int`. -/
inductive Quality where
  | Unverified
  | Verifying
  | Invalid
  | Verified
  deriving DecidableEq, Repr

namespace Quality

/-- The integer of a quality constant, as `iota` numbers them. -/
def val : Quality → Nat
  | Unverified => 0
  | Verifying => 1
  | Invalid => 2
  | Verified => 3

instance : LE Quality := ⟨fun a b => a.val ≤ b.val⟩

instance : LT Quality := ⟨fun a b => a.val < b.val⟩

instance decLe (a b : Quality) : Decidable (a ≤ b) :=
  inferInstanceAs (Decidable (a.val ≤ b.val))

instance decLt (a b : Quality) : Decidable (a < b) :=
  inferInstanceAs (Decidable (a.val < b.val))

/-- The method `Quality.IsPending`. -/
def IsPending (q : Quality) : Bool :=
  match q with
  | Unverified | Verified => true
  | _ => false

/-- The rank that property P3 of the specification names:
`Unverified(0) < Verifying(1) < {Invalid, Verified}(2)`. It is not part of the
code; it is only used to state that property. -/
def specRank : Quality → Nat
  | Unverified => 0
  | Verifying => 1
  | Invalid => 2
  | Verified => 2

/-- A terminal quality is `Verified` or `Invalid`. -/
def IsTerminal (q : Quality) : Prop := q = Verified ∨ q = Invalid

instance decIsTerminal (q : Quality) : Decidable q.IsTerminal :=
  inferInstanceAs (Decidable (q = Verified ∨ q = Invalid))

end Quality

/-! ## types/addr.go -/

/-- The struct `QualifiedAddressValue`. -/
structure QualifiedAddressValue where
  Address : String
  Quality : Quality
  err : Option String
  deriving DecidableEq, Repr

/-- The struct `NamedAddressValue`, which embeds a `QualifiedAddressValue`. -/
structure NamedAddressValue extends QualifiedAddressValue where
  FQDN : String
  deriving DecidableEq, Repr

/-- The interface `QualifiedAddress`: a value of one of the two types that
implement it. `NamedAddress` is the interface only `named` values satisfy. -/
inductive QualifiedAddress where
  | qualified (v : QualifiedAddressValue)
  | named (v : NamedAddressValue)
  deriving DecidableEq, Repr

namespace QualifiedAddressValue

def Addr (qa : QualifiedAddressValue) : String := qa.Address

def Qual (qa : QualifiedAddressValue) : Mobydig.Quality := qa.Quality

def Err (qa : QualifiedAddressValue) : Option String := qa.err

/-- `QA` returns a copy of the receiver. -/
def QA (qa : QualifiedAddressValue) : QualifiedAddressValue := qa

/-- `(*QualifiedAddressValue).WithNewQuality`: the receiver after the call and
the value returned. -/
def WithNewQuality (qa : QualifiedAddressValue) (q : Mobydig.Quality) (_err : Option String) :
    QualifiedAddressValue × QualifiedAddress :=
  (qa, .qualified { Address := qa.Address, Quality := q, err := qa.err })

end QualifiedAddressValue

namespace NamedAddressValue

def Addr (na : NamedAddressValue) : String := na.toQualifiedAddressValue.Addr

def Qual (na : NamedAddressValue) : Mobydig.Quality := na.toQualifiedAddressValue.Qual

def Err (na : NamedAddressValue) : Option String := na.toQualifiedAddressValue.Err

def QA (na : NamedAddressValue) : QualifiedAddressValue := na.toQualifiedAddressValue.QA

def Name (na : NamedAddressValue) : String := na.FQDN

/-- `NA` returns a copy of the receiver. -/
def NA (na : NamedAddressValue) : NamedAddressValue := na

/-- `(*NamedAddressValue).WithNewQuality`: the receiver after the call and the
value returned. The method copies the embedded qualified address, writes the
quality and the error into the copy, and wraps the copy with the FQDN. -/
def WithNewQuality (na : NamedAddressValue) (q : Mobydig.Quality) (err : Option String) :
    NamedAddressValue × QualifiedAddress :=
  let qa := na.QA
  let qa := { qa with Quality := q }
  let qa := { qa with err := err }
  (na, .named { FQDN := na.FQDN, toQualifiedAddressValue := qa })

end NamedAddressValue

namespace QualifiedAddress

def Addr : QualifiedAddress → String
  | qualified v => v.Addr
  | named v => v.Addr

def Qual : QualifiedAddress → Mobydig.Quality
  | qualified v => v.Qual
  | named v => v.Qual

def Err : QualifiedAddress → Option String
  | qualified v => v.Err
  | named v => v.Err

/-- The type assertion `x.(types.NamedAddress)`; `none` is the panic. -/
def asNamedAddress : QualifiedAddress → Option NamedAddressValue
  | qualified _ => none
  | named v => some v

end QualifiedAddress

/-! ## Go maps, contexts and channel sends -/

/-- A Go `map[string]V`. -/
abbrev GoMap (V : Type) := List (String × V)

namespace GoMap

/-- The lookup `v, ok := m[k]`. -/
def get {V : Type} : GoMap V → String → Option V
  | [], _ => none
  | (k', v) :: m, k => if k' = k then some v else get m k

/-- The assignment `m[k] = v`. -/
def set {V : Type} : GoMap V → String → V → GoMap V
  | [], k, v => [(k, v)]
  | (k', v') :: m, k, v => if k' = k then (k, v) :: m else (k', v') :: set m k v

end GoMap

/-- A context: `none` is never cancelled, `some n` lets `n` more sends win
against `ctx.Done()` and then is done. -/
abbrev Context := Option Nat

/-- The statement `select { case news <- x: ; case <-ctx.Done(): }`: the
context afterwards, what was put on the channel, and whether the send won. -/
def trySend {α : Type} (ctx : Context) (x : α) : Context × List α × Bool :=
  match ctx with
  | none => (none, [x], true)
  | some 0 => (some 0, [], false)
  | some (n + 1) => (some n, [x], true)

/-! ## verifier/addrcache.go -/

/-- The struct `qualityUpdateConsumers`. -/
structure qualityUpdateConsumers where
  q : Quality
  err : Option String
  consumers : List String
  deriving DecidableEq, Repr

/-- The struct `NamedAddressCache` (its mutex serialises the calls). -/
structure NamedAddressCache where
  m : GoMap qualityUpdateConsumers
  deriving DecidableEq, Repr

/-- `NewNamedAddressCache`. -/
def NewNamedAddressCache : NamedAddressCache := { m := [] }

/-- What a call of `Update` leaves behind: the cache, the context, the records
sent on `news` by this call, and the returned boolean. -/
structure UpdateResult where
  cache : NamedAddressCache
  ctx : Context
  news : List NamedAddressValue
  ret : Bool
  deriving DecidableEq, Repr

/-- The loop that looks for the FQDN among the registered consumers. -/
def knownConsumer (consumers : List String) (fqdn : String) : Bool :=
  consumers.foldl (fun known consumer => if consumer = fqdn then true else known) false

/-- The loop that notifies the consumers: one send per consumer of a copy of
the template with the consumer as FQDN, left at the first send that loses
against the context. -/
def notify (templ : NamedAddressValue) : Context → List String → Context × List NamedAddressValue
  | ctx, [] => (ctx, [])
  | ctx, consumer :: rest =>
    match trySend ctx { templ with FQDN := consumer } with
    | (ctx1, sent, true) =>
      let r := notify templ ctx1 rest
      (r.1, sent ++ r.2)
    | (ctx1, sent, false) => (ctx1, sent)

/-- `(*NamedAddressCache).Update`. The type assertion `.(types.NamedAddress)` on
the result of `WithNewQuality` is taken with the proof that it cannot fail. -/
def NamedAddressCache.Update (c : NamedAddressCache) (ctx : Context)
    (namaddr : NamedAddressValue) : UpdateResult :=
  let addr := namaddr.Addr
  match c.m.get addr with
  | none =>
    let m1 := c.m.set addr { q := namaddr.Qual, err := none, consumers := [namaddr.Name] }
    let s := trySend ctx namaddr
    { cache := { m := m1 }, ctx := s.1, news := s.2.1, ret := true }
  | some qc =>
    let known := knownConsumer qc.consumers namaddr.Name
    let fqdn := namaddr.Name
    if namaddr.Qual ≤ qc.q then
      if !known then
        let qc1 := { qc with consumers := qc.consumers ++ [fqdn] }
        let m1 := c.m.set addr qc1
        let upd := ((namaddr.WithNewQuality qc1.q qc1.err).2.asNamedAddress).get rfl
        let s := trySend ctx upd
        { cache := { m := m1 }, ctx := s.1, news := s.2.1, ret := false }
      else
        { cache := c, ctx := ctx, news := [], ret := false }
    else
      let qc1 := { qc with q := namaddr.Qual }
      let split : List String × qualityUpdateConsumers :=
        match qc1.q with
        | .Unverified | .Verifying =>
          let qc2 := if !known then { qc1 with consumers := qc1.consumers ++ [fqdn] } else qc1
          (qc2.consumers, qc2)
        | _ => (qc1.consumers, { qc1 with consumers := [] })
      let m1 := c.m.set addr split.2
      let templ := namaddr.NA
      let templ := { templ with Quality := namaddr.Qual }
      let r := notify templ ctx split.1
      { cache := { m := m1 }, ctx := r.1, news := r.2, ret := false }

/-- A finite sequence of `Update` calls on one cache with one context: the
cache and context at the end, everything sent on `news` in the order of
sending, and the value each call returned. -/
structure UpdateRun where
  cache : NamedAddressCache
  ctx : Context
  news : List NamedAddressValue
  rets : List Bool
  deriving DecidableEq, Repr

/-- The calls `c.Update(ctx, na, news)` for the records of a list, in order. -/
def runUpdates : NamedAddressCache → Context → List NamedAddressValue → UpdateRun
  | c, ctx, [] => { cache := c, ctx := ctx, news := [], rets := [] }
  | c, ctx, na :: rest =>
    let r := c.Update ctx na
    let t := runUpdates r.cache r.ctx rest
    { cache := t.cache, ctx := t.ctx, news := r.news ++ t.news, rets := r.ret :: t.rets }

/-- The template `templ` of the notification loop of `Update`: a copy of the
incoming record that carries the incoming quality. -/
def templOf (na : NamedAddressValue) : NamedAddressValue :=
  { FQDN := na.FQDN, Address := na.Address, Quality := na.Quality, err := na.err }

/-! ## verifier/verifier.go -/

/-- What the two loops of `Verify` receive: the main loop a record from `in`,
the goroutine a verdict from `v.checked`. The cache's mutex orders their
`Update` calls, so a run of `Verify` is a sequence of such receptions. -/
inductive VerifyEvent where
  | input (addr : NamedAddressValue)
  | checked (qaddr : QualifiedAddress)
  deriving DecidableEq, Repr

/-- The state of a run of `Verify`: the address cache, the context, what was
sent on `v.news`, the arguments of the calls `v.pinger.ValidateQA`, whether the
main loop was left through `break`, and whether the type assertion on a
verdict panicked. -/
structure VerifyState where
  addrcache : NamedAddressCache
  ctx : Context
  news : List NamedAddressValue
  validated : List NamedAddressValue
  stopped : Bool
  panicked : Bool
  deriving DecidableEq, Repr

/-- One reception in `Verify` and what the receiving loop does with it. -/
def verifyStep (st : VerifyState) (ev : VerifyEvent) : VerifyState :=
  if st.panicked then st
  else
    match ev with
    | .input addr =>
      if st.stopped then st
      else if addr.Addr = "" then
        let s := trySend st.ctx addr
        if s.2.2 then { st with ctx := s.1, news := st.news ++ s.2.1 }
        else { st with ctx := s.1, stopped := true }
      else
        let r := st.addrcache.Update st.ctx addr
        { st with
          addrcache := r.cache
          ctx := r.ctx
          news := st.news ++ r.news
          validated := if r.ret then st.validated ++ [addr] else st.validated }
    | .checked qaddr =>
      match qaddr.asNamedAddress with
      | none => { st with panicked := true }
      | some na =>
        let r := st.addrcache.Update st.ctx na
        { st with addrcache := r.cache, ctx := r.ctx, news := st.news ++ r.news }

/-- `(*Verifier).Verify`, up to the point where both loops have ended: a fresh
address cache, then the receptions in their order. -/
def Verifier.Verify (ctx : Context) (events : List VerifyEvent) : VerifyState :=
  events.foldl verifyStep
    { addrcache := NewNamedAddressCache, ctx := ctx, news := [], validated := [],
      stopped := false, panicked := false }

/-- What the loops of `Verify` keep true: every address handed to the pinger is
non-empty and a key of the cache, and no address was handed over twice. -/
def VerifyInv (st : VerifyState) : Prop :=
  (∀ v ∈ st.validated, st.addrcache.m.get v.Addr ≠ none ∧ v.Addr ≠ "") ∧
    (st.validated.map NamedAddressValue.Addr).Nodup

/-! ## dig/mobynet.go and dig/dig.go -/

/-- The keys of a Go map, in the order of the association list. -/
def GoMap.keys {V : Type} (m : GoMap V) : List String := m.map Prod.fst

/-- The struct `DockerNetwork`. -/
structure DockerNetwork where
  Label : String
  Labels : List String
  deriving DecidableEq, Repr

/-- `AllFQDNsOnAttachedNetworks`. Go leaves the order in which `range` visits
the keys of the map `flatnames` open: `order` is that order, a rearrangement of
the keys. -/
def AllFQDNsOnAttachedNetworks (order : List String → List String)
    (nets : List DockerNetwork) : List String :=
  let st := nets.foldl
    (fun st net =>
      net.Labels.foldl
        (fun st label => (st.1 ++ [label ++ "." ++ net.Label], GoMap.set st.2 label ()))
        st)
    (([] : List String), ([] : GoMap Unit))
  st.1 ++ order (GoMap.keys st.2)

/-- What the loop of `DigFQDNs` itself leaves behind: the context, the
placeholder records it sent on the news channel, and the names it handed to
`ResolveName`, in order. -/
structure DigRun where
  ctx : Context
  news : List NamedAddressValue
  resolving : List String
  deriving DecidableEq, Repr

/-- The loop of `(*Digger).DigFQDNs`. `Fqdn` is `dns.Fqdn` of the DNS library,
which is not part of this repository. The callbacks given to `ResolveName` run
later, on the workers of the resolver pool. -/
def Digger.DigFQDNs (Fqdn : String → String) : Context → List String → DigRun
  | ctx, [] => { ctx := ctx, news := [], resolving := [] }
  | ctx, name :: rest =>
    let name := Fqdn name
    match trySend ctx
      ({ FQDN := name, Address := "", Quality := Quality.Unverified, err := none } :
        NamedAddressValue) with
    | (ctx1, sent, true) =>
      let r := Digger.DigFQDNs Fqdn ctx1 rest
      { ctx := r.ctx, news := sent ++ r.news, resolving := name :: r.resolving }
    | (ctx1, sent, false) => { ctx := ctx1, news := sent, resolving := [] }

/-- `(*Digger).DigNetworks`. -/
def Digger.DigNetworks (Fqdn : String → String) (order : List String → List String)
    (ctx : Context) (nets : List DockerNetwork) : DigRun :=
  let names := AllFQDNsOnAttachedNetworks order nets
  Digger.DigFQDNs Fqdn ctx names

/-! ## dig/addrmap.go -/

/-- The struct `NamedAddressSet`. -/
structure NamedAddressSet where
  FQDN : String
  Addresses : List QualifiedAddressValue
  deriving DecidableEq, Repr

/-- The struct `NamedAddressesMap` (its mutex serialises the calls). -/
structure NamedAddressesMap where
  m : GoMap (List QualifiedAddressValue)
  deriving DecidableEq, Repr

/-- `NewNamedAddressesMap`. -/
def NewNamedAddressesMap : NamedAddressesMap := { m := [] }

/-- `(*NamedAddressesMap).Get`. `order` is the order in which `range` visits
the entries of the map, a rearrangement of the entries. -/
def NamedAddressesMap.Get
    (order : List (String × List QualifiedAddressValue) →
      List (String × List QualifiedAddressValue))
    (m : NamedAddressesMap) : List NamedAddressSet :=
  (order m.m).map fun p => { FQDN := p.1, Addresses := p.2 }

/-- The loop of `Update` over the addresses of a known FQDN. `none`: the loop
ended without finding the address. `some l`: the loop returned at the first
element with the address, and `l` is the slice then, its quality overwritten
if the incoming one is greater. -/
def updateKnown (addr : String) (q : Quality) :
    List QualifiedAddressValue → Option (List QualifiedAddressValue)
  | [] => none
  | x :: xs =>
    if x.Address = addr then
      if q > x.Quality then some ({ x with Quality := q } :: xs) else some (x :: xs)
    else (updateKnown addr q xs).map (fun l => x :: l)

/-- `(*NamedAddressesMap).Update`; `none` is the nil named address. The write
`qualaddr[idx].Quality = ...` goes to the array the map's slice shares, so the
map holds the overwritten slice. -/
def NamedAddressesMap.Update (m : NamedAddressesMap) (namaddr : Option NamedAddressValue) :
    NamedAddressesMap :=
  match namaddr with
  | none => m
  | some namaddr =>
    let fqdn := namaddr.Name
    if fqdn = "" then m
    else
      match m.m.get fqdn with
      | some qualaddr =>
        let addr := namaddr.Addr
        if addr = "" then m
        else
          match updateKnown addr namaddr.Qual qualaddr with
          | some written => { m := m.m.set fqdn written }
          | none => { m := m.m.set fqdn (qualaddr ++ [namaddr.QA]) }
      | none =>
        let addr := namaddr.Addr
        if addr = "" then { m := m.m.set fqdn [] }
        else { m := m.m.set fqdn [namaddr.QA] }

/-- `(*NamedAddressesMap).Track` with a context that is not done: `Update` for
every record received until the channel is closed. -/
def NamedAddressesMap.Track (m : NamedAddressesMap) (news : List (Option NamedAddressValue)) :
    NamedAddressesMap :=
  news.foldl NamedAddressesMap.Update m

/-- The entry stored for an address under an FQDN: the first element of the
FQDN's list with that address. -/
def NamedAddressesMap.stored (m : NamedAddressesMap) (fqdn addr : String) :
    Option QualifiedAddressValue :=
  (m.m.get fqdn).bind fun l => l.find? fun x => decide (x.Address = addr)

/-- What every map reached by `Update` from a new map satisfies: no key
occurs twice, no key is empty, no stored address is empty, and no list holds
an address twice. -/
def NamedAddressesMap.WellFormed (m : NamedAddressesMap) : Prop :=
  (GoMap.keys m.m).Nodup ∧
    ∀ p ∈ m.m, p.1 ≠ "" ∧ (∀ x ∈ p.2, x.Address ≠ "") ∧
      (p.2.map QualifiedAddressValue.Address).Nodup

/-! ## ping/ping.go -/

/-- A Go `int` (64 bits) after an arithmetic operation: the value wrapped into
the range of the type. -/
def wrapInt (x : Int) : Int := (x + 2 ^ 63) % 2 ^ 64 - 2 ^ 63

/-- The fields of the struct `Pinger` that decide a verdict. -/
structure Pinger where
  count : Int
  thresholdPercentage : Nat
  netns : Option String
  deriving DecidableEq, Repr

/-- What the world does to one ping task: the error of `ops.Execute` itself
(looked at only when a network namespace is set), and how far the closure
`ping` gets: the context done at its first check, `ping.NewPinger` failing,
`pinger.Run` failing, the context done after the run, or the run completing
with `stats.PacketsRecv` replies. -/
inductive PingOutcome where
  | ctxDoneBefore (err : String)
  | newPingerError (err : String)
  | runError (err : String)
  | ctxDoneAfter (err : String)
  | statistics (packetsRecv : Int)
  deriving DecidableEq, Repr

namespace QualifiedAddress

/-- The interface method `WithNewQuality`, dispatched on the dynamic type. -/
def WithNewQuality (x : QualifiedAddress) (q : Mobydig.Quality) (err : Option String) :
    QualifiedAddress :=
  match x with
  | qualified v => (v.WithNewQuality q err).2
  | named v => (v.WithNewQuality q err).2

/-- The interface method `QA`. -/
def QA : QualifiedAddress → QualifiedAddressValue
  | qualified v => v.QA
  | named v => v.QA

end QualifiedAddress

/-- The closure `ping` in `validate`: the error it returns and the variable
`verdict` after it. -/
def Pinger.ping (p : Pinger) (verdict : QualifiedAddress) :
    PingOutcome → Option String × QualifiedAddress
  | .ctxDoneBefore err => (some err, verdict)
  | .newPingerError err => (some err, verdict)
  | .runError err => (some err, verdict)
  | .ctxDoneAfter err => (some err, verdict)
  | .statistics packetsRecv =>
    if packetsRecv < Int.tdiv (wrapInt (p.count * wrapInt p.thresholdPercentage)) 100 then
      (some "no replies or too many losses", verdict)
    else (none, verdict.WithNewQuality Quality.Verified none)

/-- The task `validate` submits to the worker pool: the verdict its deferred
function sends. -/
def Pinger.task (p : Pinger) (verdict : QualifiedAddress) (execute : Option String)
    (outcome : PingOutcome) : QualifiedAddress :=
  let verdict := verdict.WithNewQuality Quality.Invalid none
  let r : Option String × QualifiedAddress :=
    if p.netns.isSome then
      match execute with
      | some err => (some err, verdict)
      | none => p.ping verdict outcome
    else p.ping verdict outcome
  match r.1 with
  | some err => r.2.WithNewQuality r.2.QA.Quality (some err)
  | none => r.2

/-- `(*Pinger).validate`: the context afterwards and the verdicts sent on the
channel `courtTV`. -/
def Pinger.validate (p : Pinger) (ctx : Context) (verdict : QualifiedAddress)
    (execute : Option String) (outcome : PingOutcome) : Context × List QualifiedAddress :=
  match trySend ctx verdict with
  | (ctx1, sent, false) => (ctx1, sent)
  | (ctx1, sent, true) =>
    let s := trySend ctx1 (p.task verdict execute outcome)
    (s.1, sent ++ s.2.1)

/-- `(*Pinger).Validate`: the probe of a plain address. -/
def Pinger.Validate (p : Pinger) (ctx : Context) (addr : String) (execute : Option String)
    (outcome : PingOutcome) : Context × List QualifiedAddress :=
  p.validate ctx
    (QualifiedAddress.qualified { Address := addr, Quality := Quality.Verifying, err := none })
    execute outcome

/-- `(*Pinger).ValidateQA`. -/
def Pinger.ValidateQA (p : Pinger) (ctx : Context) (addr : QualifiedAddress)
    (execute : Option String) (outcome : PingOutcome) : Context × List QualifiedAddress :=
  p.validate ctx (addr.WithNewQuality Quality.Verifying none) execute outcome

/-- What happens in one probe, in the order of happening: a verdict is sent on
`courtTV`, the task is handed to the worker pool, the task reaches
`pinger.Run`, which sends the echoes. -/
inductive ProbeEvent where
  | verdict (v : QualifiedAddress)
  | submit
  | run
  deriving DecidableEq, Repr

/-- Whether the task reaches `pinger.Run`: `ops.Execute` does not fail (when a
network namespace is set), the context is not done at the first check and
`ping.NewPinger` succeeds. -/
def Pinger.reachesRun (p : Pinger) (execute : Option String) : PingOutcome → Bool
  | .ctxDoneBefore _ => false
  | .newPingerError _ => false
  | _ => !(p.netns.isSome && execute.isSome)

/-- `(*Pinger).validate` as the sequence of its events. The task runs on a
worker after `Submit`; its deferred function sends the final verdict. -/
def Pinger.validateEvents (p : Pinger) (ctx : Context) (verdict : QualifiedAddress)
    (execute : Option String) (outcome : PingOutcome) : List ProbeEvent :=
  match trySend ctx verdict with
  | (_, sent, false) => sent.map ProbeEvent.verdict
  | (ctx1, sent, true) =>
    sent.map ProbeEvent.verdict ++ [ProbeEvent.submit]
      ++ (if p.reachesRun execute outcome then [ProbeEvent.run] else [])
      ++ (trySend ctx1 (p.task verdict execute outcome)).2.1.map ProbeEvent.verdict

/-! ## dnsworker/dnsworker.go -/

/-- A resource record of an answer, by its dynamic type: `*dns.A` and
`*dns.AAAA` with the text of their address, or any other record. -/
inductive RR where
  | A (a : String)
  | AAAA (aaaa : String)
  | other
  deriving DecidableEq, Repr

/-- The result of `dnsclnt.ExchangeWithConn`: an error, or the answer section
of the reply. -/
inductive Exchange where
  | failed (err : String)
  | answer (rrs : List RR)
  deriving DecidableEq, Repr

/-- What the world does to one query of the resolve task: `ctx.Err()` if the
context is done at the check before the query, and the result of the
exchange. -/
structure QueryOutcome where
  ctxErr : Option String
  exchange : Exchange
  deriving DecidableEq, Repr

/-- The query types `dns.TypeA` and `dns.TypeAAAA`. -/
inductive QueryType where
  | TypeA
  | TypeAAAA
  deriving DecidableEq, Repr

/-- What the resolve task does, in the order of doing: a query of a type for a
name is exchanged, the callback `fn` is called. -/
inductive ResolveEvent where
  | query (t : QueryType) (name : String)
  | callback (addrs : List String) (err : Option String)
  deriving DecidableEq, Repr

/-- The variables of the resolve task and the events so far. -/
structure ResolveState where
  addrs : List String
  err : Option String
  nadanothing : Bool
  events : List ResolveEvent
  deriving DecidableEq, Repr

/-- The loop over `r.Answer`. -/
def answerLoop : List RR → List String × Bool → List String × Bool
  | [], st => st
  | RR.A a :: rest, st => answerLoop rest (st.1 ++ [a], false)
  | RR.AAAA aaaa :: rest, st => answerLoop rest (st.1 ++ [aaaa], false)
  | RR.other :: rest, st => answerLoop rest st

/-- The loop over the query types; the boolean tells whether the loop was left
by `return`. -/
def queryLoop (Fqdn : String → String) (name : String) :
    List (QueryType × QueryOutcome) → ResolveState → ResolveState × Bool
  | [], st => (st, false)
  | (t, o) :: rest, st =>
    match o.ctxErr with
    | some err => ({ st with err := some err }, true)
    | none =>
      let st := { st with events := st.events ++ [ResolveEvent.query t (Fqdn name)] }
      match o.exchange with
      | Exchange.failed err => ({ st with err := some err }, true)
      | Exchange.answer rrs =>
        let r := answerLoop rrs (st.addrs, st.nadanothing)
        queryLoop Fqdn name rest { st with addrs := r.1, nadanothing := r.2, err := none }

/-- The task `(*DnsPool).ResolveName` submits, as the sequence of its events;
the deferred function calls `fn` on the way out. `Fqdn` is `dns.Fqdn` and
`quote` the verb `%q` of `fmt`, both outside this repository. -/
def DnsPool.ResolveName (Fqdn : String → String) (quote : String → String) (name : String)
    (a aaaa : QueryOutcome) : List ResolveEvent :=
  let r := queryLoop Fqdn name [(QueryType.TypeA, a), (QueryType.TypeAAAA, aaaa)]
    { addrs := [], err := none, nadanothing := true, events := [] }
  let st :=
    if !r.2 && r.1.nadanothing then
      { r.1 with err := some ("ResolveName: query for " ++ quote name ++ " yields no answers") }
    else r.1
  st.events ++ [ResolveEvent.callback st.addrs st.err]

/-! ## cmd/mobydig/cmdroot.go -/

/-- The constant `time.Millisecond`, a `time.Duration` in nanoseconds. -/
def Millisecond : Int := 1000000

/-- The function `PersistentPreRunE` of `newRootCmd`, over the values of the
flags `--indent`, `--workers` (both `uint`) and `--spinner` (a
`time.Duration`); `none` is the nil error. -/
def PersistentPreRunE (indentation workerNumber : Nat) (spinnerInterval : Int) :
    Option String :=
  if indentation > 80 then some "--indentation width out of range [0..80]"
  else if workerNumber < 1 ∨ workerNumber > 10 then some "--workers out of range [1..10]"
  else if spinnerInterval < 10 * Millisecond then some "--spinner must be at least 10ms"
  else none

/-! ## cmd/mobydig/display.go -/

/-- `bytes.Compare`: -1, 0 or 1 as the first slice is lexicographically less
than, equal to or greater than the second. -/
def bytesCompare : List Nat → List Nat → Int
  | [], [] => 0
  | [], _ :: _ => -1
  | _ :: _, [] => 1
  | x :: xs, y :: ys => if x < y then -1 else if y < x then 1 else bytesCompare xs ys

/-- Insertion of an element before the first element it is less than. -/
def insertLess {α : Type} (less : α → α → Bool) (x : α) : List α → List α
  | [] => [x]
  | y :: ys => if less x y then x :: y :: ys else y :: insertLess less x ys

/-- `sort.Slice`. The library promises a slice sorted by `less` and leaves
open which one; this is the one insertion sort gives. -/
def sortSlice {α : Type} (less : α → α → Bool) (l : List α) : List α :=
  l.foldr (insertLess less) []

/-- `sortQualifiedAddresses`. `ParseIP` is `net.ParseIP` of the Go library, the
bytes of an address literal. -/
def sortQualifiedAddresses (ParseIP : String → List Nat) (addrs : List QualifiedAddressValue) :
    List QualifiedAddressValue :=
  sortSlice
    (fun a b => decide (bytesCompare (ParseIP a.Address) (ParseIP b.Address) < 0)) addrs

/-- `strings.TrimSuffix(s, ".")` on the characters of `s`. -/
def trimSuffixDot (s : List Char) : List Char :=
  match s.reverse with
  | '.' :: r => r.reverse
  | _ => s

/-- `strings.Split(s, ".")` on the characters of `s`. -/
def splitDot : List Char → List (List Char)
  | [] => [[]]
  | c :: cs =>
    if c = '.' then [] :: splitDot cs
    else
      match splitDot cs with
      | [] => [[c]]
      | w :: ws => (c :: w) :: ws

/-- `groupAndLabel`. -/
def groupAndLabel (fqdn : String) : String × String :=
  match (splitDot (trimSuffixDot fqdn.data)).map String.mk with
  | label :: group :: _ => (group, label)
  | [label] => ("", label)
  | [] => ("", "")

/-- `groupName`. -/
def groupName (fqdn : String) : String := (groupAndLabel fqdn).1

/-- `sortFQDNs`. -/
def sortFQDNs (addrs : List NamedAddressSet) : List NamedAddressSet :=
  sortSlice
    (fun a b =>
      decide ((groupAndLabel a.FQDN).1 < (groupAndLabel b.FQDN).1) ||
        (decide ((groupAndLabel a.FQDN).1 = (groupAndLabel b.FQDN).1) &&
          decide ((groupAndLabel a.FQDN).2 < (groupAndLabel b.FQDN).2)))
    addrs

/-- The loop of `groupNames` over the sorted sets: the groups closed so far and
the recent group. The recent group is nil exactly when it is empty, since an
element is appended right after it is allocated. -/
def groupLoop (ParseIP : String → List Nat) :
    List NamedAddressSet → List (List NamedAddressSet) × List NamedAddressSet →
      List (List NamedAddressSet) × List NamedAddressSet
  | [], st => st
  | addr :: rest, (groups, recentGroup) =>
    let gn := groupName addr.FQDN
    let st : List (List NamedAddressSet) × List NamedAddressSet :=
      match recentGroup with
      | [] => (groups, [])
      | first :: _ =>
        if gn ≠ groupName first.FQDN then (groups ++ [recentGroup], []) else (groups, recentGroup)
    let addr := { addr with Addresses := sortQualifiedAddresses ParseIP addr.Addresses }
    groupLoop ParseIP rest (st.1, st.2 ++ [addr])

/-- `groupNames`. -/
def groupNames (ParseIP : String → List Nat) (addrs : List NamedAddressSet) :
    List (List NamedAddressSet) :=
  let addrs := sortFQDNs addrs
  let st := groupLoop ParseIP addrs ([], [])
  let groups := match st.2 with
    | [] => st.1
    | _ :: _ => st.1 ++ [st.2]
  groups.map sortFQDNs

/-- The network names `Render` lists after `networks attached to container`:
the group names of all groups but the zeroth, which it skips as the unnamed
group. -/
def renderedNetworks (groups : List (List NamedAddressSet)) : List String :=
  (groups.drop 1).filterMap fun group => group.head?.map fun first => groupName first.FQDN

/-- The texts of the addresses of the `A` and `AAAA` records of an answer, in
the order of the records. -/
def addressesOf : List RR → List String
  | [] => []
  | RR.A a :: rest => a :: addressesOf rest
  | RR.AAAA aaaa :: rest => aaaa :: addressesOf rest
  | RR.other :: rest => addressesOf rest

/-! ## A run of the digger: the loop of `DigFQDNs` and the callbacks -/

/-- What happens in a run of `DigFQDNs`, in the order of happening: the loop
sends a placeholder on the news channel, the loop hands a name to
`ResolveName`, a callback sends a result on the news channel. -/
inductive DigEvent where
  | placeholder (na : NamedAddressValue)
  | resolve (name : String)
  | result (na : NamedAddressValue)
  deriving DecidableEq, Repr

/-- Who acts next in a run of `DigFQDNs`: the loop, or the callback of the
call of `ResolveName` with the given number. -/
inductive DigAction where
  | loop
  | callback (k : Nat)
  deriving DecidableEq, Repr

/-- The state of a run of `DigFQDNs`: the context, the events so far, the
names the loop has still to visit, the name whose placeholder was sent and
that is handed to `ResolveName` next, whether the loop has returned, and for
every call of `ResolveName` the name and the addresses its callback has still
to send. -/
structure DigState where
  ctx : Context
  events : List DigEvent
  names : List String
  handing : Option String
  returned : Bool
  callbacks : List (String × List String)
  deriving DecidableEq, Repr

/-- The placeholder record of a name. -/
def placeholderOf (name : String) : NamedAddressValue :=
  { FQDN := name, Address := "", Quality := Quality.Unverified, err := none }

/-- One action in a run of `DigFQDNs`. The loop sends the placeholder of the
next name or, after that, hands the name to `ResolveName`; `resolved k` are the
addresses the callback of call `k` is given. A callback sends the record of
its next address, or returns if the context is done. -/
def digStep (Fqdn : String → String) (resolved : Nat → List String) (st : DigState) :
    DigAction → DigState
  | DigAction.loop =>
    if st.returned then st
    else
      match st.handing with
      | some name =>
        { st with
          events := st.events ++ [DigEvent.resolve name]
          handing := none
          callbacks := st.callbacks ++ [(name, resolved st.callbacks.length)] }
      | none =>
        match st.names with
        | [] => { st with returned := true }
        | name :: rest =>
          match trySend st.ctx (placeholderOf (Fqdn name)) with
          | (ctx1, sent, true) =>
            { st with
              ctx := ctx1
              events := st.events ++ sent.map DigEvent.placeholder
              names := rest
              handing := some (Fqdn name) }
          | (ctx1, _, false) => { st with ctx := ctx1, returned := true }
  | DigAction.callback k =>
    match st.callbacks[k]? with
    | none => st
    | some (_, []) => st
    | some (name, addr :: rest) =>
      match trySend st.ctx
        ({ FQDN := name, Address := addr, Quality := Quality.Unverified, err := none } :
          NamedAddressValue) with
      | (ctx1, sent, true) =>
        { st with
          ctx := ctx1
          events := st.events ++ sent.map DigEvent.result
          callbacks := st.callbacks.set k (name, rest) }
      | (ctx1, _, false) => { st with ctx := ctx1, callbacks := st.callbacks.set k (name, []) }

/-- A run of `DigFQDNs` together with the callbacks it hands to `ResolveName`,
under a schedule of the loop and the workers of the resolver pool. -/
def Digger.run (Fqdn : String → String) (resolved : Nat → List String) (ctx : Context)
    (names : List String) (schedule : List DigAction) : DigState :=
  schedule.foldl (digStep Fqdn resolved)
    { ctx := ctx, events := [], names := names, handing := none, returned := false,
      callbacks := [] }

/-- The names handed to `ResolveName` among the events, in the order of the
calls. -/
def resolvedNames (events : List DigEvent) : List String :=
  events.filterMap fun e =>
    match e with
    | DigEvent.resolve name => some name
    | _ => none

/-- What the events of a run keep true: an event that hands a name to
`ResolveName` comes after the placeholder of the name, and a result record
is unverified and without error, and carries the name of an earlier call of
`ResolveName` and one of the addresses resolved for that call. -/
def DigOrdered (resolved : Nat → List String) (events : List DigEvent) : Prop :=
  ∀ pre e post, events = pre ++ e :: post →
    (∀ name, e = DigEvent.resolve name → DigEvent.placeholder (placeholderOf name) ∈ pre) ∧
    (∀ na, e = DigEvent.result na →
      na.Quality = Quality.Unverified ∧ na.err = none ∧
        ∃ k, (resolvedNames pre)[k]? = some na.FQDN ∧ na.Address ∈ resolved k)

/-- What a run of `DigFQDNs` keeps true of its state. -/
def DigInv (resolved : Nat → List String) (st : DigState) : Prop :=
  DigOrdered resolved st.events ∧
    (∀ name, st.handing = some name →
      DigEvent.placeholder (placeholderOf name) ∈ st.events) ∧
    st.callbacks.map Prod.fst = resolvedNames st.events ∧
    ∀ k name rest, st.callbacks[k]? = some (name, rest) → ∀ a ∈ rest, a ∈ resolved k

/-! ## A scan: the verifier and the pinger together -/

/-- Who acts next in a scan: the main loop of `Verify` receives the next
record of the digger, the goroutine of `Verify` receives the next verdict of
the pinger, or the probe task with the given place among the running ones
ends. -/
inductive ScanAction where
  | input
  | verdict
  | finish (k : Nat)
  deriving DecidableEq, Repr

/-- The state of a scan: the state of `Verify`, the records of the digger not
yet received, the verdicts sent on `courtTV` and not yet received, and the
first verdicts of the probe tasks that are running. -/
structure ScanState where
  verify : VerifyState
  input : List NamedAddressValue
  courtTV : List QualifiedAddress
  tasks : List QualifiedAddress
  deriving DecidableEq, Repr

/-- One action of a scan. When the main loop calls `ValidateQA`, `validate`
sends the `Verifying` verdict and hands the task to the pool; when a task
ends, it sends the final verdict. `world` is what the world does to the probe
of a verdict. -/
def scanStep (p : Pinger) (world : QualifiedAddress → Option String × PingOutcome)
    (st : ScanState) : ScanAction → ScanState
  | ScanAction.input =>
    match st.input with
    | [] => st
    | addr :: rest =>
      let v := verifyStep st.verify (VerifyEvent.input addr)
      if v.validated = st.verify.validated ++ [addr] then
        let verdict := (QualifiedAddress.named addr).WithNewQuality Quality.Verifying none
        { verify := v, input := rest, courtTV := st.courtTV ++ [verdict],
          tasks := st.tasks ++ [verdict] }
      else { st with verify := v, input := rest }
  | ScanAction.verdict =>
    match st.courtTV with
    | [] => st
    | qaddr :: rest =>
      { st with verify := verifyStep st.verify (VerifyEvent.checked qaddr), courtTV := rest }
  | ScanAction.finish k =>
    match st.tasks[k]? with
    | none => st
    | some verdict =>
      { st with
        courtTV := st.courtTV ++ [p.task verdict (world verdict).1 (world verdict).2]
        tasks := st.tasks.eraseIdx k }

/-- A scan that is not cancelled: `Verify` on the stream of the digger, with
the pinger, under a schedule. The scan is complete when no record, no verdict
and no task is left. -/
def scan (p : Pinger) (world : QualifiedAddress → Option String × PingOutcome)
    (digNews : List NamedAddressValue) (schedule : List ScanAction) : ScanState :=
  schedule.foldl (scanStep p world)
    { verify := Verifier.Verify none [], input := digNews, courtTV := [], tasks := [] }

/-- An FQDN is served with an address: a record with a terminal quality was
sent for the pair. -/
def Served (news : List NamedAddressValue) (fqdn addr : String) : Prop :=
  ∃ r ∈ news, r.Name = fqdn ∧ r.Addr = addr ∧ r.Quality.IsTerminal

/-- An FQDN is served with an address or waits for it: a record with a
terminal quality was sent for the pair, or the address is cached with a
quality that is not terminal and the FQDN is among its consumers. -/
def ServedOrWaiting (c : NamedAddressCache) (news : List NamedAddressValue)
    (fqdn addr : String) : Prop :=
  Served news fqdn addr ∨
    ∃ e, c.m.get addr = some e ∧ ¬ e.q.IsTerminal ∧ fqdn ∈ e.consumers

/-- The consumers of an address cached with a terminal quality are served. -/
def TerminalServed (c : NamedAddressCache) (news : List NamedAddressValue) : Prop :=
  ∀ a e f, c.m.get a = some e → e.q.IsTerminal → f ∈ e.consumers → Served news f a

/-- A terminal verdict for an address is on its way: a task for it is running
or its terminal verdict is on `courtTV`. -/
def VerdictPending (st : ScanState) (addr : String) : Prop :=
  (∃ v ∈ st.tasks, v.Addr = addr) ∨ ∃ v ∈ st.courtTV, v.Addr = addr ∧ v.Qual.IsTerminal

/-- What a scan keeps true: the context is not cancelled and `Verify` neither
stopped nor panicked; the records received so far are served or waiting; the
consumers of addresses with a terminal quality are served; for an address
cached with a quality that is not terminal a terminal verdict is on its way;
the verdicts on their way are named and for cached addresses. -/
def ScanInv (digNews : List NamedAddressValue) (st : ScanState) : Prop :=
  st.verify.ctx = none ∧ st.verify.stopped = false ∧ st.verify.panicked = false ∧
    (∃ received, digNews = received ++ st.input ∧
      ∀ d ∈ received, d.Addr ≠ "" →
        ServedOrWaiting st.verify.addrcache st.verify.news d.Name d.Addr) ∧
    TerminalServed st.verify.addrcache st.verify.news ∧
    (∀ a e, st.verify.addrcache.m.get a = some e → ¬ e.q.IsTerminal → VerdictPending st a) ∧
    ∀ v ∈ st.courtTV ++ st.tasks,
      ∃ n, v = QualifiedAddress.named n ∧ st.verify.addrcache.m.get n.Addr ≠ none

/-- Where the records of a scan come from: every record of the output stream
carries the FQDN and the address of a record received from the digger, and is
that record if its address is empty; every consumer of a cached address, and
every verdict on its way, stands for a record received from the digger with
that address, which is not empty. -/
def ScanSources (digNews : List NamedAddressValue) (st : ScanState) : Prop :=
  ∃ received, digNews = received ++ st.input ∧
    (∀ r ∈ st.verify.news,
      ∃ d ∈ received, d.Name = r.Name ∧ d.Addr = r.Addr ∧ (r.Addr = "" → r = d)) ∧
    (∀ a e f, st.verify.addrcache.m.get a = some e → f ∈ e.consumers →
      a ≠ "" ∧ ∃ d ∈ received, d.Name = f ∧ d.Addr = a) ∧
    ∀ v ∈ st.courtTV ++ st.tasks,
      ∃ n, v = QualifiedAddress.named n ∧ n.Addr ≠ "" ∧
        ∃ d ∈ received, d.Name = n.Name ∧ d.Addr = n.Addr

/-! ## Sample data for the concrete instances -/

/-- A named address record with the given FQDN, address, quality and error. -/
def namedRecord (fqdn addr : String) (q : Quality) (err : Option String) : NamedAddressValue :=
  { FQDN := fqdn, Address := addr, Quality := q, err := err }

/-- A cache in which `10.0.0.2` is unverified and awaited by `foo.net_A.`. -/
def unverifiedCache : NamedAddressCache :=
  (runUpdates NewNamedAddressCache none
    [namedRecord "foo.net_A." "10.0.0.2" Quality.Unverified none]).cache

/-- A cache in which `10.0.0.2` was found invalid with the error `unreachable`. -/
def invalidCache : NamedAddressCache :=
  (runUpdates NewNamedAddressCache none
    [namedRecord "foo.net_A." "10.0.0.2" Quality.Unverified none,
     namedRecord "foo.net_A." "10.0.0.2" Quality.Verifying none,
     namedRecord "foo.net_A." "10.0.0.2" Quality.Invalid (some "unreachable")]).cache

/-! ## Go maps and the loops of `Update` -/

namespace GoMap

theorem get_set_self {V : Type} (m : GoMap V) (k : String) (v : V) :
    (m.set k v).get k = some v := by
  induction m with
  | nil => simp [set, get]
  | cons p m ih =>
    obtain ⟨k', v'⟩ := p
    by_cases h : k' = k
    · simp [set, get, h]
    · simp [set, get, h, ih]

theorem get_set_of_ne {V : Type} (m : GoMap V) {k k' : String} (v : V) (h : k' ≠ k) :
    (m.set k v).get k' = m.get k' := by
  induction m with
  | nil => simp [set, get, Ne.symm h]
  | cons p m ih =>
    obtain ⟨k1, v1⟩ := p
    by_cases h1 : k1 = k
    · subst h1
      simp [set, get, Ne.symm h]
    · by_cases h2 : k1 = k'
      · subst h2
        simp [set, get, h1]
      · simp [set, get, h1, h2, ih]

end GoMap

theorem knownConsumer_foldl (fqdn : String) (l : List String) (b : Bool) :
    l.foldl (fun known consumer => if consumer = fqdn then true else known) b
      = (b || decide (fqdn ∈ l)) := by
  induction l generalizing b with
  | nil => simp
  | cons x l ih =>
    rw [List.foldl_cons, ih]
    by_cases h : x = fqdn
    · simp [h]
    · have h' : ¬ fqdn = x := fun e => h e.symm
      simp [h, h']

theorem knownConsumer_eq (l : List String) (fqdn : String) :
    knownConsumer l fqdn = decide (fqdn ∈ l) := by
  unfold knownConsumer
  rw [knownConsumer_foldl]
  simp

theorem notify_none (templ : NamedAddressValue) (l : List String) :
    notify templ none l = (none, l.map fun consumer => { templ with FQDN := consumer }) := by
  induction l with
  | nil => rfl
  | cons x l ih => simp [notify, trySend, ih]

theorem mem_notify (templ : NamedAddressValue) (ctx : Context) (l : List String)
    (x : NamedAddressValue) (hx : x ∈ (notify templ ctx l).2) :
    ∃ consumer ∈ l, x = { templ with FQDN := consumer } := by
  induction l generalizing ctx with
  | nil => simp [notify] at hx
  | cons y l ih =>
    cases ctx with
    | none =>
      simp only [notify, trySend, List.singleton_append, List.mem_cons] at hx
      rcases hx with hx | hx
      · exact ⟨y, by simp, hx⟩
      · obtain ⟨c, hc, e⟩ := ih none hx
        exact ⟨c, by simp [hc], e⟩
    | some n =>
      cases n with
      | zero => simp [notify, trySend] at hx
      | succ n =>
        simp only [notify, trySend, List.singleton_append, List.mem_cons] at hx
        rcases hx with hx | hx
        · exact ⟨y, by simp, hx⟩
        · obtain ⟨c, hc, e⟩ := ih (some n) hx
          exact ⟨c, by simp [hc], e⟩

theorem mem_trySend {α : Type} (ctx : Context) (x y : α) (h : y ∈ (trySend ctx x).2.1) : y = x := by
  cases ctx with
  | none => simpa [trySend] using h
  | some n =>
    cases n with
    | zero => simp [trySend] at h
    | succ n => simpa [trySend] using h

theorem withNewQuality_get (na : NamedAddressValue) (q : Quality) (err : Option String)
    (h : ((na.WithNewQuality q err).2.asNamedAddress).isSome = true) :
    ((na.WithNewQuality q err).2.asNamedAddress).get h
      = { FQDN := na.FQDN, Address := na.Address, Quality := q, err := err } := rfl

theorem Update_of_absent (c : NamedAddressCache) (ctx : Context) (na : NamedAddressValue)
    (h : c.m.get na.Addr = none) :
    c.Update ctx na =
      { cache := { m := c.m.set na.Addr { q := na.Qual, err := none, consumers := [na.Name] } },
        ctx := (trySend ctx na).1, news := (trySend ctx na).2.1, ret := true } := by
  simp only [NamedAddressCache.Update, h]

theorem Update_of_stale_known (c : NamedAddressCache) (ctx : Context) (na : NamedAddressValue)
    (qc : qualityUpdateConsumers) (h : c.m.get na.Addr = some qc) (hq : na.Qual ≤ qc.q)
    (hk : na.Name ∈ qc.consumers) :
    c.Update ctx na = { cache := c, ctx := ctx, news := [], ret := false } := by
  simp only [NamedAddressCache.Update, h, knownConsumer_eq]
  simp [hq, hk]

theorem Update_of_stale_unknown (c : NamedAddressCache) (ctx : Context) (na : NamedAddressValue)
    (qc : qualityUpdateConsumers) (h : c.m.get na.Addr = some qc) (hq : na.Qual ≤ qc.q)
    (hk : na.Name ∉ qc.consumers) :
    c.Update ctx na =
      { cache := { m := (c.m.set na.Addr
          { q := qc.q, err := qc.err, consumers := qc.consumers ++ [na.Name] }) },
        ctx := (trySend ctx ({ FQDN := na.FQDN, Address := na.Address, Quality := qc.q,
                               err := qc.err } : NamedAddressValue)).1,
        news := (trySend ctx ({ FQDN := na.FQDN, Address := na.Address, Quality := qc.q,
                                err := qc.err } : NamedAddressValue)).2.1,
        ret := false } := by
  simp only [NamedAddressCache.Update, h, knownConsumer_eq, withNewQuality_get]
  simp [hq, hk]

theorem Update_of_pending (c : NamedAddressCache) (ctx : Context) (na : NamedAddressValue)
    (qc : qualityUpdateConsumers) (h : c.m.get na.Addr = some qc) (hq : ¬ na.Qual ≤ qc.q)
    (hp : na.Qual = .Unverified ∨ na.Qual = .Verifying) :
    c.Update ctx na =
      { cache := { m := (c.m.set na.Addr
          { q := na.Qual, err := qc.err,
            consumers := if na.Name ∈ qc.consumers then qc.consumers
                         else qc.consumers ++ [na.Name] }) },
        ctx := (notify (templOf na) ctx (if na.Name ∈ qc.consumers then qc.consumers
                         else qc.consumers ++ [na.Name])).1,
        news := (notify (templOf na) ctx (if na.Name ∈ qc.consumers then qc.consumers
                         else qc.consumers ++ [na.Name])).2,
        ret := false } := by
  simp only [NamedAddressCache.Update, h, knownConsumer_eq]
  simp only [if_neg hq]
  rcases hp with hp | hp <;> by_cases hk : na.Name ∈ qc.consumers <;>
    simp [hk, hp, templOf, NamedAddressValue.NA] <;>
    simp [NamedAddressValue.Qual, QualifiedAddressValue.Qual] at hp <;> simp [hp]

theorem Update_of_terminal (c : NamedAddressCache) (ctx : Context) (na : NamedAddressValue)
    (qc : qualityUpdateConsumers) (h : c.m.get na.Addr = some qc) (hq : ¬ na.Qual ≤ qc.q)
    (hp : na.Qual = .Invalid ∨ na.Qual = .Verified) :
    c.Update ctx na =
      { cache := { m := c.m.set na.Addr { q := na.Qual, err := qc.err, consumers := [] } },
        ctx := (notify (templOf na) ctx qc.consumers).1,
        news := (notify (templOf na) ctx qc.consumers).2,
        ret := false } := by
  simp only [NamedAddressCache.Update, h, knownConsumer_eq]
  simp only [if_neg hq]
  rcases hp with hp | hp <;>
    simp [hp, templOf, NamedAddressValue.NA] <;>
    simp [NamedAddressValue.Qual, QualifiedAddressValue.Qual] at hp <;> simp [hp]

theorem Quality.le_iff (a b : Quality) : a ≤ b ↔ a.val ≤ b.val := Iff.rfl

theorem Quality.lt_iff (a b : Quality) : a < b ↔ a.val < b.val := Iff.rfl

theorem Quality.not_le_iff (a b : Quality) : ¬ a ≤ b ↔ b < a := by
  rw [Quality.le_iff, Quality.lt_iff]
  omega

theorem Quality.pending_or_terminal (q : Quality) :
    (q = .Unverified ∨ q = .Verifying) ∨ (q = .Invalid ∨ q = .Verified) := by
  cases q <;> simp

theorem Update_ret (c : NamedAddressCache) (ctx : Context) (na : NamedAddressValue) :
    (c.Update ctx na).ret = (c.m.get na.Addr).isNone := by
  cases h : c.m.get na.Addr with
  | none => rw [Update_of_absent c ctx na h]; rfl
  | some qc =>
    by_cases hq : na.Qual ≤ qc.q
    · by_cases hk : na.Name ∈ qc.consumers
      · rw [Update_of_stale_known c ctx na qc h hq hk]; rfl
      · rw [Update_of_stale_unknown c ctx na qc h hq hk]; rfl
    · rcases Quality.pending_or_terminal na.Qual with hp | hp
      · rw [Update_of_pending c ctx na qc h hq hp]; rfl
      · rw [Update_of_terminal c ctx na qc h hq hp]; rfl

theorem Update_get_other (c : NamedAddressCache) (ctx : Context) (na : NamedAddressValue)
    (k : String) (hk : k ≠ na.Addr) :
    (c.Update ctx na).cache.m.get k = c.m.get k := by
  cases h : c.m.get na.Addr with
  | none => rw [Update_of_absent c ctx na h]; exact GoMap.get_set_of_ne _ _ hk
  | some qc =>
    by_cases hq : na.Qual ≤ qc.q
    · by_cases hn : na.Name ∈ qc.consumers
      · rw [Update_of_stale_known c ctx na qc h hq hn]
      · rw [Update_of_stale_unknown c ctx na qc h hq hn]; exact GoMap.get_set_of_ne _ _ hk
    · rcases Quality.pending_or_terminal na.Qual with hp | hp
      · rw [Update_of_pending c ctx na qc h hq hp]; exact GoMap.get_set_of_ne _ _ hk
      · rw [Update_of_terminal c ctx na qc h hq hp]; exact GoMap.get_set_of_ne _ _ hk

theorem mem_notify_templOf (na x : NamedAddressValue) (ctx : Context) (l : List String)
    (hx : x ∈ (notify (templOf na) ctx l).2) : x.Addr = na.Addr ∧ x.Quality = na.Qual := by
  obtain ⟨consumer, _, e⟩ := mem_notify _ _ _ _ hx
  subst e
  exact ⟨rfl, rfl⟩

/-- After `Update` the address of the record is cached; its cached quality is
not below the one cached before, and every record the call sent carries the
address and the quality now cached. -/
theorem Update_self (c : NamedAddressCache) (ctx : Context) (na : NamedAddressValue) :
    ∃ e, (c.Update ctx na).cache.m.get na.Addr = some e ∧
      (∀ e0, c.m.get na.Addr = some e0 → e0.q ≤ e.q) ∧
      ∀ x ∈ (c.Update ctx na).news, x.Addr = na.Addr ∧ x.Quality = e.q := by
  cases h : c.m.get na.Addr with
  | none =>
    rw [Update_of_absent c ctx na h]
    refine ⟨_, GoMap.get_set_self _ _ _, by simp, ?_⟩
    intro x hx
    have := mem_trySend _ _ _ hx
    subst this
    exact ⟨rfl, rfl⟩
  | some qc =>
    by_cases hq : na.Qual ≤ qc.q
    · by_cases hn : na.Name ∈ qc.consumers
      · rw [Update_of_stale_known c ctx na qc h hq hn]
        refine ⟨qc, h, ?_, by simp⟩
        intro e0 he0
        cases he0
        exact Nat.le_refl _
      · rw [Update_of_stale_unknown c ctx na qc h hq hn]
        refine ⟨_, GoMap.get_set_self _ _ _, ?_, ?_⟩
        · intro e0 he0
          cases he0
          exact Nat.le_refl _
        · intro x hx
          have := mem_trySend _ _ _ hx
          subst this
          exact ⟨rfl, rfl⟩
    · have hlt : qc.q ≤ na.Qual := by
        have := (Quality.not_le_iff _ _).1 hq
        rw [Quality.lt_iff] at this
        rw [Quality.le_iff]
        omega
      rcases Quality.pending_or_terminal na.Qual with hp | hp
      · rw [Update_of_pending c ctx na qc h hq hp]
        refine ⟨_, GoMap.get_set_self _ _ _, ?_, ?_⟩
        · intro e0 he0
          cases he0
          exact hlt
        · intro x hx
          exact mem_notify_templOf na x _ _ hx
      · rw [Update_of_terminal c ctx na qc h hq hp]
        refine ⟨_, GoMap.get_set_self _ _ _, ?_, ?_⟩
        · intro e0 he0
          cases he0
          exact hlt
        · intro x hx
          exact mem_notify_templOf na x _ _ hx

/-! ## The cases of `Update` -/

/-- C8, as amended (new address). For every cache, every context and every
named address whose address is not a key of the cache, `Update` adds an entry
for the address with the incoming quality and the consumer list holding just
the incoming FQDN, leaves every other entry as it was, and returns true; unless
the context is done, it sends exactly the incoming record on the news channel. -/
theorem update_new_address (c : NamedAddressCache) (ctx : Context) (na : NamedAddressValue)
    (h : c.m.get na.Addr = none) :
    (c.Update ctx na).cache.m.get na.Addr
        = some { q := na.Qual, err := none, consumers := [na.Name] } ∧
      (∀ k, k ≠ na.Addr → (c.Update ctx na).cache.m.get k = c.m.get k) ∧
      (ctx ≠ some 0 → (c.Update ctx na).news = [na]) ∧
      (c.Update ctx na).ret = true := by
  rw [Update_of_absent c ctx na h]
  refine ⟨GoMap.get_set_self _ _ _, fun k hk => GoMap.get_set_of_ne _ _ hk, ?_, rfl⟩
  intro hctx
  cases ctx with
  | none => rfl
  | some n =>
    cases n with
    | zero => exact absurd rfl hctx
    | succ n => rfl

/-- C7, as amended (stale update). For every cached address and every incoming
update whose quality is not above the cached one, `Update` returns false and
keeps the cached quality. If the incoming FQDN is not registered, it is
appended to the consumer list, the other entries stay as they were and, unless
the context is done, exactly one record (FQDN, address, cached quality, cached
error) is sent. If the FQDN is registered, nothing is sent and the cache is
unchanged. -/
theorem update_stale (c : NamedAddressCache) (ctx : Context) (na : NamedAddressValue)
    (qc : qualityUpdateConsumers) (h : c.m.get na.Addr = some qc) (hq : na.Qual ≤ qc.q) :
    (c.Update ctx na).ret = false ∧
      (∃ e, (c.Update ctx na).cache.m.get na.Addr = some e ∧ e.q = qc.q) ∧
      (na.Name ∉ qc.consumers →
        (c.Update ctx na).cache.m.get na.Addr
            = some { q := qc.q, err := qc.err, consumers := qc.consumers ++ [na.Name] } ∧
          (∀ k, k ≠ na.Addr → (c.Update ctx na).cache.m.get k = c.m.get k) ∧
          (ctx ≠ some 0 → (c.Update ctx na).news
            = [{ FQDN := na.Name, Address := na.Addr, Quality := qc.q, err := qc.err }])) ∧
      (na.Name ∈ qc.consumers →
        (c.Update ctx na).cache = c ∧ (c.Update ctx na).news = []) := by
  by_cases hn : na.Name ∈ qc.consumers
  · rw [Update_of_stale_known c ctx na qc h hq hn]
    exact ⟨rfl, ⟨qc, h, rfl⟩, fun hc => absurd hn hc, fun _ => ⟨rfl, rfl⟩⟩
  · rw [Update_of_stale_unknown c ctx na qc h hq hn]
    refine ⟨rfl, ⟨_, GoMap.get_set_self _ _ _, rfl⟩, fun _ => ⟨GoMap.get_set_self _ _ _,
      fun k hk => GoMap.get_set_of_ne _ _ hk, ?_⟩, fun hc => absurd hc hn⟩
    intro hctx
    cases ctx with
    | none => rfl
    | some n =>
      cases n with
      | zero => exact absurd rfl hctx
      | succ n => rfl

/-- C6 (pending update). For every cached address and every incoming update
with quality `Verifying` above the cached quality, `Update` with a context
that is not cancelled sets the cached quality to `Verifying`, appends the
incoming FQDN to the consumer list if it is not in it, leaves the other entries
as they were, sends exactly one record (consumer, address, `Verifying`) for
every FQDN of the resulting list, in list order, and returns false. -/
theorem update_pending (c : NamedAddressCache) (na : NamedAddressValue)
    (qc : qualityUpdateConsumers) (h : c.m.get na.Addr = some qc)
    (hv : na.Qual = Quality.Verifying) (hq : qc.q < na.Qual) :
    (c.Update none na).cache.m.get na.Addr
        = some { q := Quality.Verifying, err := qc.err,
                 consumers := if na.Name ∈ qc.consumers then qc.consumers
                              else qc.consumers ++ [na.Name] } ∧
      (∀ k, k ≠ na.Addr → (c.Update none na).cache.m.get k = c.m.get k) ∧
      (c.Update none na).news
        = (if na.Name ∈ qc.consumers then qc.consumers else qc.consumers ++ [na.Name]).map
            (fun consumer =>
              { FQDN := consumer, Address := na.Addr, Quality := Quality.Verifying,
                err := na.Err }) ∧
      (c.Update none na).ret = false := by
  have hnle : ¬ na.Qual ≤ qc.q := (Quality.not_le_iff _ _).2 hq
  rw [Update_of_pending c none na qc h hnle (Or.inr hv), notify_none]
  refine ⟨?_, fun k hk => GoMap.get_set_of_ne _ _ hk, ?_, rfl⟩
  · rw [GoMap.get_set_self, hv]
  · have hv' : na.Quality = Quality.Verifying := hv
    simp only [templOf, hv']
    rfl

/-- C2 (terminal update). For every cached address with consumer list `L` and
every incoming update whose quality is terminal and above the cached quality,
`Update` with a context that is not cancelled sets the cached quality to the
incoming one, empties the consumer list, leaves the other entries as they were,
sends exactly one record (consumer, address, incoming quality, incoming error)
for each FQDN of `L`, in list order, and nothing else, and returns false. -/
theorem update_terminal (c : NamedAddressCache) (na : NamedAddressValue)
    (qc : qualityUpdateConsumers) (h : c.m.get na.Addr = some qc)
    (ht : na.Qual.IsTerminal) (hq : qc.q < na.Qual) :
    (c.Update none na).cache.m.get na.Addr
        = some { q := na.Qual, err := qc.err, consumers := [] } ∧
      (∀ k, k ≠ na.Addr → (c.Update none na).cache.m.get k = c.m.get k) ∧
      (c.Update none na).news
        = qc.consumers.map (fun consumer =>
            { FQDN := consumer, Address := na.Addr, Quality := na.Qual, err := na.Err }) ∧
      (c.Update none na).ret = false := by
  have hnle : ¬ na.Qual ≤ qc.q := (Quality.not_le_iff _ _).2 hq
  have ht' : na.Qual = .Invalid ∨ na.Qual = .Verified := ht.symm
  rw [Update_of_terminal c none na qc h hnle ht', notify_none]
  exact ⟨GoMap.get_set_self _ _ _, fun k hk => GoMap.get_set_of_ne _ _ hk, rfl, rfl⟩

/-- The new-address case at a cache that holds another address. -/
theorem update_new_address_witness :
    invalidCache.m.get (namedRecord "bar." "10.0.0.3" Quality.Unverified none).Addr = none ∧
      (invalidCache.Update none (namedRecord "bar." "10.0.0.3" Quality.Unverified none)).news
        = [namedRecord "bar." "10.0.0.3" Quality.Unverified none] :=
  ⟨by decide,
   (update_new_address invalidCache none (namedRecord "bar." "10.0.0.3" Quality.Unverified none)
      (by decide)).2.2.1 (by decide)⟩

/-- C8 as stated fails when the context is done: the address is not a key of
the cache, the entry is added and true is returned, yet no record is sent. -/
theorem update_new_address_cancelled :
    NewNamedAddressCache.m.get "10.0.0.2" = none ∧
      (NewNamedAddressCache.Update (some 0)
        (namedRecord "foo." "10.0.0.2" Quality.Unverified none)).ret = true ∧
      (NewNamedAddressCache.Update (some 0)
        (namedRecord "foo." "10.0.0.2" Quality.Unverified none)).news = [] := by
  decide

/-- The stale case at a cache that awaits `10.0.0.2` for another FQDN. -/
theorem update_stale_witness :
    unverifiedCache.m.get (namedRecord "foo." "10.0.0.2" Quality.Unverified none).Addr
        = some { q := Quality.Unverified, err := none, consumers := ["foo.net_A."] } ∧
      (namedRecord "foo." "10.0.0.2" Quality.Unverified none).Qual ≤ Quality.Unverified ∧
      (unverifiedCache.Update none (namedRecord "foo." "10.0.0.2" Quality.Unverified none)).ret
        = false :=
  ⟨by decide, by decide,
   (update_stale unverifiedCache none (namedRecord "foo." "10.0.0.2" Quality.Unverified none)
      { q := Quality.Unverified, err := none, consumers := ["foo.net_A."] }
      (by decide) (by decide)).1⟩

/-- C7 as stated fails when the context is done: the FQDN is not registered
and is appended, yet no record is sent. -/
theorem update_stale_cancelled :
    unverifiedCache.m.get "10.0.0.2"
        = some { q := Quality.Unverified, err := none, consumers := ["foo.net_A."] } ∧
      (unverifiedCache.Update (some 0)
        (namedRecord "foo." "10.0.0.2" Quality.Unverified none)).cache.m.get "10.0.0.2"
        = some { q := Quality.Unverified, err := none, consumers := ["foo.net_A.", "foo."] } ∧
      (unverifiedCache.Update (some 0)
        (namedRecord "foo." "10.0.0.2" Quality.Unverified none)).news = [] := by
  decide

/-- The pending case: `Verifying` arrives for an unverified address. -/
theorem update_pending_witness :
    unverifiedCache.m.get (namedRecord "foo." "10.0.0.2" Quality.Verifying none).Addr
        = some { q := Quality.Unverified, err := none, consumers := ["foo.net_A."] } ∧
      (namedRecord "foo." "10.0.0.2" Quality.Verifying none).Qual = Quality.Verifying ∧
      Quality.Unverified < (namedRecord "foo." "10.0.0.2" Quality.Verifying none).Qual ∧
      (unverifiedCache.Update none (namedRecord "foo." "10.0.0.2" Quality.Verifying none)).ret
        = false :=
  ⟨by decide, by decide, by decide,
   (update_pending unverifiedCache (namedRecord "foo." "10.0.0.2" Quality.Verifying none)
      { q := Quality.Unverified, err := none, consumers := ["foo.net_A."] }
      (by decide) (by decide) (by decide)).2.2.2⟩

/-- The terminal case: `Verified` arrives for an unverified address. -/
theorem update_terminal_witness :
    unverifiedCache.m.get (namedRecord "foo." "10.0.0.2" Quality.Verified none).Addr
        = some { q := Quality.Unverified, err := none, consumers := ["foo.net_A."] } ∧
      (namedRecord "foo." "10.0.0.2" Quality.Verified none).Qual.IsTerminal ∧
      Quality.Unverified < (namedRecord "foo." "10.0.0.2" Quality.Verified none).Qual ∧
      (unverifiedCache.Update none (namedRecord "foo." "10.0.0.2" Quality.Verified none)).news
        = ["foo.net_A."].map (fun consumer =>
            { FQDN := consumer,
              Address := (namedRecord "foo." "10.0.0.2" Quality.Verified none).Addr,
              Quality := (namedRecord "foo." "10.0.0.2" Quality.Verified none).Qual,
              err := (namedRecord "foo." "10.0.0.2" Quality.Verified none).Err }) :=
  ⟨by decide, by decide, by decide,
   (update_terminal unverifiedCache (namedRecord "foo." "10.0.0.2" Quality.Verified none)
      { q := Quality.Unverified, err := none, consumers := ["foo.net_A."] }
      (by decide) (by decide) (by decide)).2.2.1⟩

/-- C10. For every named address value, quality and error, `WithNewQuality`
returns a named address (the same concrete type) with the same `Name()` and
`Addr()`, with `Qual()` the new quality and `Err()` the new error, and the
receiver is left as it was. -/
theorem namedAddress_withNewQuality (na : NamedAddressValue) (q : Quality)
    (err : Option String) :
    ∃ v : NamedAddressValue, (na.WithNewQuality q err).2 = QualifiedAddress.named v ∧
      v.Name = na.Name ∧ v.Addr = na.Addr ∧ v.Qual = q ∧ v.Err = err ∧
      (na.WithNewQuality q err).1 = na :=
  ⟨_, rfl, rfl, rfl, rfl, rfl, rfl⟩

/-- C5 as stated fails: `Invalid` and `Verified` are different integers, and
`Verified` compares strictly greater than `Invalid`; a cache that holds
`Invalid` for an address is promoted by an update carrying `Verified`. -/
theorem invalid_lt_verified :
    Quality.Invalid.val ≠ Quality.Verified.val ∧ Quality.Invalid < Quality.Verified ∧
      (invalidCache.Update none
        (namedRecord "foo.net_A." "10.0.0.2" Quality.Verified none)).cache.m.get "10.0.0.2"
        = some { q := Quality.Verified, err := none, consumers := [] } := by
  decide

/-- C5, as amended. The order on `Quality` that the cache and the result map
compare with is the order of the integers 0, 1, 2, 3 of the constants:
`Unverified < Verifying < Invalid < Verified`; `Verified` compares strictly
greater than `Invalid`, and `Invalid` does not compare greater than or equal
to `Verified`. -/
theorem quality_order :
    Quality.Unverified.val = 0 ∧ Quality.Verifying.val = 1 ∧ Quality.Invalid.val = 2 ∧
      Quality.Verified.val = 3 ∧
      (∀ a b : Quality, (a ≤ b ↔ a.val ≤ b.val) ∧ (a < b ↔ a.val < b.val)) ∧
      Quality.Unverified < Quality.Verifying ∧ Quality.Verifying < Quality.Invalid ∧
      Quality.Invalid < Quality.Verified ∧ ¬ Quality.Verified ≤ Quality.Invalid :=
  ⟨rfl, rfl, rfl, rfl, fun _ _ => ⟨Iff.rfl, Iff.rfl⟩, by decide, by decide, by decide, by decide⟩

/-- C3 as stated fails: `10.0.0.2` is cached as `Invalid` with an empty consumer
list; the update for the new FQDN `bar.` is served with one record holding the
cached quality, and `bar.` is registered: the consumer list is not empty
after the call. An update for the new FQDN `bar.` that carries `Verified`,
which compares above the cached `Invalid`, is not served at all. -/
theorem late_arrival_is_registered :
    invalidCache.m.get "10.0.0.2"
        = some { q := Quality.Invalid, err := none, consumers := [] } ∧
      (invalidCache.Update none (namedRecord "bar." "10.0.0.2" Quality.Unverified none)).news
        = [namedRecord "bar." "10.0.0.2" Quality.Invalid none] ∧
      (invalidCache.Update none
        (namedRecord "bar." "10.0.0.2" Quality.Unverified none)).cache.m.get "10.0.0.2"
        = some { q := Quality.Invalid, err := none, consumers := ["bar."] } ∧
      (invalidCache.Update none (namedRecord "bar." "10.0.0.2" Quality.Verified none)).news
        = [] := by
  decide

/-- C3, as amended. Once an update has promoted an address to a terminal
quality, its consumer list is empty; a later `Update` (context not cancelled)
for that address whose quality is not above the cached one is served at once
with exactly one record holding the cached terminal quality, returns false,
and registers its FQDN: the consumer list then holds exactly that FQDN. -/
theorem late_arrival_after_terminal (c : NamedAddressCache) (u na : NamedAddressValue)
    (qc : qualityUpdateConsumers) (h : c.m.get u.Addr = some qc)
    (ht : u.Qual.IsTerminal) (hq : qc.q < u.Qual)
    (ha : na.Addr = u.Addr) (hs : na.Qual ≤ u.Qual) :
    (c.Update none u).cache.m.get u.Addr
        = some { q := u.Qual, err := qc.err, consumers := [] } ∧
      ((c.Update none u).cache.Update none na).news
        = [{ FQDN := na.Name, Address := u.Addr, Quality := u.Qual, err := qc.err }] ∧
      ((c.Update none u).cache.Update none na).ret = false ∧
      ((c.Update none u).cache.Update none na).cache.m.get u.Addr
        = some { q := u.Qual, err := qc.err, consumers := [na.Name] } := by
  have hnle : ¬ u.Qual ≤ qc.q := (Quality.not_le_iff _ _).2 hq
  have ht' : u.Qual = .Invalid ∨ u.Qual = .Verified := ht.symm
  have h1 : (c.Update none u).cache.m.get u.Addr
      = some { q := u.Qual, err := qc.err, consumers := [] } := by
    rw [Update_of_terminal c none u qc h hnle ht']
    exact GoMap.get_set_self _ _ _
  have h1' : (c.Update none u).cache.m.get na.Addr
      = some { q := u.Qual, err := qc.err, consumers := [] } := by rw [ha]; exact h1
  have h2 := Update_of_stale_unknown (c.Update none u).cache none na _ h1' hs (by simp)
  refine ⟨h1, ?_, ?_, ?_⟩
  · rw [h2]
    have ha' : na.Address = u.Addr := ha
    simp [trySend, ha', NamedAddressValue.Name]
  · rw [h2]
  · rw [h2, ← ha]
    exact GoMap.get_set_self _ _ _

/-- A verdict for `10.0.0.2` followed by the arrival of a second FQDN. -/
theorem late_arrival_after_terminal_witness :
    unverifiedCache.m.get (namedRecord "foo.net_A." "10.0.0.2" Quality.Verified none).Addr
        = some { q := Quality.Unverified, err := none, consumers := ["foo.net_A."] } ∧
      (namedRecord "foo.net_A." "10.0.0.2" Quality.Verified none).Qual.IsTerminal ∧
      Quality.Unverified < (namedRecord "foo.net_A." "10.0.0.2" Quality.Verified none).Qual ∧
      (namedRecord "bar." "10.0.0.2" Quality.Unverified none).Addr
        = (namedRecord "foo.net_A." "10.0.0.2" Quality.Verified none).Addr ∧
      (namedRecord "bar." "10.0.0.2" Quality.Unverified none).Qual
        ≤ (namedRecord "foo.net_A." "10.0.0.2" Quality.Verified none).Qual ∧
      ((unverifiedCache.Update none
          (namedRecord "foo.net_A." "10.0.0.2" Quality.Verified none)).cache.Update none
          (namedRecord "bar." "10.0.0.2" Quality.Unverified none)).ret = false :=
  ⟨by decide, by decide, by decide, by decide, by decide,
   (late_arrival_after_terminal unverifiedCache
      (namedRecord "foo.net_A." "10.0.0.2" Quality.Verified none)
      (namedRecord "bar." "10.0.0.2" Quality.Unverified none)
      { q := Quality.Unverified, err := none, consumers := ["foo.net_A."] }
      (by decide) (by decide) (by decide) (by decide) (by decide)).2.2.1⟩

/-- C9 fails on the code: `10.0.0.2` is promoted to `Invalid` by an update that
carries the error `unreachable`; the later update for the new FQDN `bar.` is
answered with a record of quality `Invalid` whose error is nil, because
`Update` never stores an error in the cache entry. -/
theorem cached_error_is_nil :
    (runUpdates NewNamedAddressCache none
      [namedRecord "foo." "10.0.0.2" Quality.Unverified none,
       namedRecord "foo." "10.0.0.2" Quality.Invalid (some "unreachable"),
       namedRecord "bar." "10.0.0.2" Quality.Unverified none]).news
      = [namedRecord "foo." "10.0.0.2" Quality.Unverified none,
         namedRecord "foo." "10.0.0.2" Quality.Invalid (some "unreachable"),
         namedRecord "bar." "10.0.0.2" Quality.Invalid none] := by
  decide

/-! ## Sequences of `Update` calls -/

theorem Update_get_eq_none_iff (c : NamedAddressCache) (ctx : Context) (na : NamedAddressValue)
    (k : String) :
    (c.Update ctx na).cache.m.get k = none ↔ c.m.get k = none ∧ k ≠ na.Addr := by
  by_cases hk : k = na.Addr
  · subst hk
    obtain ⟨e, he, _⟩ := Update_self c ctx na
    simp [he]
  · rw [Update_get_other c ctx na k hk]
    simp [hk]

theorem runUpdates_cons (c : NamedAddressCache) (ctx : Context) (na : NamedAddressValue)
    (rest : List NamedAddressValue) :
    runUpdates c ctx (na :: rest) =
      { cache := (runUpdates (c.Update ctx na).cache (c.Update ctx na).ctx rest).cache,
        ctx := (runUpdates (c.Update ctx na).cache (c.Update ctx na).ctx rest).ctx,
        news := (c.Update ctx na).news
          ++ (runUpdates (c.Update ctx na).cache (c.Update ctx na).ctx rest).news,
        rets := (c.Update ctx na).ret
          :: (runUpdates (c.Update ctx na).cache (c.Update ctx na).ctx rest).rets } := rfl

theorem runUpdates_ret_at (c : NamedAddressCache) (ctx : Context)
    (pre : List NamedAddressValue) (na : NamedAddressValue) (post : List NamedAddressValue) :
    (runUpdates c ctx (pre ++ na :: post)).rets[pre.length]?
      = some (decide (c.m.get na.Addr = none ∧ na.Addr ∉ pre.map NamedAddressValue.Addr)) := by
  induction pre generalizing c ctx with
  | nil =>
    simp [runUpdates_cons, Update_ret]
    cases c.m.get na.Addr <;> simp
  | cons p pre ih =>
    simp only [List.cons_append, runUpdates_cons, List.length_cons, List.getElem?_cons_succ, ih]
    congr 1
    rw [decide_eq_decide, Update_get_eq_none_iff]
    simp only [List.map_cons, List.mem_cons, not_or]
    tauto

theorem runUpdates_get_ne_none (c : NamedAddressCache) (ctx : Context)
    (nas : List NamedAddressValue) (k : String)
    (h : c.m.get k ≠ none ∨ k ∈ nas.map NamedAddressValue.Addr) :
    (runUpdates c ctx nas).cache.m.get k ≠ none := by
  induction nas generalizing c ctx with
  | nil =>
    rcases h with h | h
    · exact h
    · simp at h
  | cons p nas ih =>
    rw [runUpdates_cons]
    apply ih
    by_cases hk : k = p.Addr
    · left
      rw [Ne, Update_get_eq_none_iff]
      tauto
    · rcases h with h | h
      · left
        rw [Ne, Update_get_eq_none_iff]
        tauto
      · right
        simpa [hk] using h

/-- The relation between an earlier and a later record on the news channel:
if both are for the same address, the quality does not decrease. -/
theorem runUpdates_news_pairwise (c : NamedAddressCache) (ctx : Context)
    (nas : List NamedAddressValue) :
    (runUpdates c ctx nas).news.Pairwise
        (fun x y => x.Addr = y.Addr → x.Quality.val ≤ y.Quality.val) ∧
      ∀ x ∈ (runUpdates c ctx nas).news, ∀ e0, c.m.get x.Addr = some e0 →
        e0.q.val ≤ x.Quality.val := by
  induction nas generalizing c ctx with
  | nil => simp [runUpdates]
  | cons p nas ih =>
    obtain ⟨e, he, hmono, hnews⟩ := Update_self c ctx p
    obtain ⟨ih1, ih2⟩ := ih (c.Update ctx p).cache (c.Update ctx p).ctx
    rw [runUpdates_cons]
    constructor
    · rw [List.pairwise_append]
      refine ⟨?_, ih1, ?_⟩
      · rw [List.pairwise_iff_forall_sublist]
        intro x y hxy _
        have hx := hnews x (hxy.subset (by simp))
        have hy := hnews y (hxy.subset (by simp))
        rw [hx.2, hy.2]
      · intro x hx y hy hxy
        have hx' := hnews x hx
        have := ih2 y hy e (by rw [← hxy, hx'.1]; exact he)
        rw [hx'.2]
        exact this
    · intro x hx e0 he0
      rw [List.mem_append] at hx
      rcases hx with hx | hx
      · have hx' := hnews x hx
        rw [hx'.1] at he0
        rw [hx'.2]
        exact hmono e0 he0
      · by_cases hk : x.Addr = p.Addr
        · rw [hk] at he0
          have h1 := hmono e0 he0
          have h2 := ih2 x hx e (by rw [hk]; exact he)
          exact Nat.le_trans h1 h2
        · exact ih2 x hx e0 (by rw [Update_get_other c ctx p _ hk]; exact he0)

theorem Quality.specRank_mono {a b : Quality} (h : a.val ≤ b.val) : a.specRank ≤ b.specRank := by
  cases a <;> cases b <;> simp [Quality.val, Quality.specRank] at * 

/-! ## The loops of `Verify` -/

theorem verifyStep_inv (st : VerifyState) (ev : VerifyEvent) (h : VerifyInv st) :
    VerifyInv (verifyStep st ev) := by
  have keep : ∀ na : NamedAddressValue, ∀ v ∈ st.validated,
      (st.addrcache.Update st.ctx na).cache.m.get v.Addr ≠ none ∧ v.Addr ≠ "" := by
    intro na v hv
    refine ⟨?_, (h.1 v hv).2⟩
    rw [Ne, Update_get_eq_none_iff]
    exact fun hc => (h.1 v hv).1 hc.1
  cases ev with
  | input addr =>
    simp only [verifyStep]
    split_ifs with hp hs he hsent hret
    · exact h
    · exact h
    · exact h
    · exact ⟨h.1, h.2⟩
    · have hnone : st.addrcache.m.get addr.Addr = none := by
        rw [Update_ret] at hret
        simpa using hret
      refine ⟨?_, ?_⟩
      · intro v hv
        simp only [List.mem_append, List.mem_singleton] at hv
        rcases hv with hv | hv
        · exact keep addr v hv
        · subst hv
          refine ⟨?_, he⟩
          rw [Ne, Update_get_eq_none_iff]
          exact fun hc => hc.2 rfl
      · simp only [List.map_append, List.map_cons, List.map_nil]
        rw [List.nodup_append]
        refine ⟨h.2, by simp, ?_⟩
        intro a ha ha'
        simp only [List.mem_singleton] at ha'
        subst ha'
        obtain ⟨v, hv, hva⟩ := List.mem_map.1 ha
        exact (h.1 v hv).1 (by rw [hva]; exact hnone)
    · exact ⟨fun v hv => keep addr v hv, h.2⟩
  | checked qaddr =>
    simp only [verifyStep]
    split_ifs with hp
    · exact h
    · split
      · exact ⟨h.1, h.2⟩
      · exact ⟨fun v hv => keep _ v hv, h.2⟩

theorem verify_foldl_inv (events : List VerifyEvent) (st : VerifyState) (h : VerifyInv st) :
    VerifyInv (events.foldl verifyStep st) := by
  induction events generalizing st with
  | nil => exact h
  | cons ev events ih => exact ih _ (verifyStep_inv st ev h)

/-- C1. In every finite sequence of `Update` calls on a fresh cache, with any
context, a call returns true exactly if no earlier call carried its address;
every address of the sequence is a key of the cache at the end; and in every
run of `Verify`, whatever the order in which records and verdicts arrive, no
address is handed to `ValidateQA` twice and the empty address never is. -/
theorem update_true_on_first_sight (ctx : Context) :
    (∀ (pre : List NamedAddressValue) (na : NamedAddressValue) (post : List NamedAddressValue),
        (runUpdates NewNamedAddressCache ctx (pre ++ na :: post)).rets[pre.length]?
          = some (decide (na.Addr ∉ pre.map NamedAddressValue.Addr))) ∧
      (∀ (nas : List NamedAddressValue), ∀ p ∈ nas,
        (runUpdates NewNamedAddressCache ctx nas).cache.m.get p.Addr ≠ none) ∧
      (∀ (events : List VerifyEvent),
        ((Verifier.Verify ctx events).validated.map NamedAddressValue.Addr).Nodup ∧
          "" ∉ (Verifier.Verify ctx events).validated.map NamedAddressValue.Addr) := by
  refine ⟨?_, ?_, ?_⟩
  · intro pre na post
    rw [runUpdates_ret_at]
    simp [NewNamedAddressCache, GoMap.get]
  · intro nas p hp
    exact runUpdates_get_ne_none _ _ _ _ (Or.inr (List.mem_map_of_mem _ hp))
  · intro events
    have hinv : VerifyInv (Verifier.Verify ctx events) :=
      verify_foldl_inv events _ ⟨by simp, by simp⟩
    refine ⟨hinv.2, ?_⟩
    intro hmem
    obtain ⟨v, hv, hva⟩ := List.mem_map.1 hmem
    exact (hinv.1 v hv).2 hva

/-- C4. For every finite sequence of `Update` calls on a fresh cache with a
context that is not cancelled, and every (FQDN, address) pair, the ranks
`Unverified(0) < Verifying(1) < {Invalid, Verified}(2)` of the qualities of the
records sent for that pair on the news channel are non-decreasing in the order
of sending. -/
theorem news_rank_monotone (nas : List NamedAddressValue) (fqdn addr : String) :
    List.Pairwise (fun r s => r ≤ s)
      (((runUpdates NewNamedAddressCache none nas).news.filter
          (fun r => decide (r.Name = fqdn ∧ r.Addr = addr))).map
        (fun r => r.Qual.specRank)) := by
  rw [List.pairwise_map]
  have h := (runUpdates_news_pairwise NewNamedAddressCache none nas).1
  have h2 := List.Pairwise.sublist (List.filter_sublist
    (p := fun r => decide (r.Name = fqdn ∧ r.Addr = addr))
    (runUpdates NewNamedAddressCache none nas).news) h
  refine List.Pairwise.imp_of_mem ?_ h2
  intro x y hx hy hxy
  have hx' := (List.mem_filter.1 hx).2
  have hy' := (List.mem_filter.1 hy).2
  simp only [decide_eq_true_eq] at hx' hy'
  exact Quality.specRank_mono (hxy (by rw [hx'.2, hy'.2]))

/-! ## Qualities and verdicts at concrete inputs -/

/-- C11 fails on the code: `WithNewQuality` of a `QualifiedAddressValue` with
the quality `Invalid` and the error `unreachable` returns a qualified address
with the same address and the new quality whose `Err()` is nil: the method
copies the receiver's error and ignores its argument. -/
theorem qualifiedAddress_withNewQuality_drops_error :
    (((({ Address := "10.0.0.2", Quality := Quality.Verifying, err := none } :
        QualifiedAddressValue).WithNewQuality Quality.Invalid (some "unreachable")).2).Addr
        = "10.0.0.2") ∧
      (((({ Address := "10.0.0.2", Quality := Quality.Verifying, err := none } :
        QualifiedAddressValue).WithNewQuality Quality.Invalid (some "unreachable")).2).Qual
        = Quality.Invalid) ∧
      (((({ Address := "10.0.0.2", Quality := Quality.Verifying, err := none } :
        QualifiedAddressValue).WithNewQuality Quality.Invalid (some "unreachable")).2).Err
        = none) := by
  decide

/-- C12 fails on the code: `IsPending` is false for `Verifying`, which is
neither verdict, and true for the verdict `Verified`; it is true for
`Unverified` and false for `Invalid`. -/
theorem isPending_values :
    Quality.Unverified.IsPending = true ∧ Quality.Verifying.IsPending = false ∧
      Quality.Invalid.IsPending = false ∧ Quality.Verified.IsPending = true := by
  decide

/-- C20 fails on the code for a plain qualified address: with 3 echoes, a
threshold of 50 percent and no reply, the probe of `10.0.0.2` ends with the
verdict `Invalid` whose `Err()` is nil, not the reason; the same probe of a
named address carries the reason. -/
theorem validate_plain_address_drops_reason :
    (({ count := 3, thresholdPercentage := 50, netns := none } : Pinger).task
        (QualifiedAddress.qualified
          { Address := "10.0.0.2", Quality := Quality.Verifying, err := none })
        none (PingOutcome.statistics 0)
      = QualifiedAddress.qualified
          { Address := "10.0.0.2", Quality := Quality.Invalid, err := none }) ∧
      (({ count := 3, thresholdPercentage := 50, netns := none } : Pinger).task
        (QualifiedAddress.named (namedRecord "foo." "10.0.0.2" Quality.Verifying none))
        none (PingOutcome.statistics 0)
      = QualifiedAddress.named
          (namedRecord "foo." "10.0.0.2" Quality.Invalid
            (some "no replies or too many losses"))) := by
  decide

/-- C19 fails on the code: the entry for (`foo.`, `10.0.0.2`) is raised to
`Invalid` by an update that carries the error `unreachable`; the entry `Get`
returns has the quality `Invalid` and a nil `Err()`. -/
theorem raised_entry_has_no_error :
    (NewNamedAddressesMap.Track
        [some (namedRecord "foo." "10.0.0.2" Quality.Unverified none),
         some (namedRecord "foo." "10.0.0.2" Quality.Invalid (some "unreachable"))]).Get id
      = [{ FQDN := "foo.",
           Addresses := [{ Address := "10.0.0.2", Quality := Quality.Invalid, err := none }] }] := by
  decide

/-! ## Keys of Go maps -/

namespace GoMap

theorem keys_cons {V : Type} (p : String × V) (m : GoMap V) :
    keys (p :: m) = p.1 :: keys m := rfl

theorem mem_keys_set {V : Type} (m : GoMap V) (k : String) (v : V) (x : String) :
    x ∈ keys (m.set k v) ↔ x ∈ keys m ∨ x = k := by
  induction m with
  | nil => simp [set, keys]
  | cons p m ih =>
    obtain ⟨k1, v1⟩ := p
    by_cases h : k1 = k
    · subst h
      simp only [set, if_true, keys_cons, List.mem_cons]
      tauto
    · simp only [set, if_neg h, keys_cons, List.mem_cons, ih]
      tauto

theorem nodup_keys_set {V : Type} (m : GoMap V) (k : String) (v : V) (h : (keys m).Nodup) :
    (keys (m.set k v)).Nodup := by
  induction m with
  | nil => simp [set, keys]
  | cons p m ih =>
    obtain ⟨k1, v1⟩ := p
    rw [keys_cons, List.nodup_cons] at h
    by_cases hk : k1 = k
    · subst hk
      simp only [set, if_true, keys_cons, List.nodup_cons]
      exact h
    · simp only [set, if_neg hk, keys_cons, List.nodup_cons, mem_keys_set]
      refine ⟨?_, ih h.2⟩
      rintro (hm | hm)
      · exact h.1 hm
      · exact hk hm

theorem get_eq_none_iff {V : Type} (m : GoMap V) (k : String) :
    m.get k = none ↔ k ∉ keys m := by
  induction m with
  | nil => simp [get, keys]
  | cons p m ih =>
    obtain ⟨k1, v1⟩ := p
    by_cases h : k1 = k
    · subst h
      simp [get, keys_cons]
    · have h' : ¬ k = k1 := fun e => h e.symm
      simp [get, keys_cons, h, h', ih]

theorem mem_of_get {V : Type} (m : GoMap V) (k : String) (v : V) (h : m.get k = some v) :
    (k, v) ∈ m := by
  induction m with
  | nil => simp [get] at h
  | cons p m ih =>
    obtain ⟨k1, v1⟩ := p
    by_cases hk : k1 = k
    · subst hk
      simp only [get, if_true, Option.some.injEq] at h
      subst h
      simp
    · simp only [get, if_neg hk] at h
      exact List.mem_cons_of_mem _ (ih h)

theorem get_of_mem {V : Type} (m : GoMap V) (k : String) (v : V) (hn : (keys m).Nodup)
    (h : (k, v) ∈ m) : m.get k = some v := by
  induction m with
  | nil => simp at h
  | cons p m ih =>
    obtain ⟨k1, v1⟩ := p
    rw [keys_cons, List.nodup_cons] at hn
    rcases List.mem_cons.1 h with h | h
    · cases h
      simp [get]
    · have hk : k ∈ keys m := List.mem_map.2 ⟨(k, v), h, rfl⟩
      have hne : ¬ k1 = k := fun e => hn.1 (e ▸ hk)
      simp only [get, if_neg hne]
      exact ih hn.2 h

theorem set_of_get {V : Type} (m : GoMap V) (k : String) (v : V) (h : m.get k = some v) :
    m.set k v = m := by
  induction m with
  | nil => simp [get] at h
  | cons p m ih =>
    obtain ⟨k1, v1⟩ := p
    by_cases hk : k1 = k
    · subst hk
      simp only [get, if_true, Option.some.injEq] at h
      subst h
      simp [set]
    · simp only [get, if_neg hk] at h
      simp [set, hk, ih h]

end GoMap

/-! ## The names the digger generates -/

/-- The inner loop of `AllFQDNsOnAttachedNetworks` over the labels of one
network. -/
theorem allFQDNs_labels (net : String) (labels : List String) (st : List String × GoMap Unit) :
    (labels.foldl
        (fun st label => (st.1 ++ [label ++ "." ++ net], GoMap.set st.2 label ())) st).1
        = st.1 ++ labels.map (fun label => label ++ "." ++ net) ∧
      ((GoMap.keys st.2).Nodup → (GoMap.keys (labels.foldl
        (fun st label => (st.1 ++ [label ++ "." ++ net], GoMap.set st.2 label ())) st).2).Nodup) ∧
      ∀ x, x ∈ GoMap.keys (labels.foldl
        (fun st label => (st.1 ++ [label ++ "." ++ net], GoMap.set st.2 label ())) st).2
          ↔ x ∈ GoMap.keys st.2 ∨ x ∈ labels := by
  induction labels generalizing st with
  | nil => simp
  | cons l labels ih =>
    simp only [List.foldl_cons]
    obtain ⟨h1, h2, h3⟩ := ih (st.1 ++ [l ++ "." ++ net], GoMap.set st.2 l ())
    refine ⟨?_, ?_, ?_⟩
    · rw [h1]
      simp
    · intro hn
      exact h2 (GoMap.nodup_keys_set _ _ _ hn)
    · intro x
      rw [h3, GoMap.mem_keys_set]
      simp only [List.mem_cons]
      tauto

/-- The outer loop of `AllFQDNsOnAttachedNetworks` over the networks. -/
theorem allFQDNs_nets (nets : List DockerNetwork) (st : List String × GoMap Unit) :
    (nets.foldl
        (fun st net =>
          net.Labels.foldl
            (fun st label => (st.1 ++ [label ++ "." ++ net.Label], GoMap.set st.2 label ()))
            st) st).1
        = st.1 ++ nets.flatMap (fun net => net.Labels.map (fun label => label ++ "." ++ net.Label)) ∧
      ((GoMap.keys st.2).Nodup → (GoMap.keys (nets.foldl
        (fun st net =>
          net.Labels.foldl
            (fun st label => (st.1 ++ [label ++ "." ++ net.Label], GoMap.set st.2 label ()))
            st) st).2).Nodup) ∧
      ∀ x, x ∈ GoMap.keys (nets.foldl
        (fun st net =>
          net.Labels.foldl
            (fun st label => (st.1 ++ [label ++ "." ++ net.Label], GoMap.set st.2 label ()))
            st) st).2
          ↔ x ∈ GoMap.keys st.2 ∨ x ∈ nets.flatMap (fun net => net.Labels) := by
  induction nets generalizing st with
  | nil => simp
  | cons n nets ih =>
    simp only [List.foldl_cons]
    obtain ⟨i1, i2, i3⟩ := allFQDNs_labels n.Label n.Labels st
    obtain ⟨h1, h2, h3⟩ := ih (n.Labels.foldl
      (fun st label => (st.1 ++ [label ++ "." ++ n.Label], GoMap.set st.2 label ())) st)
    refine ⟨?_, ?_, ?_⟩
    · rw [h1, i1]
      simp
    · intro hn
      exact h2 (i2 hn)
    · intro x
      rw [h3, i3]
      simp only [List.flatMap_cons, List.mem_append]
      tauto

theorem DigFQDNs_none (Fqdn : String → String) (names : List String) :
    Digger.DigFQDNs Fqdn none names =
      { ctx := none,
        news := names.map (fun name =>
          { FQDN := Fqdn name, Address := "", Quality := Quality.Unverified, err := none }),
        resolving := names.map Fqdn } := by
  induction names with
  | nil => rfl
  | cons n names ih => simp [Digger.DigFQDNs, trySend, ih]

/-- C13. Whatever the order in which the keys of `flatnames` are visited,
`AllFQDNsOnAttachedNetworks` returns, up to order, one name
`label.networkLabel` for every label of every network followed by one short
name for every distinct label. If `dns.Fqdn` appends a dot to each of these
names, the FQDNs of the placeholders `DigNetworks` sends (context not
cancelled) are exactly the names `label.networkLabel.` and `label.` of the
labels of the networks. -/
theorem allFQDNs_perm (order : List String → List String)
    (horder : ∀ l, List.Perm (order l) l) (Fqdn : String → String)
    (nets : List DockerNetwork)
    (hFqdn : ∀ name ∈ AllFQDNsOnAttachedNetworks order nets, Fqdn name = name ++ ".") :
    List.Perm (AllFQDNsOnAttachedNetworks order nets)
        (nets.flatMap (fun net => net.Labels.map (fun label => label ++ "." ++ net.Label))
          ++ (nets.flatMap (fun net => net.Labels)).dedup) ∧
      ∀ x, x ∈ (Digger.DigNetworks Fqdn order none nets).news.map NamedAddressValue.Name ↔
        (∃ net ∈ nets, ∃ label ∈ net.Labels, x = label ++ "." ++ net.Label ++ ".") ∨
          (∃ net ∈ nets, ∃ label ∈ net.Labels, x = label ++ ".") := by
  obtain ⟨h1, h2, h3⟩ := allFQDNs_nets nets (([] : List String), ([] : GoMap Unit))
  have hperm : List.Perm (AllFQDNsOnAttachedNetworks order nets)
      (nets.flatMap (fun net => net.Labels.map (fun label => label ++ "." ++ net.Label))
        ++ (nets.flatMap (fun net => net.Labels)).dedup) := by
    unfold AllFQDNsOnAttachedNetworks
    simp only [h1, List.nil_append]
    refine List.Perm.append_left _ ((horder _).trans ?_)
    rw [List.perm_ext_iff_of_nodup (h2 (by simp [GoMap.keys])) (List.nodup_dedup _)]
    intro x
    rw [h3, List.mem_dedup]
    simp [GoMap.keys]
  refine ⟨hperm, ?_⟩
  intro x
  have hmem : ∀ y, y ∈ AllFQDNsOnAttachedNetworks order nets ↔
      (∃ net ∈ nets, ∃ label ∈ net.Labels, y = label ++ "." ++ net.Label) ∨
        (∃ net ∈ nets, ∃ label ∈ net.Labels, y = label) := by
    intro y
    rw [hperm.mem_iff, List.mem_append, List.mem_dedup]
    simp only [List.mem_flatMap, List.mem_map]
    constructor
    · rintro (⟨n, hn, l, hl, e⟩ | ⟨n, hn, hl⟩)
      · exact Or.inl ⟨n, hn, l, hl, e.symm⟩
      · exact Or.inr ⟨n, hn, y, hl, rfl⟩
    · rintro (⟨n, hn, l, hl, e⟩ | ⟨n, hn, l, hl, e⟩)
      · exact Or.inl ⟨n, hn, l, hl, e.symm⟩
      · exact Or.inr ⟨n, hn, e ▸ hl⟩
  unfold Digger.DigNetworks
  simp only [DigFQDNs_none, List.map_map, List.mem_map, Function.comp]
  constructor
  · rintro ⟨y, hy, e⟩
    have e' : Fqdn y = x := e
    rw [hFqdn y hy] at e'
    rcases (hmem y).1 hy with ⟨n, hn, l, hl, ey⟩ | ⟨n, hn, l, hl, ey⟩
    · exact Or.inl ⟨n, hn, l, hl, by rw [← e', ey]⟩
    · exact Or.inr ⟨n, hn, l, hl, by rw [← e', ey]⟩
  · rintro (⟨n, hn, l, hl, e⟩ | ⟨n, hn, l, hl, e⟩)
    · have hy : l ++ "." ++ n.Label ∈ AllFQDNsOnAttachedNetworks order nets :=
        (hmem _).2 (Or.inl ⟨n, hn, l, hl, rfl⟩)
      exact ⟨_, hy, by show Fqdn _ = x; rw [hFqdn _ hy, e]⟩
    · have hy : l ∈ AllFQDNsOnAttachedNetworks order nets :=
        (hmem _).2 (Or.inr ⟨n, hn, l, hl, rfl⟩)
      exact ⟨_, hy, by show Fqdn _ = x; rw [hFqdn _ hy, e]⟩

/-- The networks of the test `creates a FQDN bubble`, visited in the order of
insertion, with a `dns.Fqdn` that appends a dot. -/
theorem allFQDNs_perm_witness :
    (∀ l : List String, List.Perm (id l) l) ∧
      (∀ name ∈ AllFQDNsOnAttachedNetworks id
          [{ Label := "net_A", Labels := ["foo", "foo_1", "foo_2"] },
           { Label := "net_B", Labels := ["bar", "bar_1"] }],
        (fun s => s ++ ".") name = name ++ ".") ∧
      List.Perm
        (AllFQDNsOnAttachedNetworks id
          [{ Label := "net_A", Labels := ["foo", "foo_1", "foo_2"] },
           { Label := "net_B", Labels := ["bar", "bar_1"] }])
        (([{ Label := "net_A", Labels := ["foo", "foo_1", "foo_2"] },
           { Label := "net_B", Labels := ["bar", "bar_1"] }] : List DockerNetwork).flatMap
            (fun net => net.Labels.map (fun label => label ++ "." ++ net.Label))
          ++ (([{ Label := "net_A", Labels := ["foo", "foo_1", "foo_2"] },
           { Label := "net_B", Labels := ["bar", "bar_1"] }] : List DockerNetwork).flatMap
            (fun net => net.Labels)).dedup) :=
  ⟨fun l => List.Perm.refl l, fun _ _ => rfl,
   (allFQDNs_perm id (fun l => List.Perm.refl l) (fun s => s ++ ".")
      [{ Label := "net_A", Labels := ["foo", "foo_1", "foo_2"] },
       { Label := "net_B", Labels := ["bar", "bar_1"] }] (fun _ _ => rfl)).1⟩

/-! ## The result map: one call of `Update` -/

theorem GoMap.mem_set {V : Type} (m : GoMap V) (k : String) (v : V) (p : String × V)
    (h : p ∈ m.set k v) : p = (k, v) ∨ p ∈ m := by
  induction m with
  | nil =>
    simp only [GoMap.set, List.mem_singleton] at h
    exact Or.inl h
  | cons p1 m ih =>
    obtain ⟨k1, v1⟩ := p1
    by_cases hk : k1 = k
    · simp only [GoMap.set, if_pos hk, List.mem_cons] at h
      rcases h with h | h
      · exact Or.inl h
      · exact Or.inr (List.mem_cons_of_mem _ h)
    · simp only [GoMap.set, if_neg hk, List.mem_cons] at h
      rcases h with h | h
      · exact Or.inr (h ▸ List.mem_cons_self _ _)
      · rcases ih h with h | h
        · exact Or.inl h
        · exact Or.inr (List.mem_cons_of_mem _ h)

/-- The first element of a list of qualified addresses with a given address. -/
theorem find_address_cons (x : QualifiedAddressValue) (xs : List QualifiedAddressValue)
    (b : String) :
    (x :: xs).find? (fun y => decide (y.Address = b))
      = if x.Address = b then some x else xs.find? (fun y => decide (y.Address = b)) := by
  by_cases h : x.Address = b <;> simp [List.find?_cons, h]

theorem updateKnown_eq_none (addr : String) (q : Quality) (l : List QualifiedAddressValue) :
    updateKnown addr q l = none ↔ l.find? (fun y => decide (y.Address = addr)) = none := by
  induction l with
  | nil => simp [updateKnown]
  | cons x xs ih =>
    rw [find_address_cons]
    by_cases h : x.Address = addr
    · simp only [updateKnown, if_pos h]
      split_ifs <;> simp
    · simp only [updateKnown, if_neg h, Option.map_eq_none', ih]

/-- The slice after the loop of `Update` found the address: the addresses are
the same, in the same places; the first element with the address has the
greater of its quality and the incoming one, and the other addresses find
what they found. -/
theorem updateKnown_some (addr : String) (q : Quality) (l l' : List QualifiedAddressValue)
    (h : updateKnown addr q l = some l') :
    l'.map QualifiedAddressValue.Address = l.map QualifiedAddressValue.Address ∧
      (∀ b, l'.find? (fun y => decide (y.Address = b))
        = if b = addr then
            (l.find? (fun y => decide (y.Address = addr))).map
              (fun e => if q > e.Quality then { e with Quality := q } else e)
          else l.find? (fun y => decide (y.Address = b))) ∧
      ((∀ e, l.find? (fun y => decide (y.Address = addr)) = some e → ¬ q > e.Quality) →
        l' = l) := by
  induction l generalizing l' with
  | nil => simp [updateKnown] at h
  | cons x xs ih =>
    by_cases hx : x.Address = addr
    · simp only [updateKnown, if_pos hx] at h
      by_cases hq : q > x.Quality
      · simp only [if_pos hq, Option.some.injEq] at h
        subst h
        refine ⟨by simp, ?_, ?_⟩
        · intro b
          rw [find_address_cons, find_address_cons, find_address_cons]
          by_cases hb : b = addr
          · subst hb
            simp [hx, hq]
          · have hxb : ¬ x.Address = b := fun e => hb (e.symm.trans hx)
            simp [hb, hxb]
        · intro hall
          exact absurd hq (hall x (by rw [find_address_cons, if_pos hx]))
      · simp only [if_neg hq, Option.some.injEq] at h
        subst h
        refine ⟨rfl, ?_, fun _ => rfl⟩
        intro b
        by_cases hb : b = addr
        · subst hb
          rw [find_address_cons]
          simp [hx, hq]
        · simp [hb]
    · simp only [updateKnown, if_neg hx, Option.map_eq_some'] at h
      obtain ⟨l1, hl1, rfl⟩ := h
      obtain ⟨i1, i2, i3⟩ := ih l1 hl1
      refine ⟨by simp [i1], ?_, ?_⟩
      · intro b
        rw [find_address_cons, find_address_cons, find_address_cons, i2 b]
        by_cases hb : b = addr
        · subst hb
          simp [hx]
        · simp [hb]
      · intro hall
        rw [i3 (fun e he => hall e (by rw [find_address_cons, if_neg hx]; exact he))]

theorem mapUpdate_nil (m : NamedAddressesMap) : m.Update none = m := rfl

theorem mapUpdate_of_empty_name (m : NamedAddressesMap) (na : NamedAddressValue)
    (h : na.Name = "") : m.Update (some na) = m := by
  simp [NamedAddressesMap.Update, h]

theorem mapUpdate_of_unknown (m : NamedAddressesMap) (na : NamedAddressValue)
    (h : na.Name ≠ "") (hg : m.m.get na.Name = none) :
    m.Update (some na) = { m := m.m.set na.Name (if na.Addr = "" then [] else [na.QA]) } := by
  simp only [NamedAddressesMap.Update, if_neg h, hg]
  split_ifs <;> rfl

theorem mapUpdate_of_known_empty (m : NamedAddressesMap) (na : NamedAddressValue)
    (l : List QualifiedAddressValue) (hg : m.m.get na.Name = some l) (ha : na.Addr = "") :
    m.Update (some na) = m := by
  simp only [NamedAddressesMap.Update, hg, ha]
  split_ifs <;> rfl

theorem mapUpdate_of_found (m : NamedAddressesMap) (na : NamedAddressValue)
    (l l' : List QualifiedAddressValue) (h : na.Name ≠ "") (hg : m.m.get na.Name = some l)
    (ha : na.Addr ≠ "") (hu : updateKnown na.Addr na.Qual l = some l') :
    m.Update (some na) = { m := m.m.set na.Name l' } := by
  simp only [NamedAddressesMap.Update, if_neg h, hg, if_neg ha, hu]

theorem mapUpdate_of_not_found (m : NamedAddressesMap) (na : NamedAddressValue)
    (l : List QualifiedAddressValue) (h : na.Name ≠ "") (hg : m.m.get na.Name = some l)
    (ha : na.Addr ≠ "") (hu : updateKnown na.Addr na.Qual l = none) :
    m.Update (some na) = { m := m.m.set na.Name (l ++ [na.QA]) } := by
  simp only [NamedAddressesMap.Update, if_neg h, hg, if_neg ha, hu]

/-- `Update` leaves the lists of the other FQDNs as they are. -/
theorem mapUpdate_get_other (m : NamedAddressesMap) (na : NamedAddressValue) (k : String)
    (hk : k ≠ na.Name) : (m.Update (some na)).m.get k = m.m.get k := by
  by_cases h : na.Name = ""
  · rw [mapUpdate_of_empty_name m na h]
  · cases hg : m.m.get na.Name with
    | none =>
      rw [mapUpdate_of_unknown m na h hg]
      exact GoMap.get_set_of_ne _ _ hk
    | some l =>
      by_cases ha : na.Addr = ""
      · rw [mapUpdate_of_known_empty m na l hg ha]
      · cases hu : updateKnown na.Addr na.Qual l with
        | none =>
          rw [mapUpdate_of_not_found m na l h hg ha hu]
          exact GoMap.get_set_of_ne _ _ hk
        | some l' =>
          rw [mapUpdate_of_found m na l l' h hg ha hu]
          exact GoMap.get_set_of_ne _ _ hk

/-- What is stored for a pair after `Update`, in terms of what was stored. -/
theorem stored_mapUpdate (m : NamedAddressesMap) (na : NamedAddressValue) (f a : String) :
    (m.Update (some na)).stored f a =
      if na.Name = f ∧ na.Addr = a ∧ f ≠ "" ∧ a ≠ "" then
        match m.stored f a with
        | some e => some (if na.Qual > e.Quality then { e with Quality := na.Qual } else e)
        | none => some na.QA
      else m.stored f a := by
  have hQA : na.QA.Address = na.Addr := rfl
  by_cases hf : na.Name = f
  swap
  · have : (m.Update (some na)).m.get f = m.m.get f :=
      mapUpdate_get_other m na f (fun e => hf e.symm)
    rw [if_neg (fun c => hf c.1)]
    simp only [NamedAddressesMap.stored, this]
  subst hf
  by_cases h : na.Name = ""
  · rw [mapUpdate_of_empty_name m na h, if_neg (fun c => c.2.2.1 h)]
  cases hg : m.m.get na.Name with
  | none =>
    have hst : ∀ b, m.stored na.Name b = none := by
      intro b
      simp only [NamedAddressesMap.stored, hg, Option.none_bind]
    have hl : ({ m := m.m.set na.Name (if na.Addr = "" then [] else [na.QA]) } :
        NamedAddressesMap).stored na.Name a
        = (if na.Addr = "" then [] else [na.QA]).find? (fun y => decide (y.Address = a)) := by
      simp only [NamedAddressesMap.stored, GoMap.get_set_self, Option.some_bind]
    rw [mapUpdate_of_unknown m na h hg, hl, hst a]
    by_cases ha : na.Addr = ""
    · rw [if_pos ha, if_neg (fun c => c.2.2.2 (c.2.1 ▸ ha))]
      rfl
    · rw [if_neg ha]
      by_cases haa : na.Addr = a
      · subst haa
        rw [if_pos ⟨rfl, rfl, h, ha⟩, find_address_cons, if_pos hQA]
      · rw [if_neg (fun c => haa c.2.1), find_address_cons, if_neg (fun c => haa (hQA ▸ c))]
        rfl
  | some l =>
    have hst : ∀ b, m.stored na.Name b = l.find? (fun y => decide (y.Address = b)) := by
      intro b
      simp only [NamedAddressesMap.stored, hg, Option.some_bind]
    by_cases ha : na.Addr = ""
    · rw [mapUpdate_of_known_empty m na l hg ha, if_neg (fun c => c.2.2.2 (c.2.1 ▸ ha))]
    · cases hu : updateKnown na.Addr na.Qual l with
      | none =>
        have hnone := (updateKnown_eq_none _ _ _).1 hu
        have hl : ({ m := m.m.set na.Name (l ++ [na.QA]) } : NamedAddressesMap).stored na.Name a
            = (l.find? (fun y => decide (y.Address = a))).or
                ([na.QA].find? (fun y => decide (y.Address = a))) := by
          simp only [NamedAddressesMap.stored, GoMap.get_set_self, Option.some_bind,
            List.find?_append]
        rw [mapUpdate_of_not_found m na l h hg ha hu, hl, hst a]
        by_cases haa : na.Addr = a
        · subst haa
          rw [if_pos ⟨rfl, rfl, h, ha⟩, hnone, find_address_cons, if_pos hQA]
          rfl
        · rw [if_neg (fun c => haa c.2.1), find_address_cons, if_neg (fun c => haa (hQA ▸ c))]
          simp
      | some l' =>
        obtain ⟨_, i2, _⟩ := updateKnown_some _ _ _ _ hu
        have hl : ({ m := m.m.set na.Name l' } : NamedAddressesMap).stored na.Name a
            = l'.find? (fun y => decide (y.Address = a)) := by
          simp only [NamedAddressesMap.stored, GoMap.get_set_self, Option.some_bind]
        rw [mapUpdate_of_found m na l l' h hg ha hu, hl, hst a, i2 a]
        by_cases haa : na.Addr = a
        · subst haa
          rw [if_pos rfl, if_pos ⟨rfl, rfl, h, ha⟩]
          cases hfind : l.find? (fun y => decide (y.Address = na.Addr)) with
          | none =>
            rw [← updateKnown_eq_none na.Addr na.Qual l, hu] at hfind
            cases hfind
          | some e => rfl
        · rw [if_neg (fun c => haa c.symm), if_neg (fun c => haa c.2.1)]

/-! ## The result map: sequences of `Update` calls -/

theorem not_mem_addresses_of_find (l : List QualifiedAddressValue) (a : String)
    (h : l.find? (fun y => decide (y.Address = a)) = none) :
    a ∉ l.map QualifiedAddressValue.Address := by
  intro hm
  obtain ⟨x, hx, hxa⟩ := List.mem_map.1 hm
  have := List.find?_eq_none.1 h x hx
  simp [hxa] at this

theorem wellFormed_mapUpdate (m : NamedAddressesMap) (u : Option NamedAddressValue)
    (hw : m.WellFormed) : (m.Update u).WellFormed := by
  cases u with
  | none => exact hw
  | some na =>
    have hQA : na.QA.Address = na.Addr := rfl
    have step : ∀ v : List QualifiedAddressValue,
        ((∀ x ∈ v, x.Address ≠ "") ∧ (v.map QualifiedAddressValue.Address).Nodup) →
        na.Name ≠ "" →
        ({ m := m.m.set na.Name v } : NamedAddressesMap).WellFormed := by
      intro v hv hn
      refine ⟨GoMap.nodup_keys_set _ _ _ hw.1, ?_⟩
      intro p hp
      rcases GoMap.mem_set _ _ _ _ hp with hp | hp
      · subst hp
        exact ⟨hn, hv.1, hv.2⟩
      · exact hw.2 p hp
    by_cases h : na.Name = ""
    · rw [mapUpdate_of_empty_name m na h]
      exact hw
    cases hg : m.m.get na.Name with
    | none =>
      rw [mapUpdate_of_unknown m na h hg]
      apply step _ _ h
      by_cases ha : na.Addr = ""
      · simp [ha]
      · rw [if_neg ha]
        refine ⟨?_, by simp⟩
        intro x hx
        rw [List.mem_singleton] at hx
        subst hx
        exact ha
    | some l =>
      have hl := hw.2 _ (GoMap.mem_of_get _ _ _ hg)
      by_cases ha : na.Addr = ""
      · rw [mapUpdate_of_known_empty m na l hg ha]
        exact hw
      · cases hu : updateKnown na.Addr na.Qual l with
        | none =>
          rw [mapUpdate_of_not_found m na l h hg ha hu]
          apply step _ _ h
          have hnone := not_mem_addresses_of_find l na.Addr ((updateKnown_eq_none _ _ _).1 hu)
          refine ⟨?_, ?_⟩
          · intro x hx
            rcases List.mem_append.1 hx with hx | hx
            · exact hl.2.1 x hx
            · rw [List.mem_singleton] at hx
              subst hx
              exact ha
          · rw [List.map_append, List.nodup_append]
            refine ⟨hl.2.2, by simp, ?_⟩
            intro b hb hb'
            simp only [List.map_cons, List.map_nil, List.mem_singleton] at hb'
            subst hb'
            exact hnone hb
        | some l' =>
          rw [mapUpdate_of_found m na l l' h hg ha hu]
          obtain ⟨i1, _, _⟩ := updateKnown_some _ _ _ _ hu
          apply step _ _ h
          refine ⟨?_, by rw [i1]; exact hl.2.2⟩
          intro x hx
          have hxa : x.Address ∈ l.map QualifiedAddressValue.Address := by
            rw [← i1]
            exact List.mem_map_of_mem _ hx
          obtain ⟨y, hy, hya⟩ := List.mem_map.1 hxa
          rw [← hya]
          exact hl.2.1 y hy

theorem track_snoc (m : NamedAddressesMap) (news : List (Option NamedAddressValue))
    (u : Option NamedAddressValue) : m.Track (news ++ [u]) = (m.Track news).Update u := by
  simp [NamedAddressesMap.Track, List.foldl_append]

theorem wellFormed_track (news : List (Option NamedAddressValue)) :
    (NewNamedAddressesMap.Track news).WellFormed := by
  induction news using List.reverseRecOn with
  | nil => exact ⟨by simp [NewNamedAddressesMap, NamedAddressesMap.Track, GoMap.keys],
      by simp [NewNamedAddressesMap, NamedAddressesMap.Track]⟩
  | append_singleton news u ih =>
    rw [track_snoc]
    exact wellFormed_mapUpdate _ _ ih

/-- In a well-formed map a stored pair has a non-empty FQDN and a non-empty
address, and the stored element carries the address. -/
theorem stored_nonempty (m : NamedAddressesMap) (hw : m.WellFormed) (f a : String)
    (e : QualifiedAddressValue) (h : m.stored f a = some e) :
    f ≠ "" ∧ a ≠ "" ∧ e.Address = a ∧ ∃ l, m.m.get f = some l ∧ e ∈ l := by
  unfold NamedAddressesMap.stored at h
  cases hg : m.m.get f with
  | none => simp [hg] at h
  | some l =>
    simp only [hg, Option.some_bind] at h
    have hmem := List.mem_of_find?_eq_some h
    have hp := List.find?_some h
    simp only [decide_eq_true_eq] at hp
    have hl := hw.2 _ (GoMap.mem_of_get _ _ _ hg)
    exact ⟨hl.1, hp ▸ hl.2.1 e hmem, hp, l, rfl, hmem⟩

/-- An update whose quality is not greater than the stored one of its pair
changes nothing. -/
theorem mapUpdate_unchanged (m : NamedAddressesMap) (na : NamedAddressValue)
    (e : QualifiedAddressValue) (h : m.stored na.Name na.Addr = some e)
    (hq : ¬ na.Qual > e.Quality) : m.Update (some na) = m := by
  by_cases hn : na.Name = ""
  · exact mapUpdate_of_empty_name m na hn
  unfold NamedAddressesMap.stored at h
  cases hg : m.m.get na.Name with
  | none => simp [hg] at h
  | some l =>
    simp only [hg, Option.some_bind] at h
    by_cases ha : na.Addr = ""
    · exact mapUpdate_of_known_empty m na l hg ha
    · cases hu : updateKnown na.Addr na.Qual l with
      | none =>
        rw [(updateKnown_eq_none _ _ _).1 hu] at h
        cases h
      | some l' =>
        obtain ⟨_, _, i3⟩ := updateKnown_some _ _ _ _ hu
        have hl : l' = l := i3 (fun e' he' => by
          rw [h] at he'
          cases he'
          exact hq)
        rw [mapUpdate_of_found m na l l' hn hg ha hu, hl, GoMap.set_of_get _ _ _ hg]

/-- C14. In a map reached by `Update` calls from a new map, no call of
`Update` lowers the quality stored for an (FQDN, address) pair; after an update
for the pair itself the stored quality is the greater of the stored and the
incoming one, and an update whose quality is not strictly greater than the
stored one leaves the whole map as it is. -/
theorem update_never_lowers (news : List (Option NamedAddressValue))
    (u : Option NamedAddressValue) (f a : String) (e : QualifiedAddressValue)
    (h : (NewNamedAddressesMap.Track news).stored f a = some e) :
    (∃ e', ((NewNamedAddressesMap.Track news).Update u).stored f a = some e' ∧
        e.Quality ≤ e'.Quality) ∧
      ∀ na, u = some na → na.Name = f → na.Addr = a →
        (∃ e', ((NewNamedAddressesMap.Track news).Update u).stored f a = some e' ∧
          e'.Quality = if e.Quality < na.Qual then na.Qual else e.Quality) ∧
        (¬ e.Quality < na.Qual →
          (NewNamedAddressesMap.Track news).Update u = NewNamedAddressesMap.Track news) := by
  obtain ⟨hf, ha, _, _⟩ := stored_nonempty _ (wellFormed_track news) f a e h
  constructor
  · cases u with
    | none => exact ⟨e, h, Nat.le_refl _⟩
    | some na =>
      rw [stored_mapUpdate]
      by_cases hc : na.Name = f ∧ na.Addr = a ∧ f ≠ "" ∧ a ≠ ""
      · rw [if_pos hc, h]
        by_cases hq : na.Qual > e.Quality
        · exact ⟨_, rfl, by simp only [if_pos hq]; exact Nat.le_of_lt hq⟩
        · exact ⟨_, rfl, by simp only [if_neg hq]; exact Nat.le_refl _⟩
      · rw [if_neg hc]
        exact ⟨e, h, Nat.le_refl _⟩
  · intro na hu hnf hna
    subst hu hnf hna
    constructor
    · rw [stored_mapUpdate, if_pos ⟨rfl, rfl, hf, ha⟩, h]
      by_cases hq : e.Quality < na.Qual
      · have hq' : na.Qual > e.Quality := hq
        exact ⟨_, rfl, by simp only [if_pos hq', if_pos hq]⟩
      · have hq' : ¬ na.Qual > e.Quality := hq
        exact ⟨_, rfl, by simp only [if_neg hq', if_neg hq]⟩
    · intro hq
      exact mapUpdate_unchanged _ na e h hq

/-- The pair (`foo.`, `10.0.0.2`) stored as `Verifying`, raised by `Verified`. -/
theorem update_never_lowers_witness :
    (NewNamedAddressesMap.Track
        [some (namedRecord "foo." "10.0.0.2" Quality.Verifying none)]).stored "foo." "10.0.0.2"
      = some { Address := "10.0.0.2", Quality := Quality.Verifying, err := none } ∧
    ∃ e', ((NewNamedAddressesMap.Track
        [some (namedRecord "foo." "10.0.0.2" Quality.Verifying none)]).Update
          (some (namedRecord "foo." "10.0.0.2" Quality.Verified none))).stored
            "foo." "10.0.0.2" = some e' ∧
        ({ Address := "10.0.0.2", Quality := Quality.Verifying, err := none } :
          QualifiedAddressValue).Quality ≤ e'.Quality :=
  ⟨by decide,
   (update_never_lowers [some (namedRecord "foo." "10.0.0.2" Quality.Verifying none)]
      (some (namedRecord "foo." "10.0.0.2" Quality.Verified none)) "foo." "10.0.0.2"
      { Address := "10.0.0.2", Quality := Quality.Verifying, err := none } (by decide)).1⟩

/-- C15. After every finite sequence of `Update` calls on a new map, no
address list of the map contains two entries with the same address. -/
theorem addresses_nodup (news : List (Option NamedAddressValue)) :
    ∀ p ∈ (NewNamedAddressesMap.Track news).m,
      (p.2.map QualifiedAddressValue.Address).Nodup :=
  fun p hp => ((wellFormed_track news).2 p hp).2.2

/-- The list of `foo.` after two addresses and a repeated one. -/
theorem addresses_nodup_witness :
    (("foo.", [{ Address := "10.0.0.2", Quality := Quality.Verified, err := none },
               { Address := "10.0.0.3", Quality := Quality.Unverified, err := none }]) :
        String × List QualifiedAddressValue) ∈
        (NewNamedAddressesMap.Track
          [some (namedRecord "foo." "10.0.0.2" Quality.Unverified none),
           some (namedRecord "foo." "10.0.0.3" Quality.Unverified none),
           some (namedRecord "foo." "10.0.0.2" Quality.Verified none)]).m ∧
      ((("foo.", [{ Address := "10.0.0.2", Quality := Quality.Verified, err := none },
                  { Address := "10.0.0.3", Quality := Quality.Unverified, err := none }]) :
        String × List QualifiedAddressValue).2.map QualifiedAddressValue.Address).Nodup :=
  ⟨by decide,
   addresses_nodup
     [some (namedRecord "foo." "10.0.0.2" Quality.Unverified none),
      some (namedRecord "foo." "10.0.0.3" Quality.Unverified none),
      some (namedRecord "foo." "10.0.0.2" Quality.Verified none)]
     ("foo.", [{ Address := "10.0.0.2", Quality := Quality.Verified, err := none },
               { Address := "10.0.0.3", Quality := Quality.Unverified, err := none }])
     (by decide)⟩

/-- C16 as stated fails: the entry for (`foo.`, `10.0.0.2`) holds the terminal
quality `Invalid`; the later update carrying `Verified` is not dropped, the
stored quality becomes `Verified`. -/
theorem verified_replaces_invalid :
    ((NewNamedAddressesMap.Track
        [some (namedRecord "foo." "10.0.0.2" Quality.Unverified none),
         some (namedRecord "foo." "10.0.0.2" Quality.Invalid none)]).stored
          "foo." "10.0.0.2").map QualifiedAddressValue.Quality = some Quality.Invalid ∧
      (((NewNamedAddressesMap.Track
        [some (namedRecord "foo." "10.0.0.2" Quality.Unverified none),
         some (namedRecord "foo." "10.0.0.2" Quality.Invalid none)]).Update
          (some (namedRecord "foo." "10.0.0.2" Quality.Verified none))).stored
          "foo." "10.0.0.2").map QualifiedAddressValue.Quality = some Quality.Verified := by
  decide

/-- C16, as amended. In a map reached by `Update` calls from a new map, an
update carrying `Invalid` for a pair that holds `Verified` is dropped: the map
stays as it was. An update carrying `Verified` for a pair that holds `Invalid`
is not dropped: the stored quality becomes `Verified`, the rest of the entry
stays. -/
theorem terminal_verdicts (news : List (Option NamedAddressValue)) (na : NamedAddressValue)
    (e : QualifiedAddressValue)
    (h : (NewNamedAddressesMap.Track news).stored na.Name na.Addr = some e) :
    (e.Quality = Quality.Verified → na.Qual = Quality.Invalid →
        (NewNamedAddressesMap.Track news).Update (some na) = NewNamedAddressesMap.Track news) ∧
      (e.Quality = Quality.Invalid → na.Qual = Quality.Verified →
        ((NewNamedAddressesMap.Track news).Update (some na)).stored na.Name na.Addr
          = some { e with Quality := Quality.Verified }) := by
  obtain ⟨hf, ha, _, _⟩ := stored_nonempty _ (wellFormed_track news) _ _ e h
  constructor
  · intro he hq
    apply mapUpdate_unchanged _ na e h
    rw [he, hq]
    decide
  · intro he hq
    rw [stored_mapUpdate, if_pos ⟨rfl, rfl, hf, ha⟩, h]
    have : na.Qual > e.Quality := by
      rw [he, hq]
      decide
    simp only [if_pos this]
    rw [hq]

/-- The pair (`foo.`, `10.0.0.2`) holds `Verified`; `Invalid` arrives. -/
theorem terminal_verdicts_witness :
    (NewNamedAddressesMap.Track
        [some (namedRecord "foo." "10.0.0.2" Quality.Verified none)]).stored
          (namedRecord "foo." "10.0.0.2" Quality.Invalid (some "unreachable")).Name
          (namedRecord "foo." "10.0.0.2" Quality.Invalid (some "unreachable")).Addr
      = some { Address := "10.0.0.2", Quality := Quality.Verified, err := none } ∧
    (NewNamedAddressesMap.Track
        [some (namedRecord "foo." "10.0.0.2" Quality.Verified none)]).Update
          (some (namedRecord "foo." "10.0.0.2" Quality.Invalid (some "unreachable")))
      = NewNamedAddressesMap.Track
        [some (namedRecord "foo." "10.0.0.2" Quality.Verified none)] :=
  ⟨by decide,
   (terminal_verdicts [some (namedRecord "foo." "10.0.0.2" Quality.Verified none)]
      (namedRecord "foo." "10.0.0.2" Quality.Invalid (some "unreachable"))
      { Address := "10.0.0.2", Quality := Quality.Verified, err := none } (by decide)).1
      rfl rfl⟩

/-- C18. `Update` with a named address whose address is empty registers an
unknown, non-empty FQDN with an empty address list and leaves the other FQDNs
as they are; for a known FQDN it leaves the map as it is. `Update` with a nil
named address or with an empty FQDN leaves the map as it is. -/
theorem update_with_empty_address (m : NamedAddressesMap) (na : NamedAddressValue) :
    (na.Addr = "" → na.Name ≠ "" → m.m.get na.Name = none →
        (m.Update (some na)).m.get na.Name = some [] ∧
          ∀ k, k ≠ na.Name → (m.Update (some na)).m.get k = m.m.get k) ∧
      (na.Addr = "" → ∀ l, m.m.get na.Name = some l → m.Update (some na) = m) ∧
      m.Update none = m ∧
      (na.Name = "" → m.Update (some na) = m) := by
  refine ⟨?_, ?_, rfl, mapUpdate_of_empty_name m na⟩
  · intro ha hn hg
    refine ⟨?_, fun k hk => mapUpdate_get_other m na k hk⟩
    rw [mapUpdate_of_unknown m na hn hg, if_pos ha]
    exact GoMap.get_set_self _ _ _
  · intro ha l hg
    exact mapUpdate_of_known_empty m na l hg ha

/-- The placeholder of `bar.` arrives at a map that knows `foo.` only. -/
theorem update_with_empty_address_witness :
    (namedRecord "bar." "" Quality.Unverified none).Addr = "" ∧
      (namedRecord "bar." "" Quality.Unverified none).Name ≠ "" ∧
      (NewNamedAddressesMap.Track
        [some (namedRecord "foo." "10.0.0.2" Quality.Verified none)]).m.get
          (namedRecord "bar." "" Quality.Unverified none).Name = none ∧
      ((NewNamedAddressesMap.Track
        [some (namedRecord "foo." "10.0.0.2" Quality.Verified none)]).Update
          (some (namedRecord "bar." "" Quality.Unverified none))).m.get
          (namedRecord "bar." "" Quality.Unverified none).Name = some [] :=
  ⟨by decide, by decide, by decide,
   ((update_with_empty_address
      (NewNamedAddressesMap.Track [some (namedRecord "foo." "10.0.0.2" Quality.Verified none)])
      (namedRecord "bar." "" Quality.Unverified none)).1 (by decide) (by decide) (by decide)).1⟩

/-! ## The snapshot of the result map -/

theorem Quality.eq_of_le_of_le {a b : Quality} (h1 : a ≤ b) (h2 : b ≤ a) : a = b := by
  cases a <;> cases b <;> first | rfl | (exfalso; revert h1 h2; decide)

theorem mapUpdate_mem_keys (m : NamedAddressesMap) (na : NamedAddressValue) (f : String) :
    f ∈ GoMap.keys (m.Update (some na)).m ↔
      f ∈ GoMap.keys m.m ∨ (f = na.Name ∧ f ≠ "") := by
  by_cases h : na.Name = ""
  · rw [mapUpdate_of_empty_name m na h]
    constructor
    · exact Or.inl
    · rintro (hm | ⟨hf, hne⟩)
      · exact hm
      · exact absurd (hf.trans h) hne
  have hset : ∀ v, (f ∈ GoMap.keys (GoMap.set m.m na.Name v) ↔
      f ∈ GoMap.keys m.m ∨ (f = na.Name ∧ f ≠ "")) := by
    intro v
    rw [GoMap.mem_keys_set]
    constructor
    · rintro (hm | hf)
      · exact Or.inl hm
      · exact Or.inr ⟨hf, hf ▸ h⟩
    · rintro (hm | ⟨hf, _⟩)
      · exact Or.inl hm
      · exact Or.inr hf
  cases hg : m.m.get na.Name with
  | none =>
    rw [mapUpdate_of_unknown m na h hg]
    exact hset _
  | some l =>
    by_cases ha : na.Addr = ""
    · rw [mapUpdate_of_known_empty m na l hg ha]
      constructor
      · exact Or.inl
      · rintro (hm | ⟨hf, _⟩)
        · exact hm
        · by_contra hc
          rw [hf, ← GoMap.get_eq_none_iff, hg] at hc
          cases hc
    · cases hu : updateKnown na.Addr na.Qual l with
      | none =>
        rw [mapUpdate_of_not_found m na l h hg ha hu]
        exact hset _
      | some l' =>
        rw [mapUpdate_of_found m na l l' h hg ha hu]
        exact hset _

/-- The stored quality of a pair does not decrease in a call of `Update`. -/
theorem stored_mapUpdate_le (m : NamedAddressesMap) (na : NamedAddressValue) (f a : String)
    (e : QualifiedAddressValue) (h : m.stored f a = some e) :
    ∃ e', (m.Update (some na)).stored f a = some e' ∧ e.Quality ≤ e'.Quality := by
  rw [stored_mapUpdate]
  by_cases hc : na.Name = f ∧ na.Addr = a ∧ f ≠ "" ∧ a ≠ ""
  · rw [if_pos hc, h]
    by_cases hq : na.Qual > e.Quality
    · exact ⟨_, rfl, by simp only [if_pos hq]; exact Nat.le_of_lt hq⟩
    · exact ⟨_, rfl, by simp only [if_neg hq]; exact Nat.le_refl _⟩
  · rw [if_neg hc]
    exact ⟨e, h, Nat.le_refl _⟩

/-- After `Update` with a record whose FQDN and address are not empty, the
pair of the record is stored with a quality not below the record's. -/
theorem stored_mapUpdate_self (m : NamedAddressesMap) (na : NamedAddressValue)
    (hf : na.Name ≠ "") (ha : na.Addr ≠ "") :
    ∃ e', (m.Update (some na)).stored na.Name na.Addr = some e' ∧ na.Qual ≤ e'.Quality := by
  rw [stored_mapUpdate, if_pos ⟨rfl, rfl, hf, ha⟩]
  cases hs : m.stored na.Name na.Addr with
  | none => exact ⟨_, rfl, Nat.le_refl _⟩
  | some e =>
    by_cases hq : na.Qual > e.Quality
    · exact ⟨_, rfl, by simp only [if_pos hq]; exact Nat.le_refl _⟩
    · refine ⟨_, rfl, ?_⟩
      simp only [if_neg hq]
      exact Nat.le_of_not_lt hq

/-- A quality stored after `Update` was stored before or is the quality of
the record of the call. -/
theorem stored_mapUpdate_source (m : NamedAddressesMap) (na : NamedAddressValue) (f a : String)
    (e' : QualifiedAddressValue) (h : (m.Update (some na)).stored f a = some e') :
    (∃ e, m.stored f a = some e ∧ e.Quality = e'.Quality) ∨
      (na.Name = f ∧ na.Addr = a ∧ na.Qual = e'.Quality) := by
  rw [stored_mapUpdate] at h
  by_cases hc : na.Name = f ∧ na.Addr = a ∧ f ≠ "" ∧ a ≠ ""
  · rw [if_pos hc] at h
    cases hs : m.stored f a with
    | none =>
      rw [hs] at h
      cases h
      exact Or.inr ⟨hc.1, hc.2.1, rfl⟩
    | some e =>
      rw [hs] at h
      by_cases hq : na.Qual > e.Quality
      · simp only [if_pos hq, Option.some.injEq] at h
        subst h
        exact Or.inr ⟨hc.1, hc.2.1, rfl⟩
      · simp only [if_neg hq, Option.some.injEq] at h
        subst h
        exact Or.inl ⟨e, rfl, rfl⟩
  · rw [if_neg hc] at h
    exact Or.inl ⟨e', h, rfl⟩

/-- The map after a sequence of records: its keys are the non-empty FQDNs of
the records, every stored quality is the quality of a record of the pair, and
no record of a pair has a quality above the stored one. -/
theorem track_history (nas : List NamedAddressValue) :
    (∀ f, f ∈ GoMap.keys (NewNamedAddressesMap.Track (nas.map some)).m ↔
        f ≠ "" ∧ f ∈ nas.map NamedAddressValue.Name) ∧
      (∀ f a e, (NewNamedAddressesMap.Track (nas.map some)).stored f a = some e →
        ∃ x ∈ nas, x.Name = f ∧ x.Addr = a ∧ x.Qual = e.Quality) ∧
      (∀ x ∈ nas, x.Name ≠ "" → x.Addr ≠ "" →
        ∃ e, (NewNamedAddressesMap.Track (nas.map some)).stored x.Name x.Addr = some e ∧
          x.Qual ≤ e.Quality) := by
  induction nas using List.reverseRecOn with
  | nil =>
    refine ⟨?_, ?_, ?_⟩
    · intro f
      simp [NewNamedAddressesMap, NamedAddressesMap.Track, GoMap.keys]
    · intro f a e h
      simp [NewNamedAddressesMap, NamedAddressesMap.Track, NamedAddressesMap.stored,
        GoMap.get] at h
    · intro x hx
      simp at hx
  | append_singleton nas na ih =>
    obtain ⟨k, q1, q2⟩ := ih
    rw [List.map_append, List.map_cons, List.map_nil, track_snoc]
    refine ⟨?_, ?_, ?_⟩
    · intro f
      rw [mapUpdate_mem_keys, k f]
      simp only [List.map_append, List.map_cons, List.map_nil, List.mem_append,
        List.mem_singleton]
      tauto
    · intro f a e' h
      rcases stored_mapUpdate_source _ na f a e' h with ⟨e, he, heq⟩ | ⟨h1, h2, h3⟩
      · obtain ⟨x, hx, hx1, hx2, hx3⟩ := q1 f a e he
        exact ⟨x, List.mem_append_left _ hx, hx1, hx2, hx3.trans heq⟩
      · exact ⟨na, by simp, h1, h2, h3⟩
    · intro x hx hf ha
      rcases List.mem_append.1 hx with hx | hx
      · obtain ⟨e, he, hle⟩ := q2 x hx hf ha
        obtain ⟨e', he', hle'⟩ := stored_mapUpdate_le _ na _ _ e he
        exact ⟨e', he', Nat.le_trans hle hle'⟩
      · rw [List.mem_singleton] at hx
        subst hx
        exact stored_mapUpdate_self _ x hf ha

theorem filter_address_of_find (l : List QualifiedAddressValue) (a : String)
    (e : QualifiedAddressValue) (hn : (l.map QualifiedAddressValue.Address).Nodup)
    (h : l.find? (fun y => decide (y.Address = a)) = some e) :
    l.filter (fun y => decide (y.Address = a)) = [e] := by
  induction l with
  | nil => simp at h
  | cons x xs ih =>
    rw [List.map_cons, List.nodup_cons] at hn
    rw [find_address_cons] at h
    by_cases hx : x.Address = a
    · rw [if_pos hx] at h
      cases h
      have hnil : xs.filter (fun y => decide (y.Address = a)) = [] := by
        rw [List.filter_eq_nil_iff]
        intro y hy
        simp only [decide_eq_true_eq]
        intro hya
        exact hn.1 (List.mem_map.2 ⟨y, hy, hya.trans hx.symm⟩)
      rw [List.filter_cons_of_pos (by simpa using hx), hnil]
    · rw [if_neg hx] at h
      rw [List.filter_cons_of_neg (by simpa using hx)]
      exact ih hn.2 h

/-- C17 as stated fails: after an update whose FQDN is empty, `Get` returns
no set at all, so none for the FQDN of that update. -/
theorem empty_fqdn_has_no_set :
    (namedRecord "" "10.0.0.2" Quality.Unverified none).Name = "" ∧
      (NewNamedAddressesMap.Track
        [some (namedRecord "" "10.0.0.2" Quality.Unverified none)]).Get id = [] := by
  decide

/-- C17, as amended. For every finite sequence of named-address updates applied
to a new map in which the qualities of each (FQDN, address) pair do not
decrease in the order `Unverified < Verifying < Invalid < Verified`, and
whatever the order in which `Get` visits the map, `Get` returns exactly one set
for every non-empty FQDN of the sequence and no other set, and for every pair
of a non-empty FQDN and a non-empty address in the sequence the set of the
FQDN contains the address exactly once, with the quality of the pair's last
update. -/
theorem snapshot_round_trip
    (order : List (String × List QualifiedAddressValue) →
      List (String × List QualifiedAddressValue))
    (horder : ∀ l, List.Perm (order l) l) (nas : List NamedAddressValue)
    (hmono : nas.Pairwise (fun x y => x.Name = y.Name → x.Addr = y.Addr → x.Qual ≤ y.Qual)) :
    List.Perm
        (((NewNamedAddressesMap.Track (nas.map some)).Get order).map NamedAddressSet.FQDN)
        ((nas.map NamedAddressValue.Name).filter (fun f => decide (f ≠ ""))).dedup ∧
      ∀ pre na post, nas = pre ++ na :: post → na.Name ≠ "" → na.Addr ≠ "" →
        (∀ p ∈ post, ¬ (p.Name = na.Name ∧ p.Addr = na.Addr)) →
        ∃ s ∈ (NewNamedAddressesMap.Track (nas.map some)).Get order,
          s.FQDN = na.Name ∧
            (s.Addresses.filter (fun x => decide (x.Address = na.Addr))).map
              QualifiedAddressValue.Quality = [na.Qual] := by
  obtain ⟨k, q1, q2⟩ := track_history nas
  have hw := wellFormed_track (nas.map some)
  constructor
  · have hkeys : ((NewNamedAddressesMap.Track (nas.map some)).Get order).map NamedAddressSet.FQDN
        = (order (NewNamedAddressesMap.Track (nas.map some)).m).map Prod.fst := by
      simp [NamedAddressesMap.Get, Function.comp]
    rw [hkeys]
    refine ((horder _).map Prod.fst).trans ?_
    change List.Perm (GoMap.keys (NewNamedAddressesMap.Track (nas.map some)).m) _
    rw [List.perm_ext_iff_of_nodup hw.1 (List.nodup_dedup _)]
    intro f
    rw [k f, List.mem_dedup, List.mem_filter]
    simp only [decide_eq_true_eq]
    tauto
  · intro pre na post hnas hf ha hlast
    have hmem : na ∈ nas := by rw [hnas]; simp
    obtain ⟨e, he, hle⟩ := q2 na hmem hf ha
    obtain ⟨x, hx, hx1, hx2, hx3⟩ := q1 _ _ e he
    have hxle : x.Qual ≤ na.Qual := by
      rw [hnas] at hx hmono
      rcases List.mem_append.1 hx with hx | hx
      · exact (List.pairwise_append.1 hmono).2.2 x hx na (by simp) hx1 hx2
      · rcases List.mem_cons.1 hx with hx | hx
        · rw [hx]
          exact Nat.le_refl _
        · exact absurd ⟨hx1, hx2⟩ (hlast x hx)
    have heq : e.Quality = na.Qual :=
      Quality.eq_of_le_of_le (hx3 ▸ hxle) hle
    obtain ⟨_, _, _, l, hl, _⟩ := stored_nonempty _ hw _ _ e he
    have hfind : l.find? (fun y => decide (y.Address = na.Addr)) = some e := by
      simpa [NamedAddressesMap.stored, hl] using he
    have hpl := GoMap.mem_of_get _ _ _ hl
    refine ⟨{ FQDN := na.Name, Addresses := l }, ?_, rfl, ?_⟩
    · simp only [NamedAddressesMap.Get, List.mem_map]
      exact ⟨(na.Name, l), (horder _).mem_iff.2 hpl, rfl⟩
    · show (l.filter _).map _ = _
      rw [filter_address_of_find l na.Addr e (hw.2 _ hpl).2.2 hfind, List.map_cons,
        List.map_nil, heq]

/-- The three updates of one pair, in rising quality, visited in the order of
insertion. -/
theorem snapshot_round_trip_witness :
    (∀ l : List (String × List QualifiedAddressValue), List.Perm (id l) l) ∧
      List.Pairwise (fun x y : NamedAddressValue =>
          x.Name = y.Name → x.Addr = y.Addr → x.Qual ≤ y.Qual)
        [namedRecord "foo." "" Quality.Unverified none,
         namedRecord "foo." "10.0.0.2" Quality.Unverified none,
         namedRecord "foo." "10.0.0.2" Quality.Verifying none,
         namedRecord "foo." "10.0.0.2" Quality.Verified none] ∧
      List.Perm
        (((NewNamedAddressesMap.Track
          ([namedRecord "foo." "" Quality.Unverified none,
            namedRecord "foo." "10.0.0.2" Quality.Unverified none,
            namedRecord "foo." "10.0.0.2" Quality.Verifying none,
            namedRecord "foo." "10.0.0.2" Quality.Verified none].map some)).Get id).map
          NamedAddressSet.FQDN)
        ((([namedRecord "foo." "" Quality.Unverified none,
            namedRecord "foo." "10.0.0.2" Quality.Unverified none,
            namedRecord "foo." "10.0.0.2" Quality.Verifying none,
            namedRecord "foo." "10.0.0.2" Quality.Verified none].map
              NamedAddressValue.Name).filter (fun f => decide (f ≠ ""))).dedup) :=
  ⟨fun l => List.Perm.refl l, by decide,
   (snapshot_round_trip id (fun l => List.Perm.refl l)
      [namedRecord "foo." "" Quality.Unverified none,
       namedRecord "foo." "10.0.0.2" Quality.Unverified none,
       namedRecord "foo." "10.0.0.2" Quality.Verifying none,
       namedRecord "foo." "10.0.0.2" Quality.Verified none] (by decide)).1⟩

/-! ## The verdict of a probe -/

/-- C21 fails on the code: with 3 echoes and a threshold of 50 percent, one
reply is 33 percent of the echoes, which does not reach the threshold
(`100 * 1 < 50 * 3`), yet the final verdict is `Verified`: the code compares
the replies with `3 * 50 / 100`, which integer division makes 1. -/
theorem one_reply_of_three_is_verified :
    (100 * 1 < 50 * 3) ∧
      ({ count := 3, thresholdPercentage := 50, netns := none } : Pinger).task
        (QualifiedAddress.named (namedRecord "foo." "10.0.0.2" Quality.Verifying none))
        none (PingOutcome.statistics 1)
      = QualifiedAddress.named (namedRecord "foo." "10.0.0.2" Quality.Verified none) := by
  decide

theorem task_qual_terminal (p : Pinger) (verdict : QualifiedAddress) (execute : Option String)
    (outcome : PingOutcome) :
    (p.task verdict execute outcome).Qual.IsTerminal ∧
      (p.task verdict execute outcome).Addr = verdict.Addr ∧
      ∀ na, verdict = QualifiedAddress.named na →
        ∃ n, p.task verdict execute outcome = QualifiedAddress.named n ∧ n.Name = na.Name := by
  have key : ∀ o, (p.ping (verdict.WithNewQuality Quality.Invalid none) o).2.Qual.IsTerminal ∧
      (p.ping (verdict.WithNewQuality Quality.Invalid none) o).2.Addr = verdict.Addr ∧
      (∀ na, verdict = QualifiedAddress.named na →
        ∃ n, (p.ping (verdict.WithNewQuality Quality.Invalid none) o).2
          = QualifiedAddress.named n ∧ n.Name = na.Name) := by
    intro o
    cases verdict with
    | qualified v =>
      cases o <;> simp only [Pinger.ping] <;> try split_ifs
      all_goals exact ⟨by first | exact Or.inl rfl | exact Or.inr rfl, rfl, fun na h => by cases h⟩
    | named v =>
      cases o <;> simp only [Pinger.ping] <;> try split_ifs
      all_goals exact ⟨by first | exact Or.inl rfl | exact Or.inr rfl, rfl,
        fun na h => by cases h; exact ⟨_, rfl, rfl⟩⟩
  have wrap : ∀ x : QualifiedAddress, x.Qual.IsTerminal ∧ x.Addr = verdict.Addr ∧
      (∀ na, verdict = QualifiedAddress.named na →
        ∃ n, x = QualifiedAddress.named n ∧ n.Name = na.Name) →
      ∀ err : String,
        (x.WithNewQuality x.QA.Quality (some err)).Qual.IsTerminal ∧
        (x.WithNewQuality x.QA.Quality (some err)).Addr = verdict.Addr ∧
        (∀ na, verdict = QualifiedAddress.named na →
          ∃ n, x.WithNewQuality x.QA.Quality (some err) = QualifiedAddress.named n ∧
            n.Name = na.Name) := by
    intro x hx err
    cases x with
    | qualified v => exact ⟨hx.1, hx.2.1, fun na h => by
        obtain ⟨n, hn, _⟩ := hx.2.2 na h
        cases hn⟩
    | named v => exact ⟨hx.1, hx.2.1, fun na h => by
        obtain ⟨n, hn, hname⟩ := hx.2.2 na h
        cases hn
        exact ⟨_, rfl, hname⟩⟩
  have base : (verdict.WithNewQuality Quality.Invalid none).Qual.IsTerminal ∧
      (verdict.WithNewQuality Quality.Invalid none).Addr = verdict.Addr ∧
      (∀ na, verdict = QualifiedAddress.named na →
        ∃ n, verdict.WithNewQuality Quality.Invalid none = QualifiedAddress.named n ∧
          n.Name = na.Name) := by
    cases verdict with
    | qualified v => exact ⟨Or.inr rfl, rfl, fun na h => by cases h⟩
    | named v => exact ⟨Or.inr rfl, rfl, fun na h => by cases h; exact ⟨_, rfl, rfl⟩⟩
  unfold Pinger.task
  simp only
  by_cases hn : p.netns.isSome = true
  · cases execute with
    | some err =>
      simp only [hn, if_true]
      exact wrap _ base err
    | none =>
      simp only [hn, if_true]
      cases he : (p.ping (verdict.WithNewQuality Quality.Invalid none) outcome).1 with
      | none => exact key outcome
      | some err => exact wrap _ (key outcome) err
  · simp only [hn, if_false, Bool.false_eq_true]
    cases he : (p.ping (verdict.WithNewQuality Quality.Invalid none) outcome).1 with
    | none => exact key outcome
    | some err => exact wrap _ (key outcome) err

/-- C22. For every probe with a context that is not cancelled, whatever the
outcome of the echoes, `validate` sends exactly two verdicts on its channel:
first the one it was given, which `ValidateQA` and `Validate` make
`Verifying`, then, after the task was handed to the worker pool and after the
echoes if there were any, one with a terminal quality. Both carry the address
submitted and, for a named address, its FQDN. -/
theorem probe_sends_two_verdicts (p : Pinger) (addr : QualifiedAddress)
    (execute : Option String) (outcome : PingOutcome) :
    ∃ v1 v2, (p.ValidateQA none addr execute outcome).2 = [v1, v2] ∧
      p.validateEvents none (addr.WithNewQuality Quality.Verifying none) execute outcome
        = [ProbeEvent.verdict v1, ProbeEvent.submit]
            ++ (if p.reachesRun execute outcome then [ProbeEvent.run] else [])
            ++ [ProbeEvent.verdict v2] ∧
      v1.Qual = Quality.Verifying ∧ v2.Qual.IsTerminal ∧
      v1.Addr = addr.Addr ∧ v2.Addr = addr.Addr ∧
      (∀ na, addr = QualifiedAddress.named na →
        ∃ n1 n2, v1 = QualifiedAddress.named n1 ∧ v2 = QualifiedAddress.named n2 ∧
          n1.Name = na.Name ∧ n2.Name = na.Name) ∧
      ∀ a : String, (p.Validate none a execute outcome).2
        = [QualifiedAddress.qualified
            { Address := a, Quality := Quality.Verifying, err := none },
           p.task (QualifiedAddress.qualified
            { Address := a, Quality := Quality.Verifying, err := none }) execute outcome] := by
  obtain ⟨t1, t2, t3⟩ := task_qual_terminal p (addr.WithNewQuality Quality.Verifying none)
    execute outcome
  refine ⟨addr.WithNewQuality Quality.Verifying none,
    p.task (addr.WithNewQuality Quality.Verifying none) execute outcome, rfl, ?_, ?_, t1, ?_, ?_,
    ?_, fun a => rfl⟩
  · simp [Pinger.validateEvents, trySend]
  · cases addr <;> rfl
  · cases addr <;> rfl
  · rw [t2]
    cases addr <;> rfl
  · intro na h
    subst h
    obtain ⟨n, hn, hname⟩ := t3 _ rfl
    exact ⟨_, n, rfl, hn, rfl, hname⟩

/-! ## The resolve task -/

theorem answerLoop_eq (rrs : List RR) (st : List String × Bool) :
    answerLoop rrs st = (st.1 ++ addressesOf rrs, st.2 && (addressesOf rrs).isEmpty) := by
  induction rrs generalizing st with
  | nil => simp [answerLoop, addressesOf]
  | cons r rrs ih =>
    cases r <;> simp [answerLoop, addressesOf, ih]

theorem queryLoop_events (Fqdn : String → String) (name : String)
    (qs : List (QueryType × QueryOutcome)) (st : ResolveState)
    (h : ∀ e ∈ st.events, ∃ t n, e = ResolveEvent.query t n) :
    ∀ e ∈ (queryLoop Fqdn name qs st).1.events, ∃ t n, e = ResolveEvent.query t n := by
  induction qs generalizing st with
  | nil => exact h
  | cons q qs ih =>
    obtain ⟨t, o⟩ := q
    unfold queryLoop
    cases hc : o.ctxErr with
    | some err => exact h
    | none =>
      have h' : ∀ e ∈ st.events ++ [ResolveEvent.query t (Fqdn name)],
          ∃ t n, e = ResolveEvent.query t n := by
        intro e he
        rcases List.mem_append.1 he with he | he
        · exact h e he
        · exact ⟨t, Fqdn name, List.mem_singleton.1 he⟩
      cases hx : o.exchange with
      | failed err => exact h'
      | answer rrs => exact ih _ h'

/-- C24. For every name and every outcome of the two queries, the resolve task
calls the callback exactly once, and as its last step: its events are queries
followed by one call of the callback. -/
theorem callback_called_once (Fqdn : String → String) (quote : String → String)
    (name : String) (a aaaa : QueryOutcome) :
    ∃ queries addrs err,
      DnsPool.ResolveName Fqdn quote name a aaaa
        = queries ++ [ResolveEvent.callback addrs err] ∧
      ∀ e ∈ queries, ∃ t n, e = ResolveEvent.query t n := by
  unfold DnsPool.ResolveName
  refine ⟨_, _, _, rfl, ?_⟩
  have h := queryLoop_events Fqdn name [(QueryType.TypeA, a), (QueryType.TypeAAAA, aaaa)]
    { addrs := [], err := none, nadanothing := true, events := [] } (by simp)
  split_ifs
  · exact h
  · exact h

/-- C25. If the context is not done and both exchanges succeed, the task asks
for the `A` and then the `AAAA` records and calls the callback with the
addresses of the address records of both answers, in order. If neither answer
holds an address record, that list is empty and the error names the queried
name; if one does, the list is not empty and the error is nil. -/
theorem callback_of_answers (Fqdn : String → String) (quote : String → String)
    (name : String) (a aaaa : QueryOutcome) (ra rb : List RR)
    (ha : a.ctxErr = none) (hb : aaaa.ctxErr = none)
    (hra : a.exchange = Exchange.answer ra) (hrb : aaaa.exchange = Exchange.answer rb) :
    ((∀ r ∈ ra ++ rb, r = RR.other) →
        DnsPool.ResolveName Fqdn quote name a aaaa
          = [ResolveEvent.query QueryType.TypeA (Fqdn name),
             ResolveEvent.query QueryType.TypeAAAA (Fqdn name),
             ResolveEvent.callback []
               (some ("ResolveName: query for " ++ quote name ++ " yields no answers"))]) ∧
      ((∃ r ∈ ra ++ rb, r ≠ RR.other) →
        addressesOf (ra ++ rb) ≠ [] ∧
        DnsPool.ResolveName Fqdn quote name a aaaa
          = [ResolveEvent.query QueryType.TypeA (Fqdn name),
             ResolveEvent.query QueryType.TypeAAAA (Fqdn name),
             ResolveEvent.callback (addressesOf (ra ++ rb)) none]) := by
  have happ : ∀ x y : List RR, addressesOf (x ++ y) = addressesOf x ++ addressesOf y := by
    intro x y
    induction x with
    | nil => rfl
    | cons r x ih => cases r <;> simp [addressesOf, ih]
  have hnil : ∀ x : List RR, addressesOf x = [] ↔ ∀ r ∈ x, r = RR.other := by
    intro x
    induction x with
    | nil => simp [addressesOf]
    | cons r x ih => cases r <;> simp [addressesOf, ih]
  have hrun : DnsPool.ResolveName Fqdn quote name a aaaa
      = [ResolveEvent.query QueryType.TypeA (Fqdn name),
         ResolveEvent.query QueryType.TypeAAAA (Fqdn name),
         ResolveEvent.callback (addressesOf (ra ++ rb))
           (if (addressesOf (ra ++ rb)).isEmpty then
              some ("ResolveName: query for " ++ quote name ++ " yields no answers")
            else none)] := by
    simp only [DnsPool.ResolveName, queryLoop, ha, hb, hra, hrb, answerLoop_eq, happ]
    cases h1 : addressesOf ra <;> cases h2 : addressesOf rb <;> simp
  constructor
  · intro h
    rw [hrun, (hnil _).2 h]
    rfl
  · rintro ⟨r, hr, hne⟩
    have hne' : addressesOf (ra ++ rb) ≠ [] := by
      intro hc
      exact hne ((hnil _).1 hc r hr)
    refine ⟨hne', ?_⟩
    rw [hrun]
    cases hl : addressesOf (ra ++ rb) with
    | nil => exact absurd hl hne'
    | cons x xs => rfl

/-- A name with an `A` and an `AAAA` record. -/
theorem callback_of_answers_witness :
    ({ ctxErr := none, exchange := Exchange.answer [RR.A "10.0.0.2"] } : QueryOutcome).ctxErr
        = none ∧
      ({ ctxErr := none, exchange := Exchange.answer [RR.AAAA "fd00::2"] } : QueryOutcome).ctxErr
        = none ∧
      ({ ctxErr := none, exchange := Exchange.answer [RR.A "10.0.0.2"] } : QueryOutcome).exchange
        = Exchange.answer [RR.A "10.0.0.2"] ∧
      ({ ctxErr := none, exchange := Exchange.answer [RR.AAAA "fd00::2"] } :
        QueryOutcome).exchange = Exchange.answer [RR.AAAA "fd00::2"] ∧
      (∃ r ∈ [RR.A "10.0.0.2"] ++ [RR.AAAA "fd00::2"], r ≠ RR.other) ∧
      addressesOf ([RR.A "10.0.0.2"] ++ [RR.AAAA "fd00::2"]) ≠ [] :=
  ⟨rfl, rfl, rfl, rfl, ⟨RR.A "10.0.0.2", by simp, by simp⟩,
   ((callback_of_answers (fun s => s ++ ".") (fun s => s) "foo.net_A"
      { ctxErr := none, exchange := Exchange.answer [RR.A "10.0.0.2"] }
      { ctxErr := none, exchange := Exchange.answer [RR.AAAA "fd00::2"] }
      [RR.A "10.0.0.2"] [RR.AAAA "fd00::2"] rfl rfl rfl rfl).2
        ⟨RR.A "10.0.0.2", by simp, by simp⟩).1⟩

/-! ## The command's argument check -/

/-- C27. The argument check returns an error exactly if `--indent` is above 80,
or `--workers` is below 1 or above 10, or `--spinner` is below 10 milliseconds;
the default values 3, 5 and 100 milliseconds pass. -/
theorem preRun_error_iff (indentation workerNumber : Nat) (spinnerInterval : Int) :
    ((PersistentPreRunE indentation workerNumber spinnerInterval).isSome = true ↔
        indentation > 80 ∨ workerNumber < 1 ∨ workerNumber > 10 ∨
          spinnerInterval < 10 * Millisecond) ∧
      PersistentPreRunE 3 5 (100 * Millisecond) = none := by
  refine ⟨?_, by decide⟩
  unfold PersistentPreRunE
  split_ifs with h1 h2 h3
  · simp [h1]
  · simp only [Option.isSome_some, true_iff]
    tauto
  · simp only [Option.isSome_some, true_iff]
    tauto
  · simp only [Option.isSome_none, Bool.false_eq_true, false_iff]
    tauto

/-! ## The display at concrete inputs -/

/-- C28 fails on the code: `net.ParseIP` gives the 16 bytes
`0 ... 0 255 255 10 0 0 1` for the IPv4 literal `10.0.0.1` and the 16 bytes
`0 ... 0 1` for the IPv6 literal `::1`; byte-wise the second is less, and
`sortQualifiedAddresses` puts the IPv6 address before the IPv4 address. -/
theorem ipv6_loopback_sorts_first :
    sortQualifiedAddresses
        (fun s =>
          if s = "10.0.0.1" then [0, 0, 0, 0, 0, 0, 0, 0, 0, 0, 255, 255, 10, 0, 0, 1]
          else if s = "::1" then [0, 0, 0, 0, 0, 0, 0, 0, 0, 0, 0, 0, 0, 0, 0, 1]
          else [])
        [{ Address := "10.0.0.1", Quality := Quality.Verified, err := none },
         { Address := "::1", Quality := Quality.Verified, err := none }]
      = [{ Address := "::1", Quality := Quality.Verified, err := none },
         { Address := "10.0.0.1", Quality := Quality.Verified, err := none }] := by
  decide

/-- C29 fails on the code: for the one set of the name `foo.net_A.`, which has
the network label `net_A`, `groupNames` returns one group, so the zeroth group
holds a suffixed name, and `Render`, which skips the zeroth group as the
unnamed one, lists no network. -/
theorem zeroth_group_is_a_network :
    groupNames (fun _ => []) [{ FQDN := "foo.net_A.", Addresses := [] }]
        = [[{ FQDN := "foo.net_A.", Addresses := [] }]] ∧
      groupName "foo.net_A." = "net_A" ∧
      renderedNetworks
        (groupNames (fun _ => []) [{ FQDN := "foo.net_A.", Addresses := [] }]) = [] := by
  decide

/-! ## The consumer lists of the address cache -/

theorem notify_names_sublist (templ : NamedAddressValue) (ctx : Context) (l : List String) :
    List.Sublist ((notify templ ctx l).2.map NamedAddressValue.Name) l := by
  induction l generalizing ctx with
  | nil => simp [notify]
  | cons x l ih =>
    cases ctx with
    | none =>
      simp only [notify, trySend, List.singleton_append, List.map_cons]
      exact (ih none).cons₂ x
    | some n =>
      cases n with
      | zero => simp [notify, trySend]
      | succ n =>
        simp only [notify, trySend, List.singleton_append, List.map_cons]
        exact (ih (some n)).cons₂ x

theorem trySend_length {α : Type} (ctx : Context) (x : α) : (trySend ctx x).2.1.length ≤ 1 := by
  cases ctx with
  | none => simp [trySend]
  | some n => cases n <;> simp [trySend]

theorem nodup_of_length_le_one {α : Type} (l : List α) (h : l.length ≤ 1) : l.Nodup := by
  match l, h with
  | [], _ => simp
  | [_], _ => simp

theorem Update_consumers_nodup (c : NamedAddressCache) (ctx : Context) (na : NamedAddressValue)
    (h : ∀ a e, c.m.get a = some e → e.consumers.Nodup) :
    ∀ a e, (c.Update ctx na).cache.m.get a = some e → e.consumers.Nodup := by
  intro a e he
  by_cases ha : a = na.Addr
  swap
  · rw [Update_get_other c ctx na a ha] at he
    exact h a e he
  subst ha
  cases hg : c.m.get na.Addr with
  | none =>
    rw [Update_of_absent c ctx na hg, GoMap.get_set_self] at he
    cases he
    simp
  | some qc =>
    have hqc := h _ _ hg
    by_cases hq : na.Qual ≤ qc.q
    · by_cases hn : na.Name ∈ qc.consumers
      · rw [Update_of_stale_known c ctx na qc hg hq hn] at he
        exact h _ _ he
      · rw [Update_of_stale_unknown c ctx na qc hg hq hn, GoMap.get_set_self] at he
        cases he
        rw [List.nodup_append]
        exact ⟨hqc, by simp, fun x hx hx' => hn (List.mem_singleton.1 hx' ▸ hx)⟩
    · rcases Quality.pending_or_terminal na.Qual with hp | hp
      · rw [Update_of_pending c ctx na qc hg hq hp, GoMap.get_set_self] at he
        cases he
        by_cases hn : na.Name ∈ qc.consumers
        · simpa [hn] using hqc
        · simp only [if_neg hn]
          rw [List.nodup_append]
          exact ⟨hqc, by simp, fun x hx hx' => hn (List.mem_singleton.1 hx' ▸ hx)⟩
      · rw [Update_of_terminal c ctx na qc hg hq hp, GoMap.get_set_self] at he
        cases he
        simp

theorem Update_news_names_nodup (c : NamedAddressCache) (ctx : Context)
    (na : NamedAddressValue) (h : ∀ a e, c.m.get a = some e → e.consumers.Nodup) :
    ((c.Update ctx na).news.map NamedAddressValue.Name).Nodup := by
  cases hg : c.m.get na.Addr with
  | none =>
    rw [Update_of_absent c ctx na hg]
    exact nodup_of_length_le_one _ (by simpa using trySend_length ctx na)
  | some qc =>
    have hqc := h _ _ hg
    by_cases hq : na.Qual ≤ qc.q
    · by_cases hn : na.Name ∈ qc.consumers
      · rw [Update_of_stale_known c ctx na qc hg hq hn]
        simp
      · rw [Update_of_stale_unknown c ctx na qc hg hq hn]
        exact nodup_of_length_le_one _ (by simpa using trySend_length ctx _)
    · rcases Quality.pending_or_terminal na.Qual with hp | hp
      · rw [Update_of_pending c ctx na qc hg hq hp]
        refine List.Nodup.sublist (notify_names_sublist _ _ _) ?_
        by_cases hn : na.Name ∈ qc.consumers
        · simpa [hn] using hqc
        · simp only [if_neg hn]
          rw [List.nodup_append]
          exact ⟨hqc, by simp, fun x hx hx' => hn (List.mem_singleton.1 hx' ▸ hx)⟩
      · rw [Update_of_terminal c ctx na qc hg hq hp]
        exact List.Nodup.sublist (notify_names_sublist _ _ _) hqc

theorem runUpdates_consumers_nodup (c : NamedAddressCache) (ctx : Context)
    (nas : List NamedAddressValue) (h : ∀ a e, c.m.get a = some e → e.consumers.Nodup) :
    ∀ a e, (runUpdates c ctx nas).cache.m.get a = some e → e.consumers.Nodup := by
  induction nas generalizing c ctx with
  | nil => exact h
  | cons na nas ih =>
    rw [runUpdates_cons]
    exact ih _ _ (Update_consumers_nodup c ctx na h)

/-- C30. After every finite sequence of `Update` calls on a fresh cache, with
any context, no consumer list of the cache contains an FQDN twice; hence the
records any further call of `Update` sends all carry the address of the call
and pairwise different FQDNs. -/
theorem consumers_nodup (ctx : Context) (nas : List NamedAddressValue) :
    (∀ a e, (runUpdates NewNamedAddressCache ctx nas).cache.m.get a = some e →
        e.consumers.Nodup) ∧
      ∀ (ctx1 : Context) (na : NamedAddressValue),
        (((runUpdates NewNamedAddressCache ctx nas).cache.Update ctx1 na).news.map
            NamedAddressValue.Name).Nodup ∧
          ∀ x ∈ ((runUpdates NewNamedAddressCache ctx nas).cache.Update ctx1 na).news,
            x.Addr = na.Addr := by
  have hinv := runUpdates_consumers_nodup NewNamedAddressCache ctx nas
    (by intro a e h; simp [NewNamedAddressCache, GoMap.get] at h)
  refine ⟨hinv, fun ctx1 na => ⟨Update_news_names_nodup _ ctx1 na hinv, ?_⟩⟩
  intro x hx
  obtain ⟨e, _, _, hnews⟩ := Update_self (runUpdates NewNamedAddressCache ctx nas).cache ctx1 na
  exact (hnews x hx).1

/-! ## The order of the digger's records -/

theorem snoc_eq_append_cons {α : Type} (evs pre post : List α) (e x : α)
    (h : evs ++ [e] = pre ++ x :: post) :
    (pre = evs ∧ x = e ∧ post = []) ∨ ∃ post1, post = post1 ++ [e] ∧ evs = pre ++ x :: post1 := by
  rcases List.eq_nil_or_concat post with hp | ⟨post1, y, hp⟩
  · subst hp
    have := List.append_inj' h rfl
    exact Or.inl ⟨this.1.symm, by simpa using this.2.symm, rfl⟩
  · subst hp
    have h' : evs ++ [e] = (pre ++ x :: post1) ++ [y] := by simpa using h
    have := List.append_inj' h' rfl
    refine Or.inr ⟨post1, ?_, this.1⟩
    have hy : e = y := by simpa using this.2
    rw [hy]
    simp

theorem digOrdered_snoc (resolved : Nat → List String) (evs : List DigEvent) (e : DigEvent)
    (h : DigOrdered resolved evs)
    (h1 : ∀ name, e = DigEvent.resolve name →
      DigEvent.placeholder (placeholderOf name) ∈ evs)
    (h2 : ∀ na, e = DigEvent.result na →
      na.Quality = Quality.Unverified ∧ na.err = none ∧
        ∃ k, (resolvedNames evs)[k]? = some na.FQDN ∧ na.Address ∈ resolved k) :
    DigOrdered resolved (evs ++ [e]) := by
  intro pre x post hx
  rcases snoc_eq_append_cons evs pre post e x hx with ⟨hp, hxe, _⟩ | ⟨post1, _, hevs⟩
  · subst hp hxe
    exact ⟨h1, h2⟩
  · exact h pre x post1 hevs

theorem trySend_true {α : Type} (ctx ctx1 : Context) (x : α) (sent : List α)
    (h : trySend ctx x = (ctx1, sent, true)) : sent = [x] := by
  cases ctx with
  | none =>
    simp only [trySend, Prod.mk.injEq] at h
    exact h.2.1.symm
  | some n =>
    cases n with
    | zero => simp [trySend] at h
    | succ n =>
      simp only [trySend, Prod.mk.injEq] at h
      exact h.2.1.symm

theorem resolvedNames_append (a b : List DigEvent) :
    resolvedNames (a ++ b) = resolvedNames a ++ resolvedNames b := by
  simp [resolvedNames, List.filterMap_append]

theorem mem_resolvedNames (evs : List DigEvent) (name : String)
    (h : name ∈ resolvedNames evs) : DigEvent.resolve name ∈ evs := by
  simp only [resolvedNames, List.mem_filterMap] at h
  obtain ⟨e, he, hn⟩ := h
  cases e with
  | placeholder na => simp at hn
  | resolve n =>
    simp only [Option.some.injEq] at hn
    subst hn
    exact he
  | result na => simp at hn

theorem map_fst_set {α β : Type} (l : List (α × β)) (k : Nat) (a : α) (b b1 : β)
    (h : l[k]? = some (a, b)) : (l.set k (a, b1)).map Prod.fst = l.map Prod.fst := by
  induction l generalizing k with
  | nil => simp
  | cons x l ih =>
    cases k with
    | zero =>
      simp only [List.getElem?_cons_zero, Option.some.injEq] at h
      subst h
      simp
    | succ k =>
      simp only [List.getElem?_cons_succ] at h
      simp [ih k h]

theorem digStep_inv (Fqdn : String → String) (resolved : Nat → List String) (st : DigState)
    (a : DigAction) (h : DigInv resolved st) : DigInv resolved (digStep Fqdn resolved st a) := by
  obtain ⟨ho, hh, hm, hc⟩ := h
  cases a with
  | loop =>
    simp only [digStep]
    split_ifs with hr
    · exact ⟨ho, hh, hm, hc⟩
    · split
      · rename_i name hname
        refine ⟨digOrdered_snoc resolved _ _ ho ?_ ?_, by simp, ?_, ?_⟩
        · intro n hn
          cases hn
          exact hh name hname
        · intro na hna
          cases hna
        · simp only [List.map_append, resolvedNames_append, hm]
          simp [resolvedNames]
        · intro k n rest hk
          simp only at hk
          by_cases hlt : k < st.callbacks.length
          · rw [List.getElem?_append_left hlt] at hk
            exact hc k n rest hk
          · have hle : st.callbacks.length ≤ k := Nat.le_of_not_lt hlt
            rw [List.getElem?_append_right hle] at hk
            have hk0 : k - st.callbacks.length = 0 := by
              by_contra hne
              have : 1 ≤ k - st.callbacks.length := Nat.one_le_iff_ne_zero.2 hne
              rw [List.getElem?_eq_none (by simpa using this)] at hk
              cases hk
            rw [hk0] at hk
            simp only [List.getElem?_cons_zero, Option.some.injEq, Prod.mk.injEq] at hk
            obtain ⟨rfl, rfl⟩ := hk
            have hkeq : k = st.callbacks.length := by omega
            subst hkeq
            exact fun a ha => ha
      · split
        · exact ⟨ho, by simpa using hh, hm, hc⟩
        · rename_i hnone name rest hnames
          split
          · rename_i ctx1 sent hsend
            have hsent := trySend_true _ _ _ _ hsend
            subst hsent
            refine ⟨digOrdered_snoc resolved _ _ ho ?_ ?_, ?_, ?_, hc⟩
            · intro n hn
              cases hn
            · intro na hna
              cases hna
            · intro n hn
              simp only [Option.some.injEq] at hn
              subst hn
              simp
            · simp only [resolvedNames_append, hm]
              simp [resolvedNames]
          · exact ⟨ho, by simpa using hh, hm, hc⟩
  | callback k =>
    simp only [digStep]
    split
    · exact ⟨ho, hh, hm, hc⟩
    · exact ⟨ho, hh, hm, hc⟩
    · rename_i name addr rest hk
      have i2 := hc k name (addr :: rest) hk
      have hset : ∀ (v : List String), (∀ a ∈ v, a ∈ resolved k) →
          ∀ k1 n r, (st.callbacks.set k (name, v))[k1]? = some (n, r) →
            ∀ a ∈ r, a ∈ resolved k1 := by
        intro v hv k1 n r hk1
        rw [List.getElem?_set] at hk1
        by_cases hkk : k = k1
        · subst hkk
          rw [if_pos rfl] at hk1
          split_ifs at hk1
          simp only [Option.some.injEq, Prod.mk.injEq] at hk1
          obtain ⟨rfl, rfl⟩ := hk1
          exact hv
        · rw [if_neg hkk] at hk1
          exact hc k1 n r hk1
      split
      · rename_i ctx1 sent hsend
        have hsent := trySend_true _ _ _ _ hsend
        subst hsent
        refine ⟨digOrdered_snoc resolved _ _ ho ?_ ?_, ?_, ?_, ?_⟩
        · intro n hn
          cases hn
        · intro na hna
          cases hna
          refine ⟨rfl, rfl, k, ?_, i2 addr (by simp)⟩
          rw [← hm, List.getElem?_map, hk]
          rfl
        · intro n hn
          exact List.mem_append_left _ (hh n hn)
        · simp only [resolvedNames_append, map_fst_set _ _ _ _ _ hk, hm]
          simp [resolvedNames]
        · exact hset rest (fun a ha => i2 a (List.mem_cons_of_mem _ ha))
      · exact ⟨ho, hh, by rw [map_fst_set _ _ _ _ _ hk, hm], hset [] (by simp)⟩

theorem digRun_inv (Fqdn : String → String) (resolved : Nat → List String)
    (schedule : List DigAction) (st : DigState) (h : DigInv resolved st) :
    DigInv resolved (schedule.foldl (digStep Fqdn resolved) st) := by
  induction schedule generalizing st with
  | nil => exact h
  | cons a schedule ih => exact ih _ (digStep_inv Fqdn resolved st a h)

/-- C23. In every run of `DigFQDNs`, with any context and under any schedule
of the loop and the callbacks: a name is handed to `ResolveName` only after its
placeholder (the fully-qualified name, the empty address, `Unverified`) was
sent; every result record comes after the placeholder of its name and after
the name was handed over, carries the name of that call and an address
resolved for that call, and has the quality `Unverified`. With a context that
is not cancelled the loop sends the placeholder of every name passed and hands
every name over. -/
theorem placeholder_precedes_results (Fqdn : String → String)
    (resolved : Nat → List String) (ctx : Context) (names : List String)
    (schedule : List DigAction) :
    (∀ pre e post,
        (Digger.run Fqdn resolved ctx names schedule).events = pre ++ e :: post →
        (∀ name, e = DigEvent.resolve name →
          DigEvent.placeholder (placeholderOf name) ∈ pre) ∧
        (∀ na, e = DigEvent.result na →
          DigEvent.placeholder (placeholderOf na.FQDN) ∈ pre ∧
            DigEvent.resolve na.FQDN ∈ pre ∧ na.Quality = Quality.Unverified ∧
            ∃ k, (resolvedNames pre)[k]? = some na.FQDN ∧ na.Address ∈ resolved k)) ∧
      (Digger.DigFQDNs Fqdn none names).news
        = names.map (fun name => placeholderOf (Fqdn name)) ∧
      (Digger.DigFQDNs Fqdn none names).resolving = names.map Fqdn := by
  have hinv : DigInv resolved (Digger.run Fqdn resolved ctx names schedule) :=
    digRun_inv Fqdn resolved schedule _
      ⟨by intro pre e post h; simp at h, by simp, by simp [resolvedNames], by simp⟩
  refine ⟨?_, by rw [DigFQDNs_none]; rfl, by rw [DigFQDNs_none]⟩
  intro pre e post he
  obtain ⟨h1, h2⟩ := hinv.1 pre e post he
  refine ⟨h1, ?_⟩
  intro na hna
  obtain ⟨i2, _, k, i4, i5⟩ := h2 na hna
  have i1 : DigEvent.resolve na.FQDN ∈ pre :=
    mem_resolvedNames pre na.FQDN (List.getElem?_mem i4)
  refine ⟨?_, i1, i2, k, i4, i5⟩
  obtain ⟨pre1, post1, hpre⟩ := List.append_of_mem i1
  have hev : (Digger.run Fqdn resolved ctx names schedule).events
      = pre1 ++ DigEvent.resolve na.FQDN :: (post1 ++ e :: post) := by
    rw [he, hpre]
    simp
  have := (hinv.1 pre1 _ _ hev).1 na.FQDN rfl
  rw [hpre]
  exact List.mem_append_left _ this

/-! ## A scan that is not cancelled -/

theorem Quality.terminal_of_le {a b : Quality} (h : a ≤ b) (ha : a.IsTerminal) :
    b.IsTerminal := by
  cases a <;> cases b <;> simp [Quality.IsTerminal, Quality.le_iff, Quality.val] at *

theorem Quality.unverified_le (q : Quality) : Quality.Unverified ≤ q := by
  cases q <;> simp [Quality.le_iff, Quality.val]

theorem Quality.not_terminal_of_pending {q : Quality}
    (h : q = Quality.Unverified ∨ q = Quality.Verifying) : ¬ q.IsTerminal := by
  rcases h with h | h <;> subst h <;> simp [Quality.IsTerminal]

theorem Quality.terminal_of_final {q : Quality}
    (h : q = Quality.Invalid ∨ q = Quality.Verified) : q.IsTerminal := by
  rcases h with h | h <;> subst h <;> simp [Quality.IsTerminal]

/-- What `Update` with a context that is not cancelled does to the entry of the
address of the record, and which records it sends. -/
theorem Update_none_entry (c : NamedAddressCache) (na : NamedAddressValue) :
    (c.Update none na).ctx = none ∧
    ∃ e, (c.Update none na).cache.m.get na.Addr = some e ∧ na.Qual ≤ e.q ∧
      (c.m.get na.Addr = none → e.q = na.Qual ∧ e.consumers = [na.Name]) ∧
      ∀ qc, c.m.get na.Addr = some qc →
        (na.Qual ≤ qc.q ∧ e.q = qc.q ∧ (∀ f ∈ qc.consumers, f ∈ e.consumers) ∧
          na.Name ∈ e.consumers ∧
          ∀ f ∈ e.consumers, f ∈ qc.consumers ∨
            ∃ r ∈ (c.Update none na).news, r.Name = f ∧ r.Addr = na.Addr ∧ r.Quality = qc.q) ∨
        (¬ na.Qual ≤ qc.q ∧ ¬ na.Qual.IsTerminal ∧ e.q = na.Qual ∧
          ∀ f ∈ qc.consumers, f ∈ e.consumers) ∨
        (¬ na.Qual ≤ qc.q ∧ na.Qual.IsTerminal ∧ e.q = na.Qual ∧ e.consumers = [] ∧
          ∀ f ∈ qc.consumers,
            ∃ r ∈ (c.Update none na).news, r.Name = f ∧ r.Addr = na.Addr ∧
              r.Quality = na.Qual) := by
  cases h : c.m.get na.Addr with
  | none =>
    rw [Update_of_absent c none na h]
    refine ⟨rfl, _, GoMap.get_set_self _ _ _, ?_, fun _ => ⟨rfl, rfl⟩, ?_⟩
    · exact Nat.le_refl _
    · intro qc hqc
      cases hqc
  | some qc =>
    by_cases hq : na.Qual ≤ qc.q
    · by_cases hk : na.Name ∈ qc.consumers
      · rw [Update_of_stale_known c none na qc h hq hk]
        refine ⟨rfl, qc, h, hq, (fun h0 => by cases h0), ?_⟩
        intro qc1 hqc1
        cases hqc1
        exact Or.inl ⟨hq, rfl, fun f hf => hf, hk, fun f hf => Or.inl hf⟩
      · rw [Update_of_stale_unknown c none na qc h hq hk]
        refine ⟨rfl, _, GoMap.get_set_self _ _ _, hq, (fun h0 => by cases h0), ?_⟩
        intro qc1 hqc1
        cases hqc1
        refine Or.inl ⟨hq, rfl, fun f hf => List.mem_append_left _ hf, by simp, ?_⟩
        intro f hf
        simp only [List.mem_append, List.mem_singleton] at hf
        rcases hf with hf | hf
        · exact Or.inl hf
        · subst hf
          exact Or.inr ⟨namedRecord na.FQDN na.Address qc.q qc.err,
            by simp [trySend, namedRecord], rfl, rfl, rfl⟩
    · rcases Quality.pending_or_terminal na.Qual with hp | hp
      · rw [Update_of_pending c none na qc h hq hp]
        refine ⟨by rw [notify_none], _, GoMap.get_set_self _ _ _, Nat.le_refl _,
          (fun h0 => by cases h0), ?_⟩
        intro qc1 hqc1
        cases hqc1
        refine Or.inr (Or.inl ⟨hq, Quality.not_terminal_of_pending hp, rfl, ?_⟩)
        intro f hf
        simp only
        split_ifs
        · exact hf
        · exact List.mem_append_left _ hf
      · rw [Update_of_terminal c none na qc h hq hp]
        refine ⟨by rw [notify_none], _, GoMap.get_set_self _ _ _, Nat.le_refl _,
          (fun h0 => by cases h0), ?_⟩
        intro qc1 hqc1
        cases hqc1
        refine Or.inr (Or.inr ⟨hq, Quality.terminal_of_final hp, rfl, rfl, ?_⟩)
        intro f hf
        rw [notify_none]
        exact ⟨_, List.mem_map.2 ⟨f, hf, rfl⟩, rfl, rfl, rfl⟩

theorem Served_mono (news more : List NamedAddressValue) (f a : String)
    (h : Served news f a) : Served (news ++ more) f a := by
  obtain ⟨r, hr, h1⟩ := h
  exact ⟨r, List.mem_append_left _ hr, h1⟩

/-- `Update` keeps the consumers of terminal entries served. -/
theorem Update_terminalServed (c : NamedAddressCache) (na : NamedAddressValue)
    (news : List NamedAddressValue)
    (hx : c.m.get na.Addr ≠ none ∨ ¬ na.Qual.IsTerminal) (h : TerminalServed c news) :
    TerminalServed (c.Update none na).cache (news ++ (c.Update none na).news) := by
  obtain ⟨_, e, he, _, habs, hold⟩ := Update_none_entry c na
  intro a e1 f hget hterm hf
  by_cases ha : a = na.Addr
  · subst ha
    rw [he] at hget
    cases hget
    cases hc : c.m.get na.Addr with
    | none =>
      obtain ⟨hq, _⟩ := habs hc
      rw [hq] at hterm
      rcases hx with hx | hx
      · exact absurd hc hx
      · exact absurd hterm hx
    | some qc =>
      rcases hold qc hc with ⟨_, hq, _, _, hcons⟩ | ⟨_, hnt, hq, _⟩ | ⟨_, _, _, hnil, _⟩
      · rcases hcons f hf with hf0 | ⟨r, hr, h1, h2, h3⟩
        · exact Served_mono _ _ _ _ (h _ qc f hc (hq ▸ hterm) hf0)
        · exact ⟨r, List.mem_append_right _ hr, h1, h2, by rw [h3, ← hq]; exact hterm⟩
      · rw [hq] at hterm
        exact absurd hterm hnt
      · rw [hnil] at hf
        cases hf
  · rw [Update_get_other c none na a ha] at hget
    exact Served_mono _ _ _ _ (h a e1 f hget hterm hf)

/-- `Update` keeps a pair served or waiting. -/
theorem Update_servedOrWaiting (c : NamedAddressCache) (na : NamedAddressValue)
    (news : List NamedAddressValue) (f a : String) (h : ServedOrWaiting c news f a) :
    ServedOrWaiting (c.Update none na).cache (news ++ (c.Update none na).news) f a := by
  rcases h with h | ⟨e0, hget, hnt, hf⟩
  · exact Or.inl (Served_mono _ _ _ _ h)
  · by_cases ha : a = na.Addr
    · subst ha
      obtain ⟨_, e, he, _, _, hold⟩ := Update_none_entry c na
      rcases hold e0 hget with ⟨_, hq, hsub, _, _⟩ | ⟨_, hnt1, hq, hsub⟩ | ⟨_, hT, _, _, hall⟩
      · exact Or.inr ⟨e, he, by rw [hq]; exact hnt, hsub f hf⟩
      · exact Or.inr ⟨e, he, by rw [hq]; exact hnt1, hsub f hf⟩
      · obtain ⟨r, hr, h1, h2, h3⟩ := hall f hf
        exact Or.inl ⟨r, List.mem_append_right _ hr, h1, h2, by rw [h3]; exact hT⟩
    · exact Or.inr ⟨e0, by rw [Update_get_other c none na a ha]; exact hget, hnt, hf⟩

/-- After `Update` with an unverified record its pair is served or waiting. -/
theorem Update_input_servedOrWaiting (c : NamedAddressCache) (na : NamedAddressValue)
    (news : List NamedAddressValue) (hq : na.Qual = Quality.Unverified)
    (hts : TerminalServed (c.Update none na).cache (news ++ (c.Update none na).news)) :
    ServedOrWaiting (c.Update none na).cache (news ++ (c.Update none na).news)
      na.Name na.Addr := by
  obtain ⟨_, e, he, _, habs, hold⟩ := Update_none_entry c na
  have hmem : na.Name ∈ e.consumers := by
    cases hc : c.m.get na.Addr with
    | none =>
      rw [(habs hc).2]
      simp
    | some qc =>
      rcases hold qc hc with ⟨_, _, _, hn, _⟩ | ⟨hn, _⟩ | ⟨hn, _⟩
      · exact hn
      · exact absurd (hq ▸ Quality.unverified_le qc.q) hn
      · exact absurd (hq ▸ Quality.unverified_le qc.q) hn
  by_cases ht : e.q.IsTerminal
  · exact Or.inl (hts _ e _ he ht hmem)
  · exact Or.inr ⟨e, he, ht, hmem⟩

/-- An entry that is not terminal after `Update` was not terminal before, or
is the new entry of the record. -/
theorem Update_not_terminal (c : NamedAddressCache) (na : NamedAddressValue) (a : String)
    (e : qualityUpdateConsumers) (hget : (c.Update none na).cache.m.get a = some e)
    (hnt : ¬ e.q.IsTerminal) :
    (∃ e0, c.m.get a = some e0 ∧ ¬ e0.q.IsTerminal) ∨ (a = na.Addr ∧ c.m.get na.Addr = none) := by
  by_cases ha : a = na.Addr
  · subst ha
    cases hc : c.m.get na.Addr with
    | none => exact Or.inr ⟨rfl, rfl⟩
    | some e0 =>
      obtain ⟨e1, he1, hle, _⟩ := Update_self c none na
      rw [hget] at he1
      cases he1
      exact Or.inl ⟨e0, rfl, fun ht => hnt (Quality.terminal_of_le (hle e0 hc) ht)⟩
  · rw [Update_get_other c none na a ha] at hget
    exact Or.inl ⟨e, hget, hnt⟩

theorem verifyStep_input_running (st : VerifyState) (addr : NamedAddressValue)
    (hc : st.ctx = none) (hs : st.stopped = false) (hp : st.panicked = false) :
    verifyStep st (VerifyEvent.input addr) =
      if addr.Addr = "" then { st with news := st.news ++ [addr] }
      else
        { st with
          addrcache := (st.addrcache.Update none addr).cache
          ctx := (st.addrcache.Update none addr).ctx
          news := st.news ++ (st.addrcache.Update none addr).news
          validated := (if (st.addrcache.Update none addr).ret then st.validated ++ [addr]
            else st.validated) } := by
  obtain ⟨c, ctx, news, validated, stopped, panicked⟩ := st
  simp only at hc hs hp
  subst hc hs hp
  by_cases he : addr.Addr = "" <;> simp [verifyStep, trySend, he]

theorem verifyStep_checked_running (st : VerifyState) (n : NamedAddressValue)
    (hc : st.ctx = none) (hp : st.panicked = false) :
    verifyStep st (VerifyEvent.checked (QualifiedAddress.named n)) =
      { st with
        addrcache := (st.addrcache.Update none n).cache
        ctx := (st.addrcache.Update none n).ctx
        news := st.news ++ (st.addrcache.Update none n).news } := by
  obtain ⟨c, ctx, news, validated, stopped, panicked⟩ := st
  simp only at hc hp
  subst hc hp
  simp [verifyStep, QualifiedAddress.asNamedAddress]

theorem ServedOrWaiting_mono (c : NamedAddressCache) (news more : List NamedAddressValue)
    (f a : String) (h : ServedOrWaiting c news f a) : ServedOrWaiting c (news ++ more) f a := by
  rcases h with h | h
  · exact Or.inl (Served_mono _ _ _ _ h)
  · exact Or.inr h

theorem TerminalServed_mono (c : NamedAddressCache) (news more : List NamedAddressValue)
    (h : TerminalServed c news) : TerminalServed c (news ++ more) :=
  fun a e f hget ht hf => Served_mono _ _ _ _ (h a e f hget ht hf)

theorem VerdictPending_mono (st st1 : ScanState) (a : String)
    (ht : ∀ v ∈ st.tasks, v ∈ st1.tasks) (hc : ∀ v ∈ st.courtTV, v ∈ st1.courtTV)
    (h : VerdictPending st a) : VerdictPending st1 a := by
  rcases h with ⟨v, hv, hva⟩ | ⟨v, hv, hva⟩
  · exact Or.inl ⟨v, ht v hv, hva⟩
  · exact Or.inr ⟨v, hc v hv, hva⟩

theorem Update_keys_grow (c : NamedAddressCache) (na : NamedAddressValue) (a : String)
    (h : c.m.get a ≠ none) : (c.Update none na).cache.m.get a ≠ none :=
  fun h1 => h ((Update_get_eq_none_iff c none na a).1 h1).1

/-- Every action of a scan keeps the invariant of the scan. -/
theorem scanStep_inv (p : Pinger) (world : QualifiedAddress → Option String × PingOutcome)
    (digNews : List NamedAddressValue)
    (hD : ∀ d ∈ digNews, d.Quality = Quality.Unverified) (st : ScanState) (a : ScanAction)
    (h : ScanInv digNews st) : ScanInv digNews (scanStep p world st a) := by
  obtain ⟨hctx, hstop, hpanic, ⟨received, hrec, hsow⟩, hts, hpend, hnamed⟩ := h
  cases a with
  | input =>
    cases hin : st.input with
    | nil =>
      simp only [scanStep, hin]
      exact ⟨hctx, hstop, hpanic, ⟨received, hrec, hsow⟩, hts, hpend, hnamed⟩
    | cons addr rest =>
      have haddr : addr.Qual = Quality.Unverified := hD addr (by rw [hrec, hin]; simp)
      have hrec1 : digNews = (received ++ [addr]) ++ rest := by rw [hrec, hin]; simp
      simp only [scanStep, hin]
      rw [verifyStep_input_running st.verify addr hctx hstop hpanic]
      by_cases he : addr.Addr = ""
      · simp only [he, if_true, List.self_eq_append_right, List.cons_ne_nil, if_false]
        refine ⟨hctx, hstop, hpanic, ⟨received ++ [addr], hrec1, ?_⟩,
          TerminalServed_mono _ _ _ hts, hpend, hnamed⟩
        intro d hd hda
        simp only [List.mem_append, List.mem_singleton] at hd
        rcases hd with hd | hd
        · exact ServedOrWaiting_mono _ _ _ _ _ (hsow d hd hda)
        · subst hd
          exact absurd he hda
      · simp only [he, if_false]
        obtain ⟨hrctx, e, hget, _, _, _⟩ := Update_none_entry st.verify.addrcache addr
        have hts1 := Update_terminalServed st.verify.addrcache addr st.verify.news
          (Or.inr (by rw [haddr]; simp [Quality.IsTerminal])) hts
        have hsow1 : ∀ d ∈ received ++ [addr], d.Addr ≠ "" →
            ServedOrWaiting (st.verify.addrcache.Update none addr).cache
              (st.verify.news ++ (st.verify.addrcache.Update none addr).news) d.Name d.Addr := by
          intro d hd hda
          simp only [List.mem_append, List.mem_singleton] at hd
          rcases hd with hd | hd
          · exact Update_servedOrWaiting _ _ _ _ _ (hsow d hd hda)
          · subst hd
            exact Update_input_servedOrWaiting _ _ _ haddr hts1
        cases hret : (st.verify.addrcache.Update none addr).ret with
        | true =>
          simp only [if_true]
          refine ⟨hrctx, hstop, hpanic, ⟨received ++ [addr], hrec1, hsow1⟩, hts1, ?_, ?_⟩
          · intro a e1 hget1 hnt
            rcases Update_not_terminal _ _ _ _ hget1 hnt with ⟨e0, hget0, hnt0⟩ | ⟨ha, _⟩
            · exact VerdictPending_mono st _ a (fun v hv => List.mem_append_left _ hv)
                (fun v hv => List.mem_append_left _ hv) (hpend a e0 hget0 hnt0)
            · subst ha
              exact Or.inl ⟨_, List.mem_append_right _ (List.mem_singleton_self _), rfl⟩
          · intro v hv
            simp only [List.mem_append, List.mem_singleton] at hv
            have hold : v ∈ st.courtTV ++ st.tasks → ∃ n, v = QualifiedAddress.named n ∧
                (st.verify.addrcache.Update none addr).cache.m.get n.Addr ≠ none := by
              intro hv1
              obtain ⟨n, hn, hc⟩ := hnamed v hv1
              exact ⟨n, hn, Update_keys_grow _ _ _ hc⟩
            have hnew : v = (QualifiedAddress.named addr).WithNewQuality Quality.Verifying none →
                ∃ n, v = QualifiedAddress.named n ∧
                  (st.verify.addrcache.Update none addr).cache.m.get n.Addr ≠ none := by
              intro hv1
              refine ⟨_, hv1, ?_⟩
              change (st.verify.addrcache.Update none addr).cache.m.get addr.Addr ≠ none
              rw [hget]
              simp
            rcases hv with (hv | hv) | (hv | hv)
            · exact hold (List.mem_append_left _ hv)
            · exact hnew hv
            · exact hold (List.mem_append_right _ hv)
            · exact hnew hv
        | false =>
          simp only [Bool.false_eq_true, if_false, List.self_eq_append_right, List.cons_ne_nil]
          refine ⟨hrctx, hstop, hpanic, ⟨received ++ [addr], hrec1, hsow1⟩, hts1, ?_, ?_⟩
          · intro a e1 hget1 hnt
            rcases Update_not_terminal _ _ _ _ hget1 hnt with ⟨e0, hget0, hnt0⟩ | ⟨_, hnone⟩
            · exact hpend a e0 hget0 hnt0
            · rw [Update_ret, hnone] at hret
              cases hret
          · intro v hv
            obtain ⟨n, hn, hc⟩ := hnamed v hv
            exact ⟨n, hn, Update_keys_grow _ _ _ hc⟩
  | verdict =>
    cases hcv : st.courtTV with
    | nil =>
      simp only [scanStep, hcv]
      exact ⟨hctx, hstop, hpanic, ⟨received, hrec, hsow⟩, hts, hpend, hcv ▸ hnamed⟩
    | cons qaddr rest =>
      obtain ⟨n, hn, hcached⟩ := hnamed qaddr (by rw [hcv]; simp)
      subst hn
      simp only [scanStep, hcv]
      rw [verifyStep_checked_running st.verify n hctx hpanic]
      obtain ⟨hrctx, e, hget, hle, _, _⟩ := Update_none_entry st.verify.addrcache n
      refine ⟨hrctx, hstop, hpanic,
        ⟨received, hrec, fun d hd hda => Update_servedOrWaiting _ _ _ _ _ (hsow d hd hda)⟩,
        Update_terminalServed _ _ _ (Or.inl hcached) hts, ?_, ?_⟩
      · intro a e1 hget1 hnt
        rcases Update_not_terminal _ _ _ _ hget1 hnt with ⟨e0, hget0, hnt0⟩ | ⟨_, hnone⟩
        · rcases hpend a e0 hget0 hnt0 with ⟨v, hv, hva⟩ | ⟨v, hv, hva, hvt⟩
          · exact Or.inl ⟨v, hv, hva⟩
          · rw [hcv] at hv
            rcases List.mem_cons.1 hv with hv | hv
            · subst hv
              exfalso
              have ha : a = n.Addr := hva.symm
              subst ha
              rw [hget] at hget1
              cases hget1
              exact hnt (Quality.terminal_of_le hle hvt)
            · exact Or.inr ⟨v, hv, hva, hvt⟩
        · exact absurd hnone hcached
      · intro v hv
        have hv1 : v ∈ st.courtTV ++ st.tasks := by
          rw [hcv]
          simp only [List.mem_append, List.mem_cons] at hv ⊢
          rcases hv with hv | hv
          · exact Or.inl (Or.inr hv)
          · exact Or.inr hv
        obtain ⟨n1, hn1, hc⟩ := hnamed v hv1
        exact ⟨n1, hn1, Update_keys_grow _ _ _ hc⟩
  | finish k =>
    cases ht : st.tasks[k]? with
    | none =>
      simp only [scanStep, ht]
      exact ⟨hctx, hstop, hpanic, ⟨received, hrec, hsow⟩, hts, hpend, hnamed⟩
    | some verdict =>
      simp only [scanStep, ht]
      obtain ⟨htq, hta, htn⟩ := task_qual_terminal p verdict (world verdict).1 (world verdict).2
      have hvmem : verdict ∈ st.tasks := List.getElem?_mem ht
      obtain ⟨n, hn, hcached⟩ := hnamed verdict (List.mem_append_right _ hvmem)
      refine ⟨hctx, hstop, hpanic, ⟨received, hrec, hsow⟩, hts, ?_, ?_⟩
      · intro a e1 hget1 hnt
        rcases hpend a e1 hget1 hnt with ⟨v, hv, hva⟩ | ⟨v, hv, hva⟩
        · by_cases hvv : v = verdict
          · subst hvv
            exact Or.inr ⟨_, List.mem_append_right _ (List.mem_singleton_self _),
              hta.trans hva, htq⟩
          · refine Or.inl ⟨v, ?_, hva⟩
            obtain ⟨i, hi⟩ := List.mem_iff_getElem?.1 hv
            refine List.mem_eraseIdx_iff_getElem?.2 ⟨i, ?_, hi⟩
            intro hik
            subst hik
            rw [ht] at hi
            cases hi
            exact hvv rfl
        · exact Or.inr ⟨v, List.mem_append_left _ hv, hva⟩
      · intro v hv
        simp only [List.mem_append, List.mem_singleton] at hv
        rcases hv with (hv | hv) | hv
        · exact hnamed v (List.mem_append_left _ hv)
        · obtain ⟨n1, hn1, _⟩ := htn n hn
          refine ⟨n1, hv.trans hn1, ?_⟩
          have h1 : n1.Addr = n.Addr := by
            have h2 := hta
            rw [hn1, hn] at h2
            exact h2
          rw [h1]
          exact hcached
        · exact hnamed v (List.mem_append_right _ ((List.eraseIdx_sublist _ _).subset hv))

theorem scan_foldl_inv (p : Pinger) (world : QualifiedAddress → Option String × PingOutcome)
    (digNews : List NamedAddressValue)
    (hD : ∀ d ∈ digNews, d.Quality = Quality.Unverified) (schedule : List ScanAction)
    (st : ScanState) (h : ScanInv digNews st) :
    ScanInv digNews (schedule.foldl (scanStep p world) st) := by
  induction schedule generalizing st with
  | nil => exact h
  | cons a schedule ih => exact ih _ (scanStep_inv p world digNews hD st a h)

theorem scan_inputs (p : Pinger) (world : QualifiedAddress → Option String × PingOutcome)
    (k : Nat) (st : ScanState) :
    ((List.replicate k ScanAction.input).foldl (scanStep p world) st).input.length
        = st.input.length - k ∧
      ((List.replicate k ScanAction.input).foldl (scanStep p world) st).tasks.length
        ≤ st.tasks.length + k ∧
      ((List.replicate k ScanAction.input).foldl (scanStep p world) st).courtTV.length
        ≤ st.courtTV.length + k := by
  induction k generalizing st with
  | zero => simp
  | succ k ih =>
    have hstep : (scanStep p world st ScanAction.input).input.length = st.input.length - 1 ∧
        (scanStep p world st ScanAction.input).tasks.length ≤ st.tasks.length + 1 ∧
        (scanStep p world st ScanAction.input).courtTV.length ≤ st.courtTV.length + 1 := by
      cases hin : st.input with
      | nil => simp [scanStep, hin]
      | cons addr rest =>
        simp only [scanStep, hin]
        split_ifs <;> simp
    obtain ⟨h1, h2, h3⟩ := ih (scanStep p world st ScanAction.input)
    simp only [List.replicate_succ, List.foldl_cons]
    refine ⟨?_, ?_, ?_⟩ <;> omega

theorem scan_finishes (p : Pinger) (world : QualifiedAddress → Option String × PingOutcome)
    (k : Nat) (st : ScanState) :
    ((List.replicate k (ScanAction.finish 0)).foldl (scanStep p world) st).input = st.input ∧
      ((List.replicate k (ScanAction.finish 0)).foldl (scanStep p world) st).tasks.length
        = st.tasks.length - k ∧
      ((List.replicate k (ScanAction.finish 0)).foldl (scanStep p world) st).courtTV.length
        ≤ st.courtTV.length + k := by
  induction k generalizing st with
  | zero => simp
  | succ k ih =>
    have hstep : (scanStep p world st (ScanAction.finish 0)).input = st.input ∧
        (scanStep p world st (ScanAction.finish 0)).tasks.length = st.tasks.length - 1 ∧
        (scanStep p world st (ScanAction.finish 0)).courtTV.length
          ≤ st.courtTV.length + 1 := by
      cases ht : st.tasks with
      | nil => simp [scanStep, ht]
      | cons v rest => simp [scanStep, ht]
    obtain ⟨h1, h2, h3⟩ := ih (scanStep p world st (ScanAction.finish 0))
    simp only [List.replicate_succ, List.foldl_cons]
    refine ⟨h1.trans hstep.1, ?_, ?_⟩ <;> omega

theorem scan_verdicts (p : Pinger) (world : QualifiedAddress → Option String × PingOutcome)
    (k : Nat) (st : ScanState) :
    ((List.replicate k ScanAction.verdict).foldl (scanStep p world) st).input = st.input ∧
      ((List.replicate k ScanAction.verdict).foldl (scanStep p world) st).tasks = st.tasks ∧
      ((List.replicate k ScanAction.verdict).foldl (scanStep p world) st).courtTV.length
        = st.courtTV.length - k := by
  induction k generalizing st with
  | zero => simp
  | succ k ih =>
    have hstep : (scanStep p world st ScanAction.verdict).input = st.input ∧
        (scanStep p world st ScanAction.verdict).tasks = st.tasks ∧
        (scanStep p world st ScanAction.verdict).courtTV.length = st.courtTV.length - 1 := by
      cases hc : st.courtTV with
      | nil => simp [scanStep, hc]
      | cons v rest => simp [scanStep, hc]
    obtain ⟨h1, h2, h3⟩ := ih (scanStep p world st ScanAction.verdict)
    simp only [List.replicate_succ, List.foldl_cons]
    refine ⟨h1.trans hstep.1, h2.trans hstep.2.1, ?_⟩
    omega

theorem scan_drains (p : Pinger) (world : QualifiedAddress → Option String × PingOutcome)
    (n : Nat) (s0 : ScanState) (hi : s0.input.length = n) (ht : s0.tasks.length = 0)
    (hc : s0.courtTV.length = 0) :
    ((List.replicate n ScanAction.input ++ (List.replicate n (ScanAction.finish 0) ++
        List.replicate (2 * n) ScanAction.verdict)).foldl (scanStep p world) s0).input = [] ∧
      ((List.replicate n ScanAction.input ++ (List.replicate n (ScanAction.finish 0) ++
        List.replicate (2 * n) ScanAction.verdict)).foldl (scanStep p world) s0).courtTV = [] ∧
      ((List.replicate n ScanAction.input ++ (List.replicate n (ScanAction.finish 0) ++
        List.replicate (2 * n) ScanAction.verdict)).foldl (scanStep p world) s0).tasks = [] := by
  simp only [List.foldl_append]
  obtain ⟨a1, a2, a3⟩ := scan_inputs p world n s0
  generalize (List.replicate n ScanAction.input).foldl (scanStep p world) s0 = s1
    at a1 a2 a3 ⊢
  obtain ⟨b1, b2, b3⟩ := scan_finishes p world n s1
  generalize (List.replicate n (ScanAction.finish 0)).foldl (scanStep p world) s1 = s2
    at b1 b2 b3 ⊢
  obtain ⟨c1, c2, c3⟩ := scan_verdicts p world (2 * n) s2
  generalize (List.replicate (2 * n) ScanAction.verdict).foldl (scanStep p world) s2 = s3
    at c1 c2 c3 ⊢
  refine ⟨?_, ?_, ?_⟩
  · rw [c1, b1]
    exact List.length_eq_zero.1 (by omega)
  · exact List.length_eq_zero.1 (by omega)
  · rw [c2]
    exact List.length_eq_zero.1 (by omega)

/-- Every scan can run to its end: after all records were received, all tasks
have ended and all verdicts were received, nothing is left. -/
theorem scan_completes (p : Pinger) (world : QualifiedAddress → Option String × PingOutcome)
    (digNews : List NamedAddressValue) :
    ∃ schedule, (scan p world digNews schedule).input = [] ∧
      (scan p world digNews schedule).courtTV = [] ∧
      (scan p world digNews schedule).tasks = [] :=
  ⟨_, scan_drains p world digNews.length _ rfl rfl rfl⟩

/-- Every record `Update` sends carries the address of the incoming record and
the FQDN of the incoming record or of a consumer registered before. -/
theorem Update_news_source (c : NamedAddressCache) (ctx : Context) (na r : NamedAddressValue)
    (hr : r ∈ (c.Update ctx na).news) :
    r.Addr = na.Addr ∧
      (r.Name = na.Name ∨ ∃ e, c.m.get na.Addr = some e ∧ r.Name ∈ e.consumers) := by
  cases h : c.m.get na.Addr with
  | none =>
    rw [Update_of_absent c ctx na h] at hr
    have := mem_trySend _ _ _ hr
    subst this
    exact ⟨rfl, Or.inl rfl⟩
  | some qc =>
    by_cases hq : na.Qual ≤ qc.q
    · by_cases hk : na.Name ∈ qc.consumers
      · rw [Update_of_stale_known c ctx na qc h hq hk] at hr
        cases hr
      · rw [Update_of_stale_unknown c ctx na qc h hq hk] at hr
        have := mem_trySend _ _ _ hr
        subst this
        exact ⟨rfl, Or.inl rfl⟩
    · rcases Quality.pending_or_terminal na.Qual with hp | hp
      · rw [Update_of_pending c ctx na qc h hq hp] at hr
        obtain ⟨consumer, hc, e⟩ := mem_notify _ _ _ _ hr
        subst e
        refine ⟨rfl, ?_⟩
        split_ifs at hc with hk
        · exact Or.inr ⟨qc, rfl, hc⟩
        · simp only [List.mem_append, List.mem_singleton] at hc
          rcases hc with hc | hc
          · exact Or.inr ⟨qc, rfl, hc⟩
          · exact Or.inl hc
      · rw [Update_of_terminal c ctx na qc h hq hp] at hr
        obtain ⟨consumer, hc, e⟩ := mem_notify _ _ _ _ hr
        subst e
        exact ⟨rfl, Or.inr ⟨qc, rfl, hc⟩⟩

/-- Every consumer registered after `Update` was registered before or is the
FQDN of the incoming record, registered for its address. -/
theorem Update_consumer_source (c : NamedAddressCache) (ctx : Context) (na : NamedAddressValue)
    (a : String) (e1 : qualityUpdateConsumers) (f : String)
    (hget : (c.Update ctx na).cache.m.get a = some e1) (hf : f ∈ e1.consumers) :
    (a = na.Addr ∧ f = na.Name) ∨ ∃ e, c.m.get a = some e ∧ f ∈ e.consumers := by
  by_cases ha : a = na.Addr
  · subst ha
    cases h : c.m.get na.Addr with
    | none =>
      rw [Update_of_absent c ctx na h, GoMap.get_set_self] at hget
      cases hget
      simp only [List.mem_singleton] at hf
      exact Or.inl ⟨rfl, hf⟩
    | some qc =>
      by_cases hq : na.Qual ≤ qc.q
      · by_cases hk : na.Name ∈ qc.consumers
        · rw [Update_of_stale_known c ctx na qc h hq hk, h] at hget
          cases hget
          exact Or.inr ⟨_, rfl, hf⟩
        · rw [Update_of_stale_unknown c ctx na qc h hq hk, GoMap.get_set_self] at hget
          cases hget
          simp only [List.mem_append, List.mem_singleton] at hf
          rcases hf with hf | hf
          · exact Or.inr ⟨_, rfl, hf⟩
          · exact Or.inl ⟨rfl, hf⟩
      · rcases Quality.pending_or_terminal na.Qual with hp | hp
        · rw [Update_of_pending c ctx na qc h hq hp, GoMap.get_set_self] at hget
          cases hget
          simp only at hf
          split_ifs at hf with hk
          · exact Or.inr ⟨_, rfl, hf⟩
          · simp only [List.mem_append, List.mem_singleton] at hf
            rcases hf with hf | hf
            · exact Or.inr ⟨_, rfl, hf⟩
            · exact Or.inl ⟨rfl, hf⟩
        · rw [Update_of_terminal c ctx na qc h hq hp, GoMap.get_set_self] at hget
          cases hget
          cases hf
  · rw [Update_get_other c ctx na a ha] at hget
    exact Or.inr ⟨e1, hget, hf⟩

/-- Every action of a scan keeps the sources of its records. -/
theorem scanStep_sources (p : Pinger) (world : QualifiedAddress → Option String × PingOutcome)
    (digNews : List NamedAddressValue) (st : ScanState) (a : ScanAction)
    (hinv : ScanInv digNews st) (h : ScanSources digNews st) :
    ScanSources digNews (scanStep p world st a) := by
  obtain ⟨hctx, hstop, hpanic, _⟩ := hinv
  obtain ⟨received, hrec, hnews, hcons, hverd⟩ := h
  cases a with
  | input =>
    cases hin : st.input with
    | nil =>
      simp only [scanStep, hin]
      exact ⟨received, hrec, hnews, hcons, hverd⟩
    | cons addr rest =>
      have hrec1 : digNews = (received ++ [addr]) ++ rest := by rw [hrec, hin]; simp
      have hnews1 : ∀ r ∈ st.verify.news, ∃ d ∈ received ++ [addr],
          d.Name = r.Name ∧ d.Addr = r.Addr ∧ (r.Addr = "" → r = d) := by
        intro r hr
        obtain ⟨d, hd, h1⟩ := hnews r hr
        exact ⟨d, List.mem_append_left _ hd, h1⟩
      have hverd1 : ∀ v ∈ st.courtTV ++ st.tasks,
          ∃ n, v = QualifiedAddress.named n ∧ n.Addr ≠ "" ∧
            ∃ d ∈ received ++ [addr], d.Name = n.Name ∧ d.Addr = n.Addr := by
        intro v hv
        obtain ⟨n, hn, hne, d, hd, h1⟩ := hverd v hv
        exact ⟨n, hn, hne, d, List.mem_append_left _ hd, h1⟩
      simp only [scanStep, hin]
      rw [verifyStep_input_running st.verify addr hctx hstop hpanic]
      by_cases he : addr.Addr = ""
      · simp only [he, if_true, List.self_eq_append_right, List.cons_ne_nil, if_false]
        refine ⟨received ++ [addr], hrec1, ?_, ?_, hverd1⟩
        · intro r hr
          simp only [List.mem_append, List.mem_singleton] at hr
          rcases hr with hr | hr
          · exact hnews1 r hr
          · subst hr
            exact ⟨r, by simp, rfl, rfl, fun _ => rfl⟩
        · intro a e f hget hf
          obtain ⟨hne, d, hd, h1⟩ := hcons a e f hget hf
          exact ⟨hne, d, List.mem_append_left _ hd, h1⟩
      · simp only [he, if_false]
        have hnews2 : ∀ r ∈ st.verify.news ++ (st.verify.addrcache.Update none addr).news,
            ∃ d ∈ received ++ [addr], d.Name = r.Name ∧ d.Addr = r.Addr ∧ (r.Addr = "" → r = d) := by
          intro r hr
          rcases List.mem_append.1 hr with hr | hr
          · exact hnews1 r hr
          · obtain ⟨hra, hrn⟩ := Update_news_source _ _ _ _ hr
            have hvac : r.Addr = "" → r = addr := fun h0 => absurd (hra ▸ h0) he
            rcases hrn with hrn | ⟨e, hget, hf⟩
            · exact ⟨addr, by simp, hrn.symm, hra.symm, hvac⟩
            · obtain ⟨_, d, hd, h1, h2⟩ := hcons _ e _ hget hf
              exact ⟨d, List.mem_append_left _ hd, h1, h2.trans hra.symm,
                fun h0 => absurd (hra ▸ h0) he⟩
        have hcons2 : ∀ a e f, (st.verify.addrcache.Update none addr).cache.m.get a = some e →
            f ∈ e.consumers → a ≠ "" ∧ ∃ d ∈ received ++ [addr], d.Name = f ∧ d.Addr = a := by
          intro a e f hget hf
          rcases Update_consumer_source _ _ _ _ _ _ hget hf with ⟨ha, hfn⟩ | ⟨e0, hget0, hf0⟩
          · subst ha hfn
            exact ⟨he, addr, by simp, rfl, rfl⟩
          · obtain ⟨hne, d, hd, h1⟩ := hcons a e0 f hget0 hf0
            exact ⟨hne, d, List.mem_append_left _ hd, h1⟩
        cases hret : (st.verify.addrcache.Update none addr).ret with
        | true =>
          simp only [if_true]
          refine ⟨received ++ [addr], hrec1, hnews2, hcons2, ?_⟩
          intro v hv
          simp only [List.mem_append, List.mem_singleton] at hv
          have hnew : v = (QualifiedAddress.named addr).WithNewQuality Quality.Verifying none →
              ∃ n, v = QualifiedAddress.named n ∧ n.Addr ≠ "" ∧
                ∃ d ∈ received ++ [addr], d.Name = n.Name ∧ d.Addr = n.Addr :=
            fun hv1 => ⟨_, hv1, he, addr, by simp, rfl, rfl⟩
          rcases hv with (hv | hv) | (hv | hv)
          · exact hverd1 v (List.mem_append_left _ hv)
          · exact hnew hv
          · exact hverd1 v (List.mem_append_right _ hv)
          · exact hnew hv
        | false =>
          simp only [Bool.false_eq_true, if_false, List.self_eq_append_right, List.cons_ne_nil]
          exact ⟨received ++ [addr], hrec1, hnews2, hcons2, hverd1⟩
  | verdict =>
    cases hcv : st.courtTV with
    | nil =>
      simp only [scanStep, hcv]
      exact ⟨received, hrec, hnews, hcons, hcv ▸ hverd⟩
    | cons qaddr rest =>
      obtain ⟨n, hn, hne, dn, hdn, hdn1, hdn2⟩ := hverd qaddr (by rw [hcv]; simp)
      subst hn
      simp only [scanStep, hcv]
      rw [verifyStep_checked_running st.verify n hctx hpanic]
      refine ⟨received, hrec, ?_, ?_, ?_⟩
      · intro r hr
        rcases List.mem_append.1 hr with hr | hr
        · exact hnews r hr
        · obtain ⟨hra, hrn⟩ := Update_news_source _ _ _ _ hr
          rcases hrn with hrn | ⟨e, hget, hf⟩
          · exact ⟨dn, hdn, hdn1.trans hrn.symm, hdn2.trans hra.symm,
              fun h0 => absurd (hra ▸ h0) hne⟩
          · obtain ⟨_, d, hd, h1, h2⟩ := hcons _ e _ hget hf
            exact ⟨d, hd, h1, h2.trans hra.symm, fun h0 => absurd (hra ▸ h0) hne⟩
      · intro a e f hget hf
        rcases Update_consumer_source _ _ _ _ _ _ hget hf with ⟨ha, hfn⟩ | ⟨e0, hget0, hf0⟩
        · subst ha hfn
          exact ⟨hne, dn, hdn, hdn1, hdn2⟩
        · exact hcons a e0 f hget0 hf0
      · intro v hv
        apply hverd v
        rw [hcv]
        simp only [List.mem_append, List.mem_cons] at hv ⊢
        rcases hv with hv | hv
        · exact Or.inl (Or.inr hv)
        · exact Or.inr hv
  | finish k =>
    cases ht : st.tasks[k]? with
    | none =>
      simp only [scanStep, ht]
      exact ⟨received, hrec, hnews, hcons, hverd⟩
    | some verdict =>
      simp only [scanStep, ht]
      obtain ⟨_, hta, htn⟩ := task_qual_terminal p verdict (world verdict).1 (world verdict).2
      have hvmem : verdict ∈ st.tasks := List.getElem?_mem ht
      obtain ⟨n, hn, hne, dn, hdn, hdn1, hdn2⟩ := hverd verdict (List.mem_append_right _ hvmem)
      refine ⟨received, hrec, hnews, hcons, ?_⟩
      intro v hv
      simp only [List.mem_append, List.mem_singleton] at hv
      rcases hv with (hv | hv) | hv
      · exact hverd v (List.mem_append_left _ hv)
      · obtain ⟨n1, hn1, hname⟩ := htn n hn
        have h1 : n1.Addr = n.Addr := by
          have h2 := hta
          rw [hn1, hn] at h2
          exact h2
        exact ⟨n1, hv.trans hn1, by rw [h1]; exact hne, dn, hdn, hdn1.trans hname.symm,
          hdn2.trans h1.symm⟩
      · exact hverd v (List.mem_append_right _ ((List.eraseIdx_sublist _ _).subset hv))

theorem scan_foldl_sources (p : Pinger) (world : QualifiedAddress → Option String × PingOutcome)
    (digNews : List NamedAddressValue)
    (hD : ∀ d ∈ digNews, d.Quality = Quality.Unverified) (schedule : List ScanAction)
    (st : ScanState) (hinv : ScanInv digNews st) (h : ScanSources digNews st) :
    ScanSources digNews (schedule.foldl (scanStep p world) st) := by
  induction schedule generalizing st with
  | nil => exact h
  | cons a schedule ih =>
    exact ih _ (scanStep_inv p world digNews hD st a hinv)
      (scanStep_sources p world digNews st a hinv h)

/-- The invariant of a scan holds at its start. -/
theorem scanInv_start (digNews : List NamedAddressValue) :
    ScanInv digNews
      { verify := Verifier.Verify none [], input := digNews, courtTV := [], tasks := [] } :=
  ⟨rfl, rfl, rfl, ⟨[], rfl, by simp⟩,
    (fun a e f hget => by simp [Verifier.Verify, NewNamedAddressCache, GoMap.get] at hget),
    (fun a e hget => by simp [Verifier.Verify, NewNamedAddressCache, GoMap.get] at hget),
    by simp⟩

/-- C26, as the code has it. A name whose resolution returns no address gets
its placeholder forwarded and nothing else: the scan of `ghost.` is complete
and its output stream is the unverified placeholder alone, without a record of
terminal quality. -/
theorem ghost_has_no_terminal_record :
    (Digger.run (fun s => s) (fun _ => []) none ["ghost."]
        [DigAction.loop, DigAction.loop, DigAction.callback 0, DigAction.loop]).events
      = [DigEvent.placeholder (placeholderOf "ghost."), DigEvent.resolve "ghost."] ∧
    (scan ⟨3, 50, none⟩ (fun _ => (none, PingOutcome.statistics 3)) [placeholderOf "ghost."]
        [ScanAction.input, ScanAction.verdict, ScanAction.finish 0]).input = [] ∧
    (scan ⟨3, 50, none⟩ (fun _ => (none, PingOutcome.statistics 3)) [placeholderOf "ghost."]
        [ScanAction.input, ScanAction.verdict, ScanAction.finish 0]).courtTV = [] ∧
    (scan ⟨3, 50, none⟩ (fun _ => (none, PingOutcome.statistics 3)) [placeholderOf "ghost."]
        [ScanAction.input, ScanAction.verdict, ScanAction.finish 0]).tasks = [] ∧
    (scan ⟨3, 50, none⟩ (fun _ => (none, PingOutcome.statistics 3)) [placeholderOf "ghost."]
        [ScanAction.input, ScanAction.verdict, ScanAction.finish 0]).verify.news
      = [placeholderOf "ghost."] ∧
    ¬ (placeholderOf "ghost.").Quality.IsTerminal := by
  decide

/-- C26, amended. In a scan that is not cancelled, on a digger stream of
unverified records, under any schedule: once no record, no verdict and no task
is left, the output stream holds for every record of the digger with an
address a record with the same FQDN and address whose quality is terminal, and
a schedule that leaves nothing exists; and at any time, a record of the output
stream whose FQDN the digger sent with no address is a record of the digger
with the empty address and the quality `Unverified`, so that no record of
terminal quality has such an FQDN. -/
theorem resolved_names_are_served (p : Pinger)
    (world : QualifiedAddress → Option String × PingOutcome)
    (digNews : List NamedAddressValue)
    (hD : ∀ d ∈ digNews, d.Quality = Quality.Unverified) :
    (∃ schedule, (scan p world digNews schedule).input = [] ∧
      (scan p world digNews schedule).courtTV = [] ∧
      (scan p world digNews schedule).tasks = []) ∧
    (∀ schedule, (scan p world digNews schedule).input = [] →
      (scan p world digNews schedule).courtTV = [] →
      (scan p world digNews schedule).tasks = [] →
      ∀ d ∈ digNews, d.Addr ≠ "" →
        ∃ r ∈ (scan p world digNews schedule).verify.news,
          r.Name = d.Name ∧ r.Addr = d.Addr ∧ r.Quality.IsTerminal) ∧
    ∀ schedule, ∀ r ∈ (scan p world digNews schedule).verify.news,
      (∀ d ∈ digNews, d.Name = r.Name → d.Addr = "") →
        r ∈ digNews ∧ r.Addr = "" ∧ r.Quality = Quality.Unverified ∧ ¬ r.Quality.IsTerminal := by
  refine ⟨scan_completes p world digNews, ?_, ?_⟩
  · intro schedule hin hc ht d hd hda
    have hinv : ScanInv digNews (scan p world digNews schedule) :=
      scan_foldl_inv p world digNews hD schedule _ (scanInv_start digNews)
    obtain ⟨_, _, _, ⟨received, hrec, hsow⟩, _, hpend, _⟩ := hinv
    rw [hin, List.append_nil] at hrec
    subst hrec
    rcases hsow d hd hda with h | ⟨e, hget, hnt, _⟩
    · exact h
    · exfalso
      rcases hpend d.Addr e hget hnt with ⟨v, hv, _⟩ | ⟨v, hv, _⟩
      · rw [ht] at hv
        cases hv
      · rw [hc] at hv
        cases hv
  · intro schedule r hr hno
    have hsrc : ScanSources digNews (scan p world digNews schedule) :=
      scan_foldl_sources p world digNews hD schedule _ (scanInv_start digNews)
        ⟨[], rfl, by simp [Verifier.Verify],
          (fun a e f hget => by simp [Verifier.Verify, NewNamedAddressCache, GoMap.get] at hget),
          by simp⟩
    obtain ⟨received, hrec, hnews, _, _⟩ := hsrc
    obtain ⟨d, hd, hname, haddr, hsame⟩ := hnews r hr
    have hdD : d ∈ digNews := by
      rw [hrec]
      exact List.mem_append_left _ hd
    have hempty : r.Addr = "" := haddr.symm.trans (hno d hdD hname)
    have hrd : r = d := hsame hempty
    subst hrd
    have hq := hD r hdD
    exact ⟨hdD, hempty, hq, by rw [hq]; simp [Quality.IsTerminal]⟩

theorem resolved_names_are_served_witness :
    ∃ r ∈ (scan ⟨3, 50, none⟩ (fun _ => (none, PingOutcome.statistics 3))
        [placeholderOf "foo.", namedRecord "foo." "10.0.0.2" Quality.Unverified none]
        [ScanAction.input, ScanAction.input, ScanAction.verdict, ScanAction.finish 0,
          ScanAction.verdict]).verify.news,
      r.Name = (namedRecord "foo." "10.0.0.2" Quality.Unverified none).Name ∧
        r.Addr = (namedRecord "foo." "10.0.0.2" Quality.Unverified none).Addr ∧
        r.Quality.IsTerminal :=
  (resolved_names_are_served ⟨3, 50, none⟩ (fun _ => (none, PingOutcome.statistics 3))
    [placeholderOf "foo.", namedRecord "foo." "10.0.0.2" Quality.Unverified none]
    (by decide)).2.1
    [ScanAction.input, ScanAction.input, ScanAction.verdict, ScanAction.finish 0,
      ScanAction.verdict]
    (by decide) (by decide) (by decide)
    (namedRecord "foo." "10.0.0.2" Quality.Unverified none) (by decide) (by decide)

end Mobydig
